import Mathlib

/-!
Verification development for the Gemini automation server
(`server.js` of the `Gemini-automation` repository).

The development shallowly embeds the three cores of the server:

* the JSON cleaning / validation step `cleanJsonResponse` together with a
  model of the JavaScript `JSON.parse` grammar (Section 1 and 2);
* the completion detector of `waitForResponse` (the MutationObserver /
  polling loop inside `page.evaluate`) and the extraction step that follows
  it (Section 3);
* the request coordinator `sendToGemini` together with the surrounding
  route handler state (cache, active-request tracking, pause flag), as an
  executable event-loop semantics (Section 4).

Texts are embedded as `List Char`.  Stateful JavaScript is embedded as an
explicit state type with an executable step function; the event list plays
the role of the event-loop schedule, and each event corresponds to one
synchronous segment of the JavaScript code (JavaScript runs each segment
between two `await` points atomically).
-/

namespace GeminiAutomation

/-! ## Section 1: JSON values and a model of JSON.parse -/

/-- Characters treated as insignificant whitespace by the JSON grammar
(space, tab, line feed, carriage return), exactly the set skipped by
`JSON.parse`. -/
def isJsonWs (c : Char) : Bool :=
  c = ' ' || c = '\t' || c = '\n' || c = '\r'

/-- Drop leading JSON whitespace. -/
def skipWs (cs : List Char) : List Char :=
  cs.dropWhile isJsonWs

/-- Parsed JSON value.  String contents are the decoded characters; numbers
keep their raw lexeme (the byte-faithful representation, which is what the
record-content comparisons in the claims are about). -/
inductive JVal where
  | jnull
  | jbool (b : Bool)
  | jnum (lexeme : List Char)
  | jstr (s : List Char)
  | jarr (elems : List JVal)
  | jobj (fields : List (List Char × JVal))

/-- Value of a hexadecimal digit, used for the \uXXXX escapes of JSON
strings. -/
def hexVal (c : Char) : Option Nat :=
  if '0' ≤ c ∧ c ≤ '9' then some (c.toNat - 48)
  else if 'a' ≤ c ∧ c ≤ 'f' then some (c.toNat - 87)
  else if 'A' ≤ c ∧ c ≤ 'F' then some (c.toNat - 55)
  else none

/-- Parse the body of a JSON string after the opening quote, decoding the
escape sequences `JSON.parse` accepts, up to and including the closing
quote.  Returns the decoded characters and the remaining input.  Literal
control characters below 0x20 are rejected, as in `JSON.parse`.  (A \uXXXX
escape in the surrogate range decodes to a default character here, since
`Char` holds scalar values only; no claim depends on surrogate pairs.) -/
def parseStringBody : Nat → List Char → Option (List Char × List Char)
  | 0, _ => none
  | _, [] => none
  | fuel + 1, c :: rest =>
    if c = '"' then some ([], rest)
    else if c = '\\' then
      match rest with
      | [] => none
      | e :: rest2 =>
        if e = '"' ∨ e = '\\' ∨ e = '/' then
          (parseStringBody fuel rest2).map (fun pr => (e :: pr.1, pr.2))
        else if e = 'b' then
          (parseStringBody fuel rest2).map (fun pr => (Char.ofNat 8 :: pr.1, pr.2))
        else if e = 'f' then
          (parseStringBody fuel rest2).map (fun pr => (Char.ofNat 12 :: pr.1, pr.2))
        else if e = 'n' then
          (parseStringBody fuel rest2).map (fun pr => ('\n' :: pr.1, pr.2))
        else if e = 'r' then
          (parseStringBody fuel rest2).map (fun pr => ('\r' :: pr.1, pr.2))
        else if e = 't' then
          (parseStringBody fuel rest2).map (fun pr => ('\t' :: pr.1, pr.2))
        else if e = 'u' then
          match rest2 with
          | h1 :: h2 :: h3 :: h4 :: rest3 =>
            match hexVal h1, hexVal h2, hexVal h3, hexVal h4 with
            | some a, some b, some c2, some d =>
              (parseStringBody fuel rest3).map
                (fun pr => (Char.ofNat (a * 4096 + b * 256 + c2 * 16 + d) :: pr.1, pr.2))
            | _, _, _, _ => none
          | _ => none
        else none
    else if c.toNat < 32 then none
    else (parseStringBody fuel rest).map (fun pr => (c :: pr.1, pr.2))

/-- Lex the optional fraction part of a JSON number.  A bare dot with no
following digit is a syntax error, as in `JSON.parse`. -/
def lexFrac (rest : List Char) : Option (List Char × List Char) :=
  match rest with
  | '.' :: r =>
    let p := r.span Char.isDigit
    if p.1 = [] then none else some ('.' :: p.1, p.2)
  | _ => some ([], rest)

/-- Lex the optional exponent part of a JSON number.  An exponent marker
with no following digit is a syntax error, as in `JSON.parse`.
`signSplit` lexes the optional sign of the exponent. -/
def signSplit (r : List Char) : List Char × List Char :=
  match r with
  | '+' :: q => (['+'], q)
  | '-' :: q => (['-'], q)
  | _ => ([], r)

def lexExp (rest : List Char) : Option (List Char × List Char) :=
  match rest with
  | [] => some ([], [])
  | e :: r =>
    if e = 'e' ∨ e = 'E' then
      let sp := signSplit r
      let p := sp.2.span Char.isDigit
      if p.1 = [] then none else some (e :: (sp.1 ++ p.1), p.2)
    else some ([], e :: r)

/-- Lex a JSON number at the head of the input, returning its raw lexeme
and the remaining input.  Follows the JSON grammar: optional minus, then
either a single 0 or a nonzero digit followed by digits, then optional
fraction and exponent.  `pnBody` lexes the part after the optional minus
sign; `parseNumber` handles the sign. -/
def pnBody (cs : List Char) : Option (List Char × List Char) :=
  match cs with
  | [] => none
  | c :: r =>
    if c = '0' then
      match lexFrac r with
      | none => none
      | some (f, r2) =>
        match lexExp r2 with
        | none => none
        | some (x, r3) => some (c :: (f ++ x), r3)
    else if c.isDigit then
      let p := r.span Char.isDigit
      match lexFrac p.2 with
      | none => none
      | some (f, r2) =>
        match lexExp r2 with
        | none => none
        | some (x, r3) => some (c :: (p.1 ++ f ++ x), r3)
    else none

def parseNumber (cs : List Char) : Option (List Char × List Char) :=
  match cs with
  | '-' :: r => (pnBody r).map (fun pr => ('-' :: pr.1, pr.2))
  | _ => pnBody cs

/-- Opening curly brace character. -/
def lbrace : Char := Char.ofNat 123

/-- Closing curly brace character. -/
def rbrace : Char := Char.ofNat 125

/-- Intermediate results of the combined JSON parser: a single value, a
list of array elements, or a list of object fields. -/
inductive PRes where
  | v (val : JVal)
  | vs (vals : List JVal)
  | fs (fields : List (List Char × JVal))

/-- Grammar positions of the combined JSON parser.  `elems0` is the
position right after an opening bracket (an immediate closing bracket
yields the empty array); `elemsN` expects at least one more element.
`fields0` and `fieldsN` are the analogous positions inside an object. -/
inductive PMode where
  | value | elems0 | elemsN | fields0 | fieldsN
deriving DecidableEq

/-- Combined recursive-descent parser for the `JSON.parse` grammar, with a
fuel argument bounding the recursion depth.  All recursive calls strictly
decrease the fuel, so the definition is structural and computes by kernel
reduction. -/
def parseAny : Nat → PMode → List Char → Option (PRes × List Char)
  | 0, _, _ => none
  | fuel + 1, m, cs =>
    match m with
    | .value =>
      match skipWs cs with
      | [] => none
      | c :: rest =>
        if c = 'n' then
          match rest with
          | 'u' :: 'l' :: 'l' :: r => some (.v .jnull, r)
          | _ => none
        else if c = 't' then
          match rest with
          | 'r' :: 'u' :: 'e' :: r => some (.v (.jbool true), r)
          | _ => none
        else if c = 'f' then
          match rest with
          | 'a' :: 'l' :: 's' :: 'e' :: r => some (.v (.jbool false), r)
          | _ => none
        else if c = '"' then
          match parseStringBody (rest.length + 1) rest with
          | some (s, r) => some (.v (.jstr s), r)
          | none => none
        else if c = '[' then
          match parseAny fuel .elems0 rest with
          | some (.vs vs, r) => some (.v (.jarr vs), r)
          | _ => none
        else if c = lbrace then
          match parseAny fuel .fields0 rest with
          | some (.fs fs, r) => some (.v (.jobj fs), r)
          | _ => none
        else
          match parseNumber (c :: rest) with
          | some (lex, r) => some (.v (.jnum lex), r)
          | none => none
    | .elems0 =>
      match skipWs cs with
      | ']' :: r => some (.vs [], r)
      | _ => parseAny fuel .elemsN cs
    | .elemsN =>
      match parseAny fuel .value cs with
      | some (.v v, r1) =>
        match skipWs r1 with
        | ',' :: r2 =>
          match parseAny fuel .elemsN r2 with
          | some (.vs vs, r3) => some (.vs (v :: vs), r3)
          | _ => none
        | ']' :: r2 => some (.vs [v], r2)
        | _ => none
      | _ => none
    | .fields0 =>
      match skipWs cs with
      | [] => none
      | c :: r =>
        if c = rbrace then some (.fs [], r)
        else parseAny fuel .fieldsN cs
    | .fieldsN =>
      match skipWs cs with
      | [] => none
      | c :: r =>
        if c = '"' then
          match parseStringBody (r.length + 1) r with
          | some (key, r1) =>
            match skipWs r1 with
            | ':' :: r2 =>
              match parseAny fuel .value r2 with
              | some (.v v, r3) =>
                match skipWs r3 with
                | [] => none
                | c2 :: r4 =>
                  if c2 = ',' then
                    match parseAny fuel .fieldsN r4 with
                    | some (.fs fs, r5) => some (.fs ((key, v) :: fs), r5)
                    | _ => none
                  else if c2 = rbrace then some (.fs [(key, v)], r4)
                  else none
              | _ => none
            | _ => none
          | none => none
        else none

/-- Model of `JSON.parse`: succeeds exactly when the whole text (up to
trailing JSON whitespace) is one valid JSON value, and returns that value.
The fuel `3 * length + 8` strictly dominates the recursion depth, which
advances by at most three parser steps per consumed character. -/
def parseTop (cs : List Char) : Option JVal :=
  match parseAny (3 * cs.length + 8) .value cs with
  | some (.v v, rest) => if skipWs rest = [] then some v else none
  | _ => none

/-! ## Section 2: the cleanJsonResponse recovery step of server.js

`cleanJsonResponse(text)` applies, in order: removal of markdown code
fences (the regex replaces /```json\s*/gi and then /```\s*/g), removal of
any text before the first opening bracket or brace, removal of any text
after the last closing bracket or brace, replacement of five HTML
entities, removal of HTML-tag-shaped substrings /<[^>]+>/g, and a final
trim.  It then validates the result with JSON.parse and rethrows the
parse error on failure, returning the cleaned string on success. -/

/-- Backtick character (96), written by code so that the source file
itself contains no backtick tokens. -/
def backtick : Char := Char.ofNat 96

/-- Character class of the regex \s as used by the fence-stripping
replaces (ASCII part: space, tab, newline, carriage return, vertical tab,
form feed).  This is also the set trimmed by String.prototype.trim, up to
non-ASCII space characters that cannot occur in the inputs treated here. -/
def isRegexWs (c : Char) : Bool :=
  c = ' ' || c = '\t' || c = '\n' || c = '\r' || c = Char.ofNat 11 || c = Char.ofNat 12

/-- Head match for the regex /```json\s*/i: three backticks, the letters
json case-insensitively, then greedy whitespace.  Returns the input after
the match. -/
def matchFenceJson (cs : List Char) : Option (List Char) :=
  match cs with
  | b1 :: b2 :: b3 :: j :: s :: o :: n :: rest =>
    if b1 = backtick ∧ b2 = backtick ∧ b3 = backtick ∧
       j.toLower = 'j' ∧ s.toLower = 's' ∧ o.toLower = 'o' ∧ n.toLower = 'n' then
      some (rest.dropWhile isRegexWs)
    else none
  | _ => none

/-- Head match for the regex /```\s*/: three backticks then greedy
whitespace.  Returns the input after the match. -/
def matchFence (cs : List Char) : Option (List Char) :=
  match cs with
  | b1 :: b2 :: b3 :: rest =>
    if b1 = backtick ∧ b2 = backtick ∧ b3 = backtick then
      some (rest.dropWhile isRegexWs)
    else none
  | _ => none

/-- Global replace-with-empty of a head matcher, with the scanning
discipline of a JavaScript /g regex replace: on a match resume after the
matched text, otherwise keep one character and advance.  Every match
consumes at least one character, so fuel `length + 1` always suffices. -/
def stripScan (f : List Char → Option (List Char)) : Nat → List Char → List Char
  | 0, cs => cs
  | fuel + 1, cs =>
    match f cs with
    | some rest => stripScan f fuel rest
    | none =>
      match cs with
      | [] => []
      | c :: r => c :: stripScan f fuel r

/-- Global replacement of a literal pattern by a literal replacement, with
the scanning discipline of a JavaScript /g regex replace (the replacement
text is not rescanned). -/
def replaceScan (pat rep : List Char) : Nat → List Char → List Char
  | 0, cs => cs
  | fuel + 1, cs =>
    if pat.isPrefixOf cs then rep ++ replaceScan pat rep fuel (cs.drop pat.length)
    else
      match cs with
      | [] => []
      | c :: r => c :: replaceScan pat rep fuel r

/-- Replace every occurrence of a literal pattern, supplying sufficient
fuel. -/
def replaceAllLit (pat rep cs : List Char) : List Char :=
  replaceScan pat rep (cs.length + 1) cs

/-- Apostrophe character (39), the replacement text for the HTML entity
of an apostrophe. -/
def aposChar : Char := Char.ofNat 39

/-- The five sequential HTML-entity replaces of cleanJsonResponse:
the quot entity becomes a backslash-escaped quote, and the amp, lt, gt and
apos entities become their plain characters. -/
def entityPass (cs : List Char) : List Char :=
  let t1 := replaceAllLit ("&quot;".data) ("\\\"".data) cs
  let t2 := replaceAllLit ("&amp;".data) (['&']) t1
  let t3 := replaceAllLit ("&lt;".data) (['<']) t2
  let t4 := replaceAllLit ("&gt;".data) (['>']) t3
  replaceAllLit ("&apos;".data) ([aposChar]) t4

/-- Model of `text.substring(jsonStart)` where jsonStart is the smaller of
the first index of an opening bracket and the first index of an opening
brace (no trimming when neither occurs, matching the Infinity check). -/
def dropBeforeFirstBracket (cs : List Char) : List Char :=
  match cs.findIdx? (fun c => c = '['), cs.findIdx? (fun c => c = lbrace) with
  | some i, some j => cs.drop (min i j)
  | some i, none => cs.drop i
  | none, some j => cs.drop j
  | none, none => cs

/-- Last index of a character in a list, via the first index in the
reversed list. -/
def lastIdxOf (c : Char) (cs : List Char) : Option Nat :=
  (cs.reverse.findIdx? (fun x => x = c)).map (fun k => cs.length - 1 - k)

/-- Model of `text.substring(0, jsonEnd + 1)` where jsonEnd is the larger
of the last index of a closing bracket and the last index of a closing
brace (no trimming when neither occurs, matching the -1 check). -/
def cutAfterLastCloser (cs : List Char) : List Char :=
  match lastIdxOf ']' cs, lastIdxOf rbrace cs with
  | some i, some j => cs.take (max i j + 1)
  | some i, none => cs.take (i + 1)
  | none, some j => cs.take (j + 1)
  | none, none => cs

/-- Global removal of HTML-tag-shaped substrings, the regex /<[^>]+>/g: an
opening angle bracket, at least one character that is not a closing angle
bracket, then a closing angle bracket. -/
def stripTags : Nat → List Char → List Char
  | 0, cs => cs
  | fuel + 1, cs =>
    match cs with
    | [] => []
    | c :: r =>
      if c = '<' then
        let p := r.span (fun x => x != '>')
        match p.2 with
        | '>' :: r2 =>
          if p.1 = [] then c :: stripTags fuel r else stripTags fuel r2
        | _ => c :: stripTags fuel r
      else c :: stripTags fuel r

/-- Trim of leading and trailing whitespace, modelling
String.prototype.trim on the ASCII whitespace set. -/
def jsTrim (cs : List Char) : List Char :=
  ((cs.dropWhile isRegexWs).reverse.dropWhile isRegexWs).reverse

/-- The pure text transformation of cleanJsonResponse, before the final
JSON.parse validation: fence removal (json fences first, then plain
fences), trimming to the first opening bracket or brace, cutting after the
last closing bracket or brace, entity fixes, tag removal, and a trim. -/
def cleanedCandidate (cs : List Char) : List Char :=
  let t1 := stripScan matchFenceJson (cs.length + 1) cs
  let t2 := stripScan matchFence (t1.length + 1) t1
  let t3 := dropBeforeFirstBracket t2
  let t4 := cutAfterLastCloser t3
  let t5 := entityPass t4
  let t6 := stripTags (t5.length + 1) t5
  jsTrim t6

/-- Model of cleanJsonResponse: the cleaned text when the final JSON.parse
validation succeeds, and none when the validation throws. -/
def cleanJsonResponse (cs : List Char) : Option (List Char) :=
  if (parseTop (cleanedCandidate cs)).isSome then some (cleanedCandidate cs) else none

/-! ## Section 3: the completion detector of waitForResponse

The detector runs inside `page.evaluate`: a MutationObserver tracks the
time of the last relevant mutation on the last message (and resets the
consecutive-poll counter when one occurs), and a 500 ms interval polls the
four completion signals.  The loop resolves (never rejects) with
`completed = true` after the quorum of consecutive complete polls, or with
`completed = false` when the deadline elapses. -/

/-- Quorum of consecutive complete polls required before declaring
completion (STABLE_CHECKS_NEEDED in server.js, increased from 3 to 5). -/
def STABLE_CHECKS_NEEDED : Nat := 5

/-- Content-stability window in milliseconds (STABLE_DURATION_MS in
server.js, increased from 800 to 1500). -/
def STABLE_DURATION_MS : Nat := 1500

/-- Polling interval of the completion check in milliseconds (the
setInterval period in server.js). -/
def CHECK_INTERVAL_MS : Nat := 500

/-- Default deadline of waitForResponse in milliseconds. -/
def DEFAULT_TIMEOUT_MS : Nat := 180000

/-- Observed state of the response surface at one poll: the three boolean
affordance signals, the time since the last relevant DOM mutation, and
whether a relevant mutation fired since the previous poll (in which case
the MutationObserver callback has reset the consecutive counter). -/
structure PollObs where
  copyButton : Bool
  stopGone : Bool
  cursorGone : Bool
  msSinceMutation : Nat
  mutationSinceLastPoll : Bool
deriving DecidableEq

/-- The completion condition checked on each poll: the copy affordance is
visible, or the stop affordance is gone, the content has been stable for
at least the stability window, and the typing cursor is gone. -/
def isCompleteSignal (p : PollObs) : Bool :=
  p.copyButton || (p.stopGone && decide (STABLE_DURATION_MS ≤ p.msSinceMutation) && p.cursorGone)

/-- One poll of the consecutive-complete counter: a relevant mutation since
the previous poll has already zeroed the counter when the poll runs; a
complete poll then increments it and an incomplete poll resets it to
zero. -/
def pollStep (count : Nat) (p : PollObs) : Nat :=
  if isCompleteSignal p then (if p.mutationSinceLastPoll then 0 else count) + 1 else 0

/-- Result of the detection loop: whether completion was confirmed.  The
loop always resolves with such a value; the deadline produces
`completed = false` rather than a rejection. -/
structure DetectResult where
  completed : Bool
deriving DecidableEq

/-- The polling loop of the detector.  Each entry of the list is the
observation made by one 500 ms tick; `elapsed` is the elapsed time at the
tick and is checked against the deadline before the signals are read,
mirroring the interval callback. -/
def detectLoop (maxWaitMs : Nat) : Nat → Nat → List PollObs → DetectResult
  | _, _, [] => ⟨false⟩
  | elapsed, count, p :: rest =>
    if maxWaitMs ≤ elapsed then ⟨false⟩
    else
      let c := pollStep count p
      if STABLE_CHECKS_NEEDED ≤ c then ⟨true⟩
      else detectLoop maxWaitMs (elapsed + CHECK_INTERVAL_MS) c rest

/-- The detector as started by waitForResponse: first tick at 500 ms
elapsed, counter starting at zero. -/
def detect (maxWaitMs : Nat) (polls : List PollObs) : DetectResult :=
  detectLoop maxWaitMs CHECK_INTERVAL_MS 0 polls

/-- Extractable text regions of the last message element: an optional code
block, an optional markdown container, and the full text content. -/
structure MessageEl where
  codeBlockText : Option (List Char)
  markdownText : Option (List Char)
  fullText : List Char
deriving DecidableEq

/-- Layered extraction preference of waitForResponse: a code block whose
trimmed text exceeds 50 characters, else a markdown container whose
trimmed text exceeds 50 characters, else the trimmed full text. -/
def extractText (m : MessageEl) : List Char :=
  match m.codeBlockText with
  | some t =>
    if 50 < (jsTrim t).length then jsTrim t
    else
      match m.markdownText with
      | some u => if 50 < (jsTrim u).length then jsTrim u else jsTrim m.fullText
      | none => jsTrim m.fullText
  | none =>
    match m.markdownText with
    | some u => if 50 < (jsTrim u).length then jsTrim u else jsTrim m.fullText
    | none => jsTrim m.fullText

/-- Extraction step after the detection loop: fails when no message
elements exist or when the extracted text is shorter than 50 characters,
and otherwise returns the extracted text. -/
def extractResponse (messages : List MessageEl) : Except (List Char) (List Char) :=
  match messages.getLast? with
  | none => .error ("No messages found after waiting".data)
  | some m =>
    let text := extractText m
    if text.length < 50 then .error ("Response too short or empty".data)
    else .ok text

/-- Model of waitForResponse after the response surface appeared: run the
detection loop to its resolved value, then attempt extraction regardless
of whether completion was confirmed (the code only logs differently on the
two branches before extracting). -/
def waitForResponse (maxWaitMs : Nat) (polls : List PollObs)
    (messages : List MessageEl) : Except (List Char) (List Char) :=
  let dr := detect maxWaitMs polls
  match dr with
  | _ => extractResponse messages

/-! ## Section 4: the request coordinator sendToGemini and its routes

The coordinator state of server.js: the response cache (a Map from the
MD5 fingerprint of the input text to the cached raw response and its
timestamp), the single active-request slot (the in-flight promise and the
fingerprint it serves), and the pause flag.  Each event below is one
synchronous segment of the JavaScript code; the JavaScript event loop runs
such segments atomically, and an event list is one possible schedule. -/

/-- Cache retention window in milliseconds (CACHE_EXPIRY_MS). -/
def CACHE_EXPIRY_MS : Nat := 300000

/-- Mandatory pacing delay after a successful exchange in milliseconds:
the `setTimeout(resolve, 2000)` executed after `await requestPromise`
succeeds (the adjacent comment announces five seconds). -/
def successPacingDelayMs : Nat := 2000

/-- Mandatory pacing delay after a failed exchange in milliseconds: the
`setTimeout(resolve, 5000)` executed in the catch block of the request
before the error is rethrown. -/
def errorPacingDelayMs : Nat := 5000

/-- Modelled from the spec: the MD5 hex digest used as the fingerprint is
library code (the node crypto module), not part of the repository.  The
claims use only that it is a deterministic function of the input text
alone, so the digest is embedded as the identity on texts. -/
def md5 (s : String) : String := s

/-- generateCacheKey of server.js: the fingerprint of an input text is the
MD5 digest of the text and of nothing else. -/
def generateCacheKey (text : String) : String := md5 text

/-- One entry of the response cache: the raw response and the time it was
stored. -/
structure CacheEntry where
  response : String
  timestamp : Nat
deriving DecidableEq

/-- Lookup in the insertion-ordered map backing the response cache. -/
def mapGet (m : List (String × CacheEntry)) (k : String) : Option CacheEntry :=
  (m.find? (fun p => p.1 = k)).map (fun p => p.2)

/-- Insertion into the map: replace the entry of an existing key in place,
else append, as Map.prototype.set does. -/
def mapSet (m : List (String × CacheEntry)) (k : String) (v : CacheEntry) :
    List (String × CacheEntry) :=
  if m.any (fun p => p.1 = k) then
    m.map (fun p => if p.1 = k then (k, v) else p)
  else m ++ [(k, v)]

/-- cleanCache of server.js: delete every entry strictly older than the
retention window. -/
def cleanCache (now : Nat) (m : List (String × CacheEntry)) :
    List (String × CacheEntry) :=
  m.filter (fun p => decide (now - p.2.timestamp ≤ CACHE_EXPIRY_MS))

/-- The two schemas selectable per request; the route picks the
short-notes prompt generator exactly when content_type is
short_notes, and the MCQ prompt generator otherwise.  The prompt texts
are opaque here: no control flow of the coordinator reads them. -/
inductive PromptKind where
  | mcq
  | shortNotes
deriving DecidableEq

/-- Prompt selection of the generate-mcqs route. -/
def promptKindOf (contentType : String) : PromptKind :=
  if contentType = "short_notes" then .shortNotes else .mcq

/-- Lifecycle phase of one submission (one call of the route handler and
the sendToGemini exchange it performs).

* `requested`: the request arrived, the route checks have not run;
* `entering`: past the route checks, the synchronous entry segment of
  sendToGemini (cache lookup, active-request check, promise creation and
  slot assignment) has not run;
* `inFlight`: owns a fresh exchange; the session write has not happened;
* `written`: the session write happened, awaiting the response;
* `successDelay`: response received and cached, the request promise is
  resolved, the mandatory post-success delay is running;
* `failedDelay`: the exchange failed, the mandatory in-catch delay is
  running, the request promise is not yet rejected;
* `attached`: awaiting the promise of another submission (the
  single-flight path);
* `doneOk` / `doneErr`: the handler finished. -/
inductive Phase where
  | requested
  | entering
  | inFlight (key : String)
  | written (key : String)
  | successDelay (key : String) (raw : String)
  | failedDelay (key : String)
  | attached (owner : Nat)
  | doneOk (raw : String)
  | doneErr (code : String)
deriving DecidableEq

/-- One submission: its input text, its content_type, and its phase. -/
structure Task where
  text : String
  contentType : String
  phase : Phase
deriving DecidableEq

/-- Coordinator state: the response cache, the single active-request
tracking slot (promise owner and fingerprint), and the pause flag. -/
structure Coord where
  responseCache : List (String × CacheEntry)
  activeRequest : Option Nat
  activeRequestText : Option String
  isPaused : Bool
deriving DecidableEq

/-- Whole-system state: the coordinator globals, the submissions, the log
of session writes (writer, fingerprint, prompt schema written), the log of
mandatory pacing delays started, and a clock that event times must not
precede. -/
structure Sys where
  coord : Coord
  tasks : List (Nat × Task)
  writes : List (Nat × String × PromptKind)
  pacingLog : List Nat
  clock : Nat
deriving DecidableEq

/-- Lookup of a submission by identifier. -/
def taskGet (ts : List (Nat × Task)) (tid : Nat) : Option Task :=
  (ts.find? (fun p => p.1 = tid)).map (fun p => p.2)

/-- Replacement of a submission by identifier. -/
def taskSet (ts : List (Nat × Task)) (tid : Nat) (t : Task) : List (Nat × Task) :=
  ts.map (fun p => if p.1 = tid then (tid, t) else p)

/-- Events of the coordinator, each one synchronous segment of server.js:

* `routeCheck`: the generate-mcqs route runs its pause check;
* `enter`: the synchronous entry of sendToGemini at time `now`: cache
  cleaning and lookup, then either a cache hit, or attachment to an
  in-flight exchange with the same fingerprint, or creation of a new
  request promise and assignment of the tracking slot;
* `write`: the new exchange pastes the prompt into the session input and
  presses Enter;
* `respond`: the response arrives at time `now` with raw text of accepted
  length, is cached, and the request promise resolves; the mandatory
  post-success delay starts;
* `respondFail`: the exchange fails; the mandatory in-catch delay starts;
* `ownerFinish`: the post-success delay ends; the finally block clears
  the tracking slot when it still holds this fingerprint;
* `ownerFail`: the in-catch delay ends, the promise rejects, the finally
  block clears the slot when it still holds this fingerprint;
* `attachedResolve` / `attachedFail`: an attached submission observes the
  resolution or rejection of the promise it awaits (a rejection makes the
  attached catch block null out both tracking globals unconditionally);
* `pause` / `resume`: the pause and resume endpoints. -/
inductive Event where
  | routeCheck (tid : Nat)
  | enter (tid : Nat) (now : Nat)
  | write (tid : Nat)
  | respond (tid : Nat) (raw : String) (now : Nat)
  | respondFail (tid : Nat)
  | ownerFinish (tid : Nat)
  | ownerFail (tid : Nat)
  | attachedResolve (tid : Nat)
  | attachedFail (tid : Nat)
  | pause
  | resume
deriving DecidableEq

/-- The executable step function: the effect of one event on the system
state, or none when the event is not enabled in the state. -/
def step (s : Sys) (e : Event) : Option Sys :=
  match e with
  | .routeCheck tid =>
    match taskGet s.tasks tid with
    | some t =>
      if t.phase = .requested then
        if s.coord.isPaused then
          some { s with tasks := taskSet s.tasks tid { t with phase := .doneErr "PAUSED" } }
        else
          some { s with tasks := taskSet s.tasks tid { t with phase := .entering } }
      else none
    | none => none
  | .enter tid now =>
    match taskGet s.tasks tid with
    | some t =>
      if t.phase = .entering ∧ s.clock ≤ now then
        let key := generateCacheKey t.text
        let cache1 := cleanCache now s.coord.responseCache
        match mapGet cache1 key with
        | some ce =>
          some { s with
            coord := { s.coord with responseCache := cache1 },
            tasks := taskSet s.tasks tid { t with phase := .doneOk ce.response },
            clock := now }
        | none =>
          match s.coord.activeRequest with
          | some owner =>
            if s.coord.activeRequestText = some key then
              some { s with
                coord := { s.coord with responseCache := cache1 },
                tasks := taskSet s.tasks tid { t with phase := .attached owner },
                clock := now }
            else
              some { s with
                coord := { s.coord with
                  responseCache := cache1,
                  activeRequest := some tid,
                  activeRequestText := some key },
                tasks := taskSet s.tasks tid { t with phase := .inFlight key },
                clock := now }
          | none =>
            some { s with
              coord := { s.coord with
                responseCache := cache1,
                activeRequest := some tid,
                activeRequestText := some key },
              tasks := taskSet s.tasks tid { t with phase := .inFlight key },
              clock := now }
      else none
    | none => none
  | .write tid =>
    match taskGet s.tasks tid with
    | some t =>
      match t.phase with
      | .inFlight key =>
        some { s with
          tasks := taskSet s.tasks tid { t with phase := .written key },
          writes := s.writes ++ [(tid, key, promptKindOf t.contentType)] }
      | _ => none
    | none => none
  | .respond tid raw now =>
    match taskGet s.tasks tid with
    | some t =>
      match t.phase with
      | .written key =>
        if 50 ≤ raw.length ∧ s.clock ≤ now then
          some { s with
            coord := { s.coord with
              responseCache := mapSet s.coord.responseCache key ⟨raw, now⟩ },
            tasks := taskSet s.tasks tid { t with phase := .successDelay key raw },
            pacingLog := s.pacingLog ++ [successPacingDelayMs],
            clock := now }
        else none
      | _ => none
    | none => none
  | .respondFail tid =>
    match taskGet s.tasks tid with
    | some t =>
      match t.phase with
      | .written key =>
        some { s with
          tasks := taskSet s.tasks tid { t with phase := .failedDelay key },
          pacingLog := s.pacingLog ++ [errorPacingDelayMs] }
      | _ => none
    | none => none
  | .ownerFinish tid =>
    match taskGet s.tasks tid with
    | some t =>
      match t.phase with
      | .successDelay key raw =>
        let coord1 :=
          if s.coord.activeRequestText = some key then
            { s.coord with activeRequest := none, activeRequestText := none }
          else s.coord
        some { s with
          coord := coord1,
          tasks := taskSet s.tasks tid { t with phase := .doneOk raw } }
      | _ => none
    | none => none
  | .ownerFail tid =>
    match taskGet s.tasks tid with
    | some t =>
      match t.phase with
      | .failedDelay key =>
        let coord1 :=
          if s.coord.activeRequestText = some key then
            { s.coord with activeRequest := none, activeRequestText := none }
          else s.coord
        some { s with
          coord := coord1,
          tasks := taskSet s.tasks tid { t with phase := .doneErr "EXCHANGE" } }
      | _ => none
    | none => none
  | .attachedResolve tid =>
    match taskGet s.tasks tid with
    | some t =>
      match t.phase with
      | .attached owner =>
        match taskGet s.tasks owner with
        | some ot =>
          match ot.phase with
          | .successDelay _ raw =>
            some { s with tasks := taskSet s.tasks tid { t with phase := .doneOk raw } }
          | .doneOk raw =>
            some { s with tasks := taskSet s.tasks tid { t with phase := .doneOk raw } }
          | _ => none
        | none => none
      | _ => none
    | none => none
  | .attachedFail tid =>
    match taskGet s.tasks tid with
    | some t =>
      match t.phase with
      | .attached owner =>
        match taskGet s.tasks owner with
        | some ot =>
          if ot.phase = .doneErr "EXCHANGE" then
            some { s with
              coord := { s.coord with activeRequest := none, activeRequestText := none },
              tasks := taskSet s.tasks tid { t with phase := .doneErr "EXCHANGE" } }
          else none
        | none => none
      | _ => none
    | none => none
  | .pause =>
    some { s with coord := { s.coord with isPaused := true } }
  | .resume =>
    some { s with coord := { s.coord with isPaused := false } }

/-- Run a schedule of events from a state; a disabled event aborts the
run. -/
def run (s : Sys) : List Event → Option Sys
  | [] => some s
  | e :: es =>
    match step s e with
    | some s1 => run s1 es
    | none => none

/-- Initial system: empty cache, empty tracking slot, not paused, no
writes, clock zero, and the given submissions. -/
def initSys (tasks : List (Nat × Task)) : Sys :=
  { coord := { responseCache := [], activeRequest := none, activeRequestText := none,
               isPaused := false },
    tasks := tasks, writes := [], pacingLog := [], clock := 0 }

/-! ## Section 5: lemmas about the cleaning passes -/

/-- A scanning strip pass leaves a text unchanged when the matcher fails
on every suffix. -/
theorem stripScan_eq_self (f : List Char → Option (List Char)) :
    ∀ (fuel : Nat) (cs : List Char), (∀ n, f (cs.drop n) = none) →
      stripScan f fuel cs = cs := by
  intro fuel
  induction fuel with
  | zero => intro cs _; rfl
  | succ m ih =>
    intro cs h
    have h0 : f cs = none := by simpa using h 0
    cases cs with
    | nil => simp [stripScan, h0]
    | cons c r =>
      have hr : ∀ n, f (r.drop n) = none := by
        intro n
        simpa [List.drop_succ_cons] using h (n + 1)
      simp [stripScan, h0, ih r hr]

/-- A successful json-fence match implies the text contains a backtick. -/
theorem matchFenceJson_mem {cs r : List Char} (h : matchFenceJson cs = some r) :
    backtick ∈ cs := by
  unfold matchFenceJson at h
  split at h
  · split at h
    · rename_i hcond
      simp [hcond.1]
    · exact absurd h (by simp)
  · exact absurd h (by simp)

/-- A successful fence match implies the text contains a backtick. -/
theorem matchFence_mem {cs r : List Char} (h : matchFence cs = some r) :
    backtick ∈ cs := by
  unfold matchFence at h
  split at h
  · split at h
    · rename_i hcond
      simp [hcond.1]
    · exact absurd h (by simp)
  · exact absurd h (by simp)

/-- A literal replacement pass leaves a text unchanged when the head
character of the pattern does not occur in the text. -/
theorem replaceScan_eq_self (p : Char) (ps rep : List Char) :
    ∀ (fuel : Nat) (cs : List Char), p ∉ cs →
      replaceScan (p :: ps) rep fuel cs = cs := by
  intro fuel
  induction fuel with
  | zero => intro cs _; rfl
  | succ m ih =>
    intro cs h
    have hpre : ((p :: ps).isPrefixOf cs) = false := by
      rcases hab : (p :: ps).isPrefixOf cs with _ | _
      · rfl
      · exfalso
        have := List.isPrefixOf_iff_prefix.mp hab
        rcases this with ⟨t, ht⟩
        exact h (by rw [← ht]; simp)
    cases cs with
    | nil => simp [replaceScan, hpre]
    | cons c r =>
      have hcr : p ∉ r := fun hm => h (List.mem_cons_of_mem c hm)
      simp [replaceScan, hpre, ih r hcr]

/-- The tag-removal pass leaves a text unchanged when it contains no
opening angle bracket. -/
theorem stripTags_eq_self :
    ∀ (fuel : Nat) (cs : List Char), '<' ∉ cs → stripTags fuel cs = cs := by
  intro fuel
  induction fuel with
  | zero => intro cs _; rfl
  | succ m ih =>
    intro cs h
    cases cs with
    | nil => rfl
    | cons c r =>
      have hc : ¬ c = '<' := fun hr => h (by simp [hr])
      have hcr : '<' ∉ r := fun hm => h (List.mem_cons_of_mem c hm)
      simp [stripTags, hc, ih r hcr]

/-- The entity pass leaves a text unchanged when it contains no
ampersand. -/
theorem entityPass_eq_self {cs : List Char} (h : '&' ∉ cs) : entityPass cs = cs := by
  have e1 : replaceAllLit ("&quot;".data) ("\\\"".data) cs = cs :=
    replaceScan_eq_self '&' _ _ _ cs h
  have e2 : replaceAllLit ("&amp;".data) (['&']) cs = cs :=
    replaceScan_eq_self '&' _ _ _ cs h
  have e3 : replaceAllLit ("&lt;".data) (['<']) cs = cs :=
    replaceScan_eq_self '&' _ _ _ cs h
  have e4 : replaceAllLit ("&gt;".data) (['>']) cs = cs :=
    replaceScan_eq_self '&' _ _ _ cs h
  have e5 : replaceAllLit ("&apos;".data) ([aposChar]) cs = cs :=
    replaceScan_eq_self '&' _ _ _ cs h
  simp only [entityPass]
  rw [e1, e2, e3, e4, e5]

/-- The leading trim to the first opening bracket leaves a text unchanged
when the text starts with an opening bracket. -/
theorem dropBeforeFirstBracket_eq_self {cs : List Char} (h : cs.head? = some '[') :
    dropBeforeFirstBracket cs = cs := by
  cases cs with
  | nil => simp at h
  | cons c r =>
    have hc : c = '[' := by simpa using h
    subst hc
    unfold dropBeforeFirstBracket
    have hfi : ('[' :: r).findIdx? (fun c => c = '[') = some 0 := by
      rw [List.findIdx?_cons]; simp
    rw [hfi]
    cases hj : ('[' :: r).findIdx? (fun c => c = lbrace) with
    | none => simp
    | some j => simp

/-- The trailing cut after the last closing bracket leaves a text
unchanged when the text ends with a closing bracket. -/
theorem cutAfterLastCloser_eq_self {cs : List Char} (h : cs.getLast? = some ']') :
    cutAfterLastCloser cs = cs := by
  have hrev : cs.reverse.head? = some ']' := by rw [List.head?_reverse]; exact h
  have hlen : 1 ≤ cs.length := by
    cases cs with
    | nil => simp at h
    | cons c r => simp
  have hidx : lastIdxOf ']' cs = some (cs.length - 1) := by
    unfold lastIdxOf
    cases hr : cs.reverse with
    | nil => rw [hr] at hrev; simp at hrev
    | cons c t =>
      rw [hr] at hrev
      have hc : c = ']' := by simpa using hrev
      subst hc
      rw [List.findIdx?_cons]
      simp
  unfold cutAfterLastCloser
  rw [hidx]
  cases hj : lastIdxOf rbrace cs with
  | none =>
    apply List.take_of_length_le
    omega
  | some j =>
    apply List.take_of_length_le
    have : cs.length - 1 ≤ max (cs.length - 1) j := le_max_left _ _
    omega

/-- The final trim leaves a text unchanged when it starts with an opening
bracket and ends with a closing bracket. -/
theorem jsTrim_eq_self {cs : List Char} (h1 : cs.head? = some '[')
    (h2 : cs.getLast? = some ']') : jsTrim cs = cs := by
  have hd : cs.dropWhile isRegexWs = cs := by
    cases cs with
    | nil => simp at h1
    | cons c r =>
      have hc : c = '[' := by simpa using h1
      subst hc
      rw [List.dropWhile_cons]
      simp [isRegexWs]
  have hrev : cs.reverse.head? = some ']' := by rw [List.head?_reverse]; exact h2
  have hdr : cs.reverse.dropWhile isRegexWs = cs.reverse := by
    cases hr : cs.reverse with
    | nil => simp
    | cons c t =>
      rw [hr] at hrev
      have hc : c = ']' := by simpa using hrev
      subst hc
      rw [List.dropWhile_cons]
      simp [isRegexWs]
  unfold jsTrim
  rw [hd, hdr, List.reverse_reverse]

/-- The whole cleaning transformation is the identity on a text that
contains no backtick, no ampersand and no opening angle bracket, starts
with an opening bracket, and ends with a closing bracket. -/
theorem cleanedCandidate_eq_self {cs : List Char}
    (hb : backtick ∉ cs) (ha : '&' ∉ cs) (hl : '<' ∉ cs)
    (h1 : cs.head? = some '[') (h2 : cs.getLast? = some ']') :
    cleanedCandidate cs = cs := by
  simp only [cleanedCandidate]
  have hf1 : stripScan matchFenceJson (cs.length + 1) cs = cs := by
    apply stripScan_eq_self
    intro n
    cases hm : matchFenceJson (cs.drop n) with
    | none => rfl
    | some r =>
      exact absurd (List.mem_of_mem_drop (matchFenceJson_mem hm)) hb
  have hf2 : stripScan matchFence (cs.length + 1) cs = cs := by
    apply stripScan_eq_self
    intro n
    cases hm : matchFence (cs.drop n) with
    | none => rfl
    | some r =>
      exact absurd (List.mem_of_mem_drop (matchFence_mem hm)) hb
  rw [hf1, hf2, dropBeforeFirstBracket_eq_self h1, cutAfterLastCloser_eq_self h2,
      entityPass_eq_self ha, stripTags_eq_self _ _ hl, jsTrim_eq_self h1 h2]

/-! ## Section 6: lemmas about the completion detector -/

/-- Existence of a quorum window: some run of STABLE_CHECKS_NEEDED
consecutive polls whose observations all satisfy the completion
condition. -/
def hasQuorumWindow (polls : List PollObs) : Prop :=
  ∃ i < polls.length, i + STABLE_CHECKS_NEEDED ≤ polls.length ∧
    ((polls.drop i).take STABLE_CHECKS_NEEDED).all isCompleteSignal = true

instance (polls : List PollObs) : Decidable (hasQuorumWindow polls) := by
  unfold hasQuorumWindow
  infer_instance

/-- Soundness of the detection loop, generalized over the carried counter:
a loop that declares completion has seen either a full quorum window, or
an all-complete prefix long enough to top up the carried counter to the
quorum. -/
theorem detectLoop_true_quorum :
    ∀ (polls : List PollObs) (mw e count : Nat),
      detectLoop mw e count polls = ⟨true⟩ →
      hasQuorumWindow polls ∨
        (STABLE_CHECKS_NEEDED - count ≤ polls.length ∧
         (polls.take (STABLE_CHECKS_NEEDED - count)).all isCompleteSignal = true) := by
  intro polls
  induction polls with
  | nil =>
    intro mw e count h
    simp [detectLoop] at h
  | cons p rest ih =>
    intro mw e count h
    rw [detectLoop] at h
    by_cases htime : mw ≤ e
    · rw [if_pos htime] at h
      simp at h
    · rw [if_neg htime] at h
      by_cases hquorum : STABLE_CHECKS_NEEDED ≤ pollStep count p
      · right
        have hcomp : isCompleteSignal p = true := by
          by_contra hc
          have : pollStep count p = 0 := by
            simp [pollStep, Bool.not_eq_true] at hc ⊢
            simp [hc]
          rw [this] at hquorum
          simp [STABLE_CHECKS_NEEDED] at hquorum
        have hmut : p.mutationSinceLastPoll = false := by
          by_contra hm
          rw [Bool.not_eq_false] at hm
          have : pollStep count p = 1 := by simp [pollStep, hcomp, hm]
          rw [this] at hquorum
          simp [STABLE_CHECKS_NEEDED] at hquorum
        have hps : pollStep count p = count + 1 := by simp [pollStep, hcomp, hmut]
        rw [hps] at hquorum
        have hcount : 4 ≤ count := by
          simpa [STABLE_CHECKS_NEEDED] using hquorum
        have hcases : STABLE_CHECKS_NEEDED - count = 0 ∨ STABLE_CHECKS_NEEDED - count = 1 := by
          simp only [STABLE_CHECKS_NEEDED]
          omega
        rcases hcases with h0 | h1
        · rw [h0]
          simp
        · rw [h1]
          simp [hcomp]
      · rw [if_neg hquorum] at h
        rcases ih mw (e + CHECK_INTERVAL_MS) (pollStep count p) h with hwin | ⟨hlen, hall⟩
        · left
          rcases hwin with ⟨i, hilt, hile, hiall⟩
          exact ⟨i + 1, by simpa using Nat.succ_lt_succ hilt,
            by simp only [List.length_cons]; omega,
            by simpa using hiall⟩
        · by_cases hcomp : isCompleteSignal p = true
          · by_cases hmut : p.mutationSinceLastPoll = true
            · -- counter restarted at 1: the rest already holds a quorum window
              -- of length four, extended by this complete poll to a full window
              have hps : pollStep count p = 1 := by simp [pollStep, hcomp, hmut]
              rw [hps] at hlen hall
              left
              refine ⟨0, ?_, ?_, ?_⟩
              · simp only [List.length_cons]
                omega
              · simp only [STABLE_CHECKS_NEEDED, List.length_cons] at hlen ⊢
                omega
              · have h4 : STABLE_CHECKS_NEEDED - 1 = 4 := by simp [STABLE_CHECKS_NEEDED]
                rw [h4] at hall
                have h5 : STABLE_CHECKS_NEEDED = 5 := rfl
                rw [List.drop_zero, h5]
                have : (p :: rest).take 5 = p :: rest.take 4 := by
                  simp [List.take_succ_cons]
                rw [this]
                simp [hcomp, hall]
            · rw [Bool.not_eq_true] at hmut
              have hps : pollStep count p = count + 1 := by simp [pollStep, hcomp, hmut]
              rw [hps] at hlen hall
              right
              by_cases hbig : STABLE_CHECKS_NEEDED ≤ count
              · have h0 : STABLE_CHECKS_NEEDED - count = 0 := by omega
                rw [h0]
                simp
              · have hstep : STABLE_CHECKS_NEEDED - count = (STABLE_CHECKS_NEEDED - (count + 1)) + 1 := by
                  omega
                constructor
                · rw [hstep]
                  simp only [List.length_cons]
                  omega
                · rw [hstep, List.take_succ_cons]
                  simp [hcomp, hall]
          · rw [Bool.not_eq_true] at hcomp
            have hps : pollStep count p = 0 := by simp [pollStep, hcomp]
            rw [hps] at hlen hall
            left
            have h50 : STABLE_CHECKS_NEEDED - 0 = STABLE_CHECKS_NEEDED := rfl
            rw [h50] at hlen hall
            refine ⟨1, ?_, ?_, ?_⟩
            · simp only [List.length_cons]
              simp only [STABLE_CHECKS_NEEDED] at hlen
              omega
            · simp only [List.length_cons]
              omega
            · simpa using hall

/-- The detection loop resolves with a negative result once the elapsed
time reaches the deadline, whatever the pending observations are. -/
theorem detectLoop_deadline (mw e count : Nat) (polls : List PollObs)
    (h : mw ≤ e) : detectLoop mw e count polls = ⟨false⟩ := by
  cases polls with
  | nil => rfl
  | cons p rest => rw [detectLoop, if_pos h]

/-! ## Section 7: the claims -/

/-- Input of the C1 counterexample: a text that already parses as a
non-empty JSON array of records, whose string content includes an HTML
amp entity. -/
def c1Input : List Char := "[\x7b\"question\":\"a&amp;b\"\x7d]".data

/-- Output of the cleaning pipeline on the C1 counterexample input: the
entity replace has rewritten the string content. -/
def c1Output : List Char := "[\x7b\"question\":\"a&b\"\x7d]".data

/-- Records of a direct parse of the C1 counterexample input. -/
def c1OrigRecords : List JVal := [.jobj [("question".data, .jstr "a&amp;b".data)]]

/-- Records of a parse of the pipeline output on the C1 counterexample
input. -/
def c1NewRecords : List JVal := [.jobj [("question".data, .jstr "a&b".data)]]

/-- C1 counterexample: the input parses directly as a non-empty JSON array
of records, yet cleanJsonResponse rewrites the amp entity inside an
already-valid string, so the records produced from its output differ from
those of a direct parse — the pipeline does alter text that already
parses. -/
theorem c1_counterexample :
    parseTop c1Input = some (.jarr c1OrigRecords) ∧
    c1OrigRecords ≠ [] ∧
    cleanJsonResponse c1Input = some c1Output ∧
    parseTop c1Output = some (.jarr c1NewRecords) ∧
    c1NewRecords ≠ c1OrigRecords := by
  refine ⟨by rfl, by simp [c1OrigRecords], by decide, by rfl, ?_⟩
  simp [c1NewRecords, c1OrigRecords]

/-- Input of C9: a valid record array followed by one extra closing
bracket, the concrete input named by the spec. -/
def c9Input : List Char := "[\x7b\"id\":1,\"question\":\"Q?\"\x7d] ]".data

/-- The C9 input trimmed to the last matching closer of its well-formed
array, which is what the claim says the pipeline produces. -/
def c9Balanced : List Char := "[\x7b\"id\":1,\"question\":\"Q?\"\x7d]".data

/-- C9 counterexample: on the extra-bracket input, cleanJsonResponse does
not trim to the last matching closer of the well-formed array (its
trailing cut uses the last closing bracket of the whole text, which is the
extra one), and it returns no records at all: the final JSON.parse
validation fails and the function throws. -/
theorem c9_counterexample :
    cleanedCandidate c9Input ≠ c9Balanced ∧
    cleanJsonResponse c9Input = none := by
  exact ⟨by decide, by decide⟩

/-- C9, amended: on the extra-bracket input the cleaning transformation
leaves the text unchanged — the trailing cut keeps everything up to the
last closing bracket, which is the extra bracket itself — the JSON.parse
validation of the unchanged text fails, and cleanJsonResponse therefore
throws instead of returning one record. -/
theorem c9_extra_bracket_throws :
    cleanedCandidate c9Input = c9Input ∧
    parseTop c9Input = none ∧
    cleanJsonResponse c9Input = none ∧
    parseTop c9Balanced = some (.jarr [.jobj
      [("id".data, .jnum ['1']), ("question".data, .jstr "Q?".data)]]) := by
  exact ⟨by decide, by rfl, by decide, by rfl⟩

/-- C3: the quorum debounce of the completion detector.  The constants are
those of the source (quorum five consecutive polls on the 500 ms interval,
1.5 s content-stability window inside the per-poll condition); a poll on
which the completion condition does not hold resets the consecutive count
to zero; completion is declared only when some five consecutive polls all
satisfied the condition, so a signal set that is momentarily complete for
fewer than five polls and then reverts never triggers completion. -/
theorem c3_quorum_debounce :
    (STABLE_CHECKS_NEEDED = 5 ∧ STABLE_DURATION_MS = 1500 ∧ CHECK_INTERVAL_MS = 500) ∧
    (∀ (count : Nat) (p : PollObs), isCompleteSignal p = false → pollStep count p = 0) ∧
    (∀ (mw : Nat) (polls : List PollObs), detect mw polls = ⟨true⟩ → hasQuorumWindow polls) ∧
    (∀ (mw : Nat) (polls : List PollObs), ¬ hasQuorumWindow polls →
      detect mw polls = ⟨false⟩) := by
  refine ⟨⟨rfl, rfl, rfl⟩, ?_, ?_, ?_⟩
  · intro count p h
    simp [pollStep, h]
  · intro mw polls h
    rcases detectLoop_true_quorum polls mw CHECK_INTERVAL_MS 0 h with hwin | ⟨hlen, hall⟩
    · exact hwin
    · refine ⟨0, ?_, ?_, ?_⟩
      · simp only [STABLE_CHECKS_NEEDED] at hlen
        omega
      · simpa using hlen
      · simpa using hall
  · intro mw polls h
    cases hres : detect mw polls with
    | mk b =>
      cases b with
      | false => rfl
      | true =>
        exfalso
        refine h ?_
        have step2 : ∀ (mw2 : Nat) (polls2 : List PollObs),
            detect mw2 polls2 = ⟨true⟩ → hasQuorumWindow polls2 := by
          intro mw2 polls2 h2
          rcases detectLoop_true_quorum polls2 mw2 CHECK_INTERVAL_MS 0 h2 with hwin | ⟨hlen, hall⟩
          · exact hwin
          · refine ⟨0, ?_, ?_, ?_⟩
            · simp only [STABLE_CHECKS_NEEDED] at hlen
              omega
            · simpa using hlen
            · simpa using hall
        exact step2 mw polls hres

/-- A poll observation on which every completion signal is favourable and
content has been stable beyond the window. -/
def pollComplete : PollObs := ⟨true, true, true, 2000, false⟩

/-- A poll observation on which the completion condition fails and a
mutation has just fired. -/
def pollBusy : PollObs := ⟨false, false, false, 0, true⟩

/-- A poll sequence whose longest complete run has length four: quorum is
never reached. -/
def pollsReverting : List PollObs :=
  [pollComplete, pollComplete, pollComplete, pollComplete, pollBusy,
   pollComplete, pollComplete, pollComplete, pollComplete, pollBusy]

/-- A poll sequence with five consecutive complete polls. -/
def pollsSteady : List PollObs :=
  [pollComplete, pollComplete, pollComplete, pollComplete, pollComplete]

/-- Witness for C3 at concrete poll sequences: an incomplete poll resets a
positive count, a steady sequence has a quorum window, and the reverting
sequence never triggers completion. -/
theorem c3_quorum_debounce_witness :
    pollStep 3 pollBusy = 0 ∧
    hasQuorumWindow pollsSteady ∧
    detect DEFAULT_TIMEOUT_MS pollsReverting = ⟨false⟩ := by
  refine ⟨c3_quorum_debounce.2.1 3 pollBusy (by decide), ?_, ?_⟩
  · exact c3_quorum_debounce.2.2.1 DEFAULT_TIMEOUT_MS pollsSteady (by decide)
  · exact c3_quorum_debounce.2.2.2 DEFAULT_TIMEOUT_MS pollsReverting (by decide)

/-- C7: on deadline the detector does not fail.  Once the elapsed time
reaches the 180 s maximum wait the loop resolves with a completed-false
value (its result type carries no exception at all); when the quorum is
never met the started loop likewise resolves completed-false; and
waitForResponse proceeds to attempt extraction of whatever content is
present regardless of the detection outcome. -/
theorem c7_deadline_graceful :
    (DEFAULT_TIMEOUT_MS = 180000) ∧
    (∀ (e count : Nat) (polls : List PollObs), DEFAULT_TIMEOUT_MS ≤ e →
      detectLoop DEFAULT_TIMEOUT_MS e count polls = ⟨false⟩) ∧
    (∀ (polls : List PollObs), ¬ hasQuorumWindow polls →
      (detect DEFAULT_TIMEOUT_MS polls).completed = false) ∧
    (∀ (mw : Nat) (polls : List PollObs) (messages : List MessageEl),
      waitForResponse mw polls messages = extractResponse messages) := by
  refine ⟨rfl, ?_, ?_, ?_⟩
  · intro e count polls h
    exact detectLoop_deadline _ _ _ _ h
  · intro polls h
    cases hres : detect DEFAULT_TIMEOUT_MS polls with
    | mk b =>
      cases b with
      | false => rfl
      | true =>
        exfalso
        refine h ?_
        rcases detectLoop_true_quorum polls DEFAULT_TIMEOUT_MS CHECK_INTERVAL_MS 0 hres with
          hwin | ⟨hlen, hall⟩
        · exact hwin
        · refine ⟨0, ?_, ?_, ?_⟩
          · simp only [STABLE_CHECKS_NEEDED] at hlen
            omega
          · simpa using hlen
          · simpa using hall
  · intro mw polls messages
    rfl

/-- A message element carrying a long markdown region, used by the C7
witness. -/
def c7Message : MessageEl :=
  ⟨none, some ("[\x7b\"id\":1,\"question\":\"What is virtual storage in a computer system?\"\x7d]".data),
   "short".data⟩

/-- Witness for C7: at a never-completing poll sequence the detector
reports completed-false and extraction is still attempted and
succeeds. -/
theorem c7_deadline_graceful_witness :
    (detect DEFAULT_TIMEOUT_MS pollsReverting).completed = false ∧
    detectLoop DEFAULT_TIMEOUT_MS 180000 0 pollsReverting = ⟨false⟩ ∧
    waitForResponse DEFAULT_TIMEOUT_MS pollsReverting [c7Message] =
      extractResponse [c7Message] ∧
    waitForResponse DEFAULT_TIMEOUT_MS pollsReverting [c7Message] =
      .ok ("[\x7b\"id\":1,\"question\":\"What is virtual storage in a computer system?\"\x7d]".data) := by
  refine ⟨c7_deadline_graceful.2.2.1 pollsReverting (by decide),
    c7_deadline_graceful.2.1 180000 0 pollsReverting (by decide),
    c7_deadline_graceful.2.2.2 DEFAULT_TIMEOUT_MS pollsReverting [c7Message], by rfl⟩

/-! ## Section 8: lemmas about the coordinator bookkeeping -/

/-- Unfolding of a submission lookup on a nonempty list. -/
theorem taskGet_cons (p : Nat × Task) (rest : List (Nat × Task)) (tid : Nat) :
    taskGet (p :: rest) tid = if p.1 = tid then some p.2 else taskGet rest tid := by
  unfold taskGet
  by_cases hp : p.1 = tid
  · simp [List.find?, hp]
  · simp [List.find?, hp]

/-- Unfolding of a submission update on a nonempty list. -/
theorem taskSet_cons (p : Nat × Task) (rest : List (Nat × Task)) (tid : Nat) (t' : Task) :
    taskSet (p :: rest) tid t' =
      (if p.1 = tid then (tid, t') else p) :: taskSet rest tid t' := rfl

/-- Updating a submission changes its own lookup to the new value. -/
theorem taskGet_taskSet_self (ts : List (Nat × Task)) (tid : Nat) (t t' : Task)
    (h : taskGet ts tid = some t) : taskGet (taskSet ts tid t') tid = some t' := by
  induction ts with
  | nil => simp [taskGet] at h
  | cons p rest ih =>
    rw [taskSet_cons]
    by_cases hp : p.1 = tid
    · rw [if_pos hp, taskGet_cons]
      simp
    · rw [if_neg hp, taskGet_cons, if_neg hp]
      rw [taskGet_cons, if_neg hp] at h
      exact ih h

/-- Updating a submission leaves the lookups of the others unchanged. -/
theorem taskGet_taskSet_ne (ts : List (Nat × Task)) (tid tid' : Nat) (t' : Task)
    (h : tid' ≠ tid) : taskGet (taskSet ts tid t') tid' = taskGet ts tid' := by
  induction ts with
  | nil => rfl
  | cons p rest ih =>
    rw [taskSet_cons]
    by_cases hp : p.1 = tid
    · rw [if_pos hp, taskGet_cons, taskGet_cons]
      have h1 : ¬ (tid = tid') := fun he => h he.symm
      have h2 : ¬ (p.1 = tid') := by rw [hp]; exact h1
      rw [if_neg h1, if_neg h2]
      exact ih
    · rw [if_neg hp, taskGet_cons, taskGet_cons]
      by_cases hq : p.1 = tid'
      · rw [if_pos hq, if_pos hq]
      · rw [if_neg hq, if_neg hq]
        exact ih

/-- A raw response text of accepted length (at least 50 characters), used
by the concrete coordinator traces. -/
def rawOk : String := "0123456789012345678901234567890123456789012345678901234567890123456789"

/-- Initial state of the C4 counterexample: two submissions with different
input texts, hence different fingerprints. -/
def c4Init : Sys := initSys [(1, ⟨"A", "mcq", .requested⟩), (2, ⟨"B", "mcq", .requested⟩)]

/-- Schedule of the C4 counterexample: the second submission enters and
writes while the first exchange is still awaiting its response. -/
def c4Evts : List Event :=
  [.routeCheck 1, .enter 1 0, .write 1, .routeCheck 2, .enter 2 0, .write 2]

/-- C4 counterexample: a caller whose fingerprint differs from the one in
flight does not block behind the current exchange.  In the run below the
second submission enters while the first exchange is awaiting its
response, immediately starts its own exchange, and its write reaches the
session: afterwards both submissions are in the written phase at once and
the session write log holds two writes. -/
theorem c4_counterexample :
    generateCacheKey "A" ≠ generateCacheKey "B" ∧
    (run c4Init c4Evts).map (fun s =>
        ((taskGet s.tasks 1).map Task.phase, (taskGet s.tasks 2).map Task.phase,
         s.writes.length)) =
      some (some (.written (generateCacheKey "A")), some (.written (generateCacheKey "B")), 2) := by
  exact ⟨by decide, by decide⟩

/-- C4, amended: the coordinator has a single tracking slot, not a
fingerprint-keyed queue.  A caller that misses the cache and whose
fingerprint differs from the one in the slot starts a second concurrent
exchange immediately, overwriting the slot; only a caller whose
fingerprint matches the slot attaches to the in-flight exchange instead of
writing. -/
theorem c4_tracking_slot (s : Sys) (tid now : Nat) (t : Task) (owner : Nat) (k' : String)
    (hget : taskGet s.tasks tid = some t) (hphase : t.phase = .entering)
    (hclock : s.clock ≤ now)
    (hmiss : mapGet (cleanCache now s.coord.responseCache) (generateCacheKey t.text) = none)
    (hactive : s.coord.activeRequest = some owner)
    (htext : s.coord.activeRequestText = some k') :
    (k' ≠ generateCacheKey t.text →
      step s (.enter tid now) = some { s with
        coord := { s.coord with
          responseCache := cleanCache now s.coord.responseCache,
          activeRequest := some tid,
          activeRequestText := some (generateCacheKey t.text) },
        tasks := taskSet s.tasks tid { t with phase := .inFlight (generateCacheKey t.text) },
        clock := now }) ∧
    (k' = generateCacheKey t.text →
      step s (.enter tid now) = some { s with
        coord := { s.coord with responseCache := cleanCache now s.coord.responseCache },
        tasks := taskSet s.tasks tid { t with phase := .attached owner },
        clock := now }) := by
  constructor
  · intro hne
    have hcond : t.phase = Phase.entering ∧ s.clock ≤ now := ⟨hphase, hclock⟩
    have hstne : ¬ (s.coord.activeRequestText = some (generateCacheKey t.text)) := by
      rw [htext]
      intro hcontra
      exact hne (by simpa using hcontra)
    simp only [step, hget, if_pos hcond, hmiss, hactive, if_neg hstne]
  · intro heq
    have hcond : t.phase = Phase.entering ∧ s.clock ≤ now := ⟨hphase, hclock⟩
    have hst : s.coord.activeRequestText = some (generateCacheKey t.text) := by
      rw [htext, heq]
    simp only [step, hget, if_pos hcond, hmiss, hactive, if_pos hst]

/-- State of the C4 witness: submission 1 owns an in-flight exchange for
the text A, submissions 2 and 3 are entering with texts B and A. -/
def c4WitnessSys : Sys :=
  { coord := { responseCache := [], activeRequest := some 1,
               activeRequestText := some (generateCacheKey "A"), isPaused := false },
    tasks := [(1, ⟨"A", "mcq", .inFlight (generateCacheKey "A")⟩),
              (2, ⟨"B", "mcq", .entering⟩), (3, ⟨"A", "mcq", .entering⟩)],
    writes := [], pacingLog := [], clock := 0 }

/-- Witness for the amended C4: at the concrete state, the caller with the
different fingerprint overwrites the slot and starts its own exchange, and
the caller with the matching fingerprint attaches. -/
theorem c4_tracking_slot_witness :
    (step c4WitnessSys (.enter 2 0) = some { c4WitnessSys with
      coord := { c4WitnessSys.coord with
        responseCache := cleanCache 0 c4WitnessSys.coord.responseCache,
        activeRequest := some 2,
        activeRequestText := some (generateCacheKey "B") },
      tasks := taskSet c4WitnessSys.tasks 2 ⟨"B", "mcq", .inFlight (generateCacheKey "B")⟩,
      clock := 0 }) ∧
    (step c4WitnessSys (.enter 3 0) = some { c4WitnessSys with
      coord := { c4WitnessSys.coord with
        responseCache := cleanCache 0 c4WitnessSys.coord.responseCache },
      tasks := taskSet c4WitnessSys.tasks 3 ⟨"A", "mcq", .attached 1⟩,
      clock := 0 }) := by
  constructor
  · exact (c4_tracking_slot c4WitnessSys 2 0 ⟨"B", "mcq", .entering⟩ 1 (generateCacheKey "A")
      (by decide) rfl (by decide) (by decide) rfl rfl).1 (by decide)
  · exact (c4_tracking_slot c4WitnessSys 3 0 ⟨"A", "mcq", .entering⟩ 1 (generateCacheKey "A")
      (by decide) rfl (by decide) (by decide) rfl rfl).2 (by decide)

/-- Cache cleaning preserves the lookup of a non-expired entry (the first
entry of the key is fresh, so it survives the filter and remains the first
match). -/
theorem mapGet_cleanCache_fresh (now : Nat) (k : String) :
    ∀ (m : List (String × CacheEntry)) (ce : CacheEntry),
      mapGet m k = some ce → now - ce.timestamp ≤ CACHE_EXPIRY_MS →
      mapGet (cleanCache now m) k = some ce := by
  intro m
  induction m with
  | nil => intro ce h _; simp [mapGet] at h
  | cons p rest ih =>
    intro ce h hfresh
    by_cases hp : p.1 = k
    · have hce : p.2 = ce := by
        simpa [mapGet, List.find?, hp] using h
      have hkeep : (decide (now - p.2.timestamp ≤ CACHE_EXPIRY_MS)) = true := by
        rw [hce]
        simpa using hfresh
      unfold cleanCache
      rw [List.filter_cons, if_pos hkeep]
      simp [mapGet, List.find?, hp, hce]
    · have h' : mapGet rest k = some ce := by
        simpa [mapGet, List.find?, hp] using h
      have ihr := ih ce h' hfresh
      unfold cleanCache at ihr ⊢
      rw [List.filter_cons]
      by_cases hkeep : (decide (now - p.2.timestamp ≤ CACHE_EXPIRY_MS)) = true
      · rw [if_pos hkeep]
        simpa [mapGet, List.find?, hp] using ihr
      · rw [if_neg hkeep]
        exact ihr

/-- Cache cleaning removes every entry of a key whose entries are all
expired: the lookup after cleaning fails. -/
theorem mapGet_cleanCache_expired (now : Nat) (k : String) :
    ∀ (m : List (String × CacheEntry)),
      (∀ e ∈ m, e.1 = k → CACHE_EXPIRY_MS < now - e.2.timestamp) →
      mapGet (cleanCache now m) k = none := by
  intro m
  induction m with
  | nil => intro _; rfl
  | cons p rest ih =>
    intro h
    have hrest : ∀ e ∈ rest, e.1 = k → CACHE_EXPIRY_MS < now - e.2.timestamp := by
      intro e he hk
      exact h e (List.mem_cons_of_mem p he) hk
    unfold cleanCache at ih ⊢
    rw [List.filter_cons]
    by_cases hkeep : (decide (now - p.2.timestamp ≤ CACHE_EXPIRY_MS)) = true
    · have hpk : ¬ (p.1 = k) := by
        intro hk
        have := h p (List.mem_cons_self p rest) hk
        simp at hkeep
        omega
      rw [if_pos hkeep]
      simpa [mapGet, List.find?, hpk] using ih hrest
    · rw [if_neg hkeep]
      exact ih hrest

/-- C5: the idempotent cache.  A submission whose fingerprint has a fresh
(non-expired) cache entry completes with exactly the cached raw text, with
no session interaction: the write log, the tracking slot and the pause
flag are untouched, and the only state changes are the cache cleaning
itself, the clock, and the submission completing.  Entries whose age
exceeds the five-minute retention are evicted by the cleaning pass rather
than served. -/
theorem c5_idempotent_cache (s : Sys) (tid now : Nat) (t : Task) (ce : CacheEntry)
    (hget : taskGet s.tasks tid = some t) (hphase : t.phase = .entering)
    (hclock : s.clock ≤ now)
    (hcached : mapGet s.coord.responseCache (generateCacheKey t.text) = some ce)
    (hfresh : now - ce.timestamp ≤ CACHE_EXPIRY_MS) :
    (step s (.enter tid now) = some { s with
      coord := { s.coord with responseCache := cleanCache now s.coord.responseCache },
      tasks := taskSet s.tasks tid { t with phase := .doneOk ce.response },
      clock := now }) ∧
    (∀ (k : String) (m : List (String × CacheEntry)),
      (∀ e ∈ m, e.1 = k → CACHE_EXPIRY_MS < now - e.2.timestamp) →
      mapGet (cleanCache now m) k = none) := by
  constructor
  · have hcond : t.phase = Phase.entering ∧ s.clock ≤ now := ⟨hphase, hclock⟩
    have hhit : mapGet (cleanCache now s.coord.responseCache) (generateCacheKey t.text) =
        some ce :=
      mapGet_cleanCache_fresh now (generateCacheKey t.text) s.coord.responseCache ce
        hcached hfresh
    simp only [step, hget, if_pos hcond, hhit]
  · intro k m h
    exact mapGet_cleanCache_expired now k m h

/-- State of the C5 witness: the cache holds a fresh completed entry for
the text A, and submission 1 resubmits the same text. -/
def c5WitnessSys : Sys :=
  { coord := { responseCache := [(generateCacheKey "A", ⟨rawOk, 200000⟩)],
               activeRequest := none, activeRequestText := none, isPaused := false },
    tasks := [(1, ⟨"A", "mcq", .entering⟩)],
    writes := [], pacingLog := [], clock := 200000 }

/-- An expired cache map used by the C5 witness. -/
def c5StaleMap : List (String × CacheEntry) := [(generateCacheKey "A", ⟨rawOk, 0⟩)]

/-- Witness for C5: the resubmission is served the cached raw text with no
session write, and an entry older than the retention window is evicted
rather than served. -/
theorem c5_idempotent_cache_witness :
    (step c5WitnessSys (.enter 1 400000) = some { c5WitnessSys with
      coord := { c5WitnessSys.coord with
        responseCache := cleanCache 400000 c5WitnessSys.coord.responseCache },
      tasks := taskSet c5WitnessSys.tasks 1 ⟨"A", "mcq", .doneOk rawOk⟩,
      clock := 400000 }) ∧
    mapGet (cleanCache 400000 c5StaleMap) (generateCacheKey "A") = none := by
  have h := c5_idempotent_cache c5WitnessSys 1 400000 ⟨"A", "mcq", .entering⟩ ⟨rawOk, 200000⟩
    (by decide) rfl (by decide) (by decide) (by decide)
  exact ⟨h.1, h.2 (generateCacheKey "A") c5StaleMap (by decide)⟩

/-- C6: pause fast-fail.  With the pause flag set, the route check fails a
new submission with the PAUSED error code while touching nothing else — in
particular no session write is attempted — and a submission that is
already past the write step still runs to completion: the respond and
finish steps remain enabled while paused and end in a successful
completion. -/
theorem c6_pause_fast_fail (s : Sys) (tid : Nat) (t : Task)
    (hget : taskGet s.tasks tid = some t) (hpaused : s.coord.isPaused = true) :
    (t.phase = .requested →
      step s (.routeCheck tid) = some { s with
        tasks := taskSet s.tasks tid { t with phase := .doneErr "PAUSED" } }) ∧
    (∀ (k raw : String) (now : Nat), t.phase = .written k → 50 ≤ raw.length →
      s.clock ≤ now →
      (run s [.respond tid raw now, .ownerFinish tid]).map
          (fun s2 => (taskGet s2.tasks tid, s2.coord.isPaused)) =
        some (some { t with phase := .doneOk raw }, true)) := by
  constructor
  · intro hphase
    have hcond : t.phase = Phase.requested := hphase
    simp only [step, hget, if_pos hcond, if_pos hpaused]
  · intro k raw now hphase hraw hclock
    have hcond : 50 ≤ raw.length ∧ s.clock ≤ now := ⟨hraw, hclock⟩
    have hstep1 : step s (.respond tid raw now) = some { s with
        coord := { s.coord with
          responseCache := mapSet s.coord.responseCache k ⟨raw, now⟩ },
        tasks := taskSet s.tasks tid { t with phase := .successDelay k raw },
        pacingLog := s.pacingLog ++ [successPacingDelayMs],
        clock := now } := by
      simp only [step, hget, hphase, if_pos hcond]
    have hget1 : taskGet (taskSet s.tasks tid { t with phase := .successDelay k raw }) tid =
        some { t with phase := .successDelay k raw } :=
      taskGet_taskSet_self s.tasks tid t _ hget
    have hget2 : taskGet (taskSet (taskSet s.tasks tid { t with phase := .successDelay k raw })
        tid { t with phase := .doneOk raw }) tid = some { t with phase := .doneOk raw } :=
      taskGet_taskSet_self _ tid _ _ hget1
    rw [run, hstep1]
    simp only [run, step, hget1]
    by_cases hcase : s.coord.activeRequestText = some k
    · rw [if_pos hcase]
      simp [hget2, hpaused]
    · rw [if_neg hcase]
      simp [hget2, hpaused]

/-- State of the C6 witness: the server is paused while submission 2 is
already past the write step of its exchange; submission 1 arrives new. -/
def c6WitnessSys : Sys :=
  { coord := { responseCache := [], activeRequest := some 2,
               activeRequestText := some (generateCacheKey "B"), isPaused := true },
    tasks := [(1, ⟨"A", "mcq", .requested⟩),
              (2, ⟨"B", "mcq", .written (generateCacheKey "B")⟩)],
    writes := [(2, generateCacheKey "B", .mcq)], pacingLog := [], clock := 0 }

/-- Witness for C6: while paused, the new submission fails with PAUSED and
no state beyond its own phase changes, and the in-flight submission still
completes successfully. -/
theorem c6_pause_fast_fail_witness :
    (step c6WitnessSys (.routeCheck 1) = some { c6WitnessSys with
      tasks := taskSet c6WitnessSys.tasks 1 ⟨"A", "mcq", .doneErr "PAUSED"⟩ }) ∧
    ((run c6WitnessSys [.respond 2 rawOk 10, .ownerFinish 2]).map
        (fun s2 => (taskGet s2.tasks 2, s2.coord.isPaused)) =
      some (some ⟨"B", "mcq", .doneOk rawOk⟩, true)) := by
  constructor
  · exact (c6_pause_fast_fail c6WitnessSys 1 ⟨"A", "mcq", .requested⟩
      (by decide) rfl).1 rfl
  · exact (c6_pause_fast_fail c6WitnessSys 2 ⟨"B", "mcq", .written (generateCacheKey "B")⟩
      (by decide) rfl).2 (generateCacheKey "B") rawOk 10 rfl (by decide) (by decide)

/-- Initial state of the C8 pacing traces: one submission. -/
def c8Init : Sys := initSys [(1, ⟨"A", "mcq", .requested⟩)]

/-- Schedule of a successful exchange. -/
def c8SuccessEvts : List Event :=
  [.routeCheck 1, .enter 1 0, .write 1, .respond 1 rawOk 5, .ownerFinish 1]

/-- Schedule of a failed exchange. -/
def c8FailEvts : List Event :=
  [.routeCheck 1, .enter 1 0, .write 1, .respondFail 1, .ownerFail 1]

/-- C8: a mandatory pacing delay is indeed started on both outcomes of an
exchange, but its duration is not identical: the success path starts a
2000 ms delay (although the adjacent source comment announces five
seconds) while the failure path starts a 5000 ms delay.  The concrete
runs below exercise both paths of the coordinator. -/
theorem c8_pacing_delay_divergence :
    successPacingDelayMs = 2000 ∧ errorPacingDelayMs = 5000 ∧
    successPacingDelayMs ≠ errorPacingDelayMs ∧
    (run c8Init c8SuccessEvts).map (fun s => s.pacingLog) = some [successPacingDelayMs] ∧
    (run c8Init c8FailEvts).map (fun s => s.pacingLog) = some [errorPacingDelayMs] := by
  exact ⟨rfl, rfl, by decide, by decide, by decide⟩

/-- Shared input text of the C10 trace. -/
def c10Text : String := "chapter three of the operating systems textbook"

/-- Initial state of the C10 trace: two submissions with the same input
text but different content types (an MCQ request and a short-notes
request). -/
def c10Init : Sys := initSys
  [(1, ⟨c10Text, "mcq", .requested⟩), (2, ⟨c10Text, "short_notes", .requested⟩)]

/-- Schedule of the C10 trace: the MCQ exchange completes and is cached,
then the short-notes submission with the same text enters within the
retention window. -/
def c10Evts : List Event :=
  [.routeCheck 1, .enter 1 0, .write 1, .respond 1 rawOk 10, .ownerFinish 1,
   .routeCheck 2, .enter 2 20]

/-- C10: the fingerprint is computed from the input text alone — the
content type and hence the system prompt are not part of it — so two
submissions with identical text and different content types share one
cache entry and one exchange.  In the run below the only session write
carries the MCQ prompt, and the later short-notes submission is served the
raw response produced for that MCQ prompt straight from the cache. -/
theorem c10_fingerprint_ignores_content_type :
    (∀ text : String, generateCacheKey text = md5 text) ∧
    promptKindOf "mcq" = .mcq ∧ promptKindOf "short_notes" = .shortNotes ∧
    (run c10Init c10Evts).map (fun s =>
        ((taskGet s.tasks 2).map Task.phase, s.writes)) =
      some (some (.doneOk rawOk), [(1, generateCacheKey c10Text, .mcq)]) := by
  exact ⟨fun _ => rfl, rfl, rfl, by decide⟩

/-! ## Section 9: the single-flight invariant -/

/-- A successful submission lookup corresponds to membership. -/
theorem taskGet_mem {ts : List (Nat × Task)} {tid : Nat} {t : Task}
    (h : taskGet ts tid = some t) : (tid, t) ∈ ts := by
  unfold taskGet at h
  cases hf : ts.find? (fun p => p.1 = tid) with
  | none => rw [hf] at h; simp at h
  | some a =>
    rw [hf] at h
    have ha2 : a.2 = t := by simpa using h
    have ha1 : a.1 = tid := by simpa using List.find?_some hf
    have hmem := List.mem_of_find?_eq_some hf
    have : (tid, t) = a := by
      cases a with
      | mk u v =>
        simp at ha1 ha2
        rw [ha1, ha2]
    rw [this]
    exact hmem

/-- Every member of an updated submission list is the written pair or an
untouched original member. -/
theorem mem_taskSet {ts : List (Nat × Task)} {tid : Nat} {t' : Task}
    {q : Nat × Task} (hq : q ∈ taskSet ts tid t') :
    q = (tid, t') ∨ (q ∈ ts ∧ q.1 ≠ tid) := by
  unfold taskSet at hq
  rcases List.mem_map.mp hq with ⟨p, hp, hfp⟩
  by_cases hcase : p.1 = tid
  · left
    rw [← hfp, if_pos hcase]
  · right
    rw [← hfp, if_neg hcase]
    exact ⟨hp, hcase⟩

/-- Cache cleaning of the empty map. -/
theorem cleanCache_nil (now : Nat) : cleanCache now [] = [] := rfl

/-- Cache cleaning keeps a fresh singleton. -/
theorem cleanCache_singleton_fresh (now : Nat) (k : String) (e : CacheEntry)
    (h : now - e.timestamp ≤ CACHE_EXPIRY_MS) :
    cleanCache now [(k, e)] = [(k, e)] := by
  unfold cleanCache
  rw [List.filter_cons]
  simp [h]

/-- Lookup in a singleton map. -/
theorem mapGet_singleton (k : String) (e : CacheEntry) :
    mapGet [(k, e)] k = some e := by
  simp [mapGet, List.find?]

/-- Insertion into the empty map. -/
theorem mapSet_nil (k : String) (v : CacheEntry) : mapSet [] k v = [(k, v)] := rfl

/-- Phases of a submission that has not interacted with the session: not
yet routed, past the route check but not yet entered, or rejected by the
pause gate. -/
def passivePhase (ph : Phase) : Prop :=
  ph = .requested ∨ ph = .entering ∨ ph = .doneErr "PAUSED"

/-- Owner state before the response arrives: a fresh exchange that has not
written yet (no writes), or one write in the log. -/
def ownerPre (k : String) (ph : Phase) (writes : List (Nat × String × PromptKind))
    (O : Nat) : Prop :=
  (ph = .inFlight k ∧ writes = []) ∨
  (ph = .written k ∧ ∃ pk, writes = [(O, k, pk)])

/-- Mode zero of the single-flight invariant: no exchange has started. -/
def InvM0 (s : Sys) : Prop :=
  s.coord.responseCache = [] ∧ s.coord.activeRequest = none ∧
  s.coord.activeRequestText = none ∧ s.writes = [] ∧
  ∀ p ∈ s.tasks, passivePhase p.2.phase

/-- Mode one: a single owner exchange is in flight (before its response);
the tracking slot holds it, the cache is still empty, and every other
submission is passive or attached to the owner. -/
def InvM1 (x : String) (s : Sys) : Prop :=
  ∃ O tO, taskGet s.tasks O = some tO ∧
    ownerPre (generateCacheKey x) tO.phase s.writes O ∧
    s.coord.activeRequest = some O ∧
    s.coord.activeRequestText = some (generateCacheKey x) ∧
    s.coord.responseCache = [] ∧
    ∀ p ∈ s.tasks, p.1 ≠ O → (passivePhase p.2.phase ∨ p.2.phase = .attached O)

/-- Mode two: the single exchange has produced the response; the cache
holds it, the write log holds the one write, the owner is in its
post-success delay (slot still held) or done (slot cleared), and every
other submission is passive, attached to the owner, or done with the same
raw text. -/
def InvM2 (x : String) (s : Sys) : Prop :=
  ∃ O tO r ts0 pk, taskGet s.tasks O = some tO ∧
    s.coord.responseCache = [(generateCacheKey x, ⟨r, ts0⟩)] ∧
    s.writes = [(O, generateCacheKey x, pk)] ∧
    ((tO.phase = .successDelay (generateCacheKey x) r ∧
      s.coord.activeRequest = some O ∧
      s.coord.activeRequestText = some (generateCacheKey x)) ∨
     (tO.phase = .doneOk r ∧ s.coord.activeRequest = none ∧
      s.coord.activeRequestText = none)) ∧
    ∀ p ∈ s.tasks, p.1 ≠ O →
      (passivePhase p.2.phase ∨ p.2.phase = .attached O ∨ p.2.phase = .doneOk r)

/-- The single-flight invariant for a system whose submissions all carry
the input text x: all submissions still carry x, and the system is in one
of the three modes. -/
def Inv (x : String) (s : Sys) : Prop :=
  (∀ p ∈ s.tasks, p.2.text = x) ∧ (InvM0 s ∨ InvM1 x s ∨ InvM2 x s)

/-- Time stamp carried by an event (zero for the untimed ones). -/
def eventNow : Event → Nat
  | .enter _ n => n
  | .respond _ _ n => n
  | _ => 0

/-- Whether an event is the failure of an exchange. -/
def isFailEvent : Event → Bool
  | .respondFail _ => true
  | _ => false

/-- Texts are preserved when a submission only changes phase. -/
theorem inv_text_taskSet {ts : List (Nat × Task)} {x : String} {tid : Nat} {t : Task}
    (htext : ∀ p ∈ ts, p.2.text = x) (hg : taskGet ts tid = some t) (ph' : Phase) :
    ∀ p ∈ taskSet ts tid { t with phase := ph' }, p.2.text = x := by
  intro p hp
  rcases mem_taskSet hp with he | ⟨hm, _⟩
  · rw [he]
    exact htext (tid, t) (taskGet_mem hg)
  · exact htext p hm

/-- A phase constraint on the non-owner submissions survives an update
that either touches the owner or writes a phase satisfying the
constraint. -/
theorem others_taskSet {ts : List (Nat × Task)} {O tid : Nat} {t' : Task}
    (P : Phase → Prop) (h : ∀ p ∈ ts, p.1 ≠ O → P p.2.phase)
    (hnew : tid = O ∨ P t'.phase) :
    ∀ p ∈ taskSet ts tid t', p.1 ≠ O → P p.2.phase := by
  intro p hp hne
  rcases mem_taskSet hp with he | ⟨hm, _⟩
  · rcases hnew with h1 | h1
    · exfalso
      apply hne
      rw [he, h1]
    · rw [he]
      exact h1
  · exact h p hm hne

/-- Preservation of the single-flight invariant under the route check. -/
theorem inv_routeCheck {x : String} {s s' : Sys} {tid : Nat}
    (hInv : Inv x s) (hstep : step s (.routeCheck tid) = some s') : Inv x s' := by
  have htext := hInv.1
  simp only [step] at hstep
  split at hstep
  case _ t hg =>
    split at hstep
    case isTrue hph =>
      -- the new phase is passive on both branches of the pause flag
      have hmain : ∀ ph' : Phase, passivePhase ph' →
          s' = { s with tasks := taskSet s.tasks tid { t with phase := ph' } } →
          Inv x s' := by
        intro ph' hpassive hs'
        subst hs'
        refine ⟨inv_text_taskSet htext hg ph', ?_⟩
        rcases hInv.2 with hM0 | hM1 | hM2
        · left
          refine ⟨hM0.1, hM0.2.1, hM0.2.2.1, hM0.2.2.2.1, ?_⟩
          intro p hp
          rcases mem_taskSet hp with he | ⟨hm, _⟩
          · rw [he]; exact hpassive
          · exact hM0.2.2.2.2 p hm
        · right; left
          rcases hM1 with ⟨O, tO, hO, hpre, hact, hatxt, hcache, hothers⟩
          have hne : tid ≠ O := by
            intro he
            rw [he, hO] at hg
            have ht : tO = t := by simpa using hg
            rcases hpre with ⟨h1, _⟩ | ⟨h1, _⟩ <;> rw [← ht, h1] at hph <;> simp at hph
          refine ⟨O, tO, ?_, hpre, hact, hatxt, hcache, ?_⟩
          · rw [taskGet_taskSet_ne s.tasks tid O _ (fun he => hne he.symm)]
            exact hO
          · exact others_taskSet (fun ph => passivePhase ph ∨ ph = .attached O) hothers
              (Or.inr (Or.inl hpassive))
        · right; right
          rcases hM2 with ⟨O, tO, r, ts0, pk, hO, hcache, hw, howner, hothers⟩
          have hne : tid ≠ O := by
            intro he
            rw [he, hO] at hg
            have ht : tO = t := by simpa using hg
            rcases howner with ⟨h1, _⟩ | ⟨h1, _⟩ <;> rw [← ht, h1] at hph <;> simp at hph
          refine ⟨O, tO, r, ts0, pk, ?_, hcache, hw, howner, ?_⟩
          · rw [taskGet_taskSet_ne s.tasks tid O _ (fun he => hne he.symm)]
            exact hO
          · exact others_taskSet
              (fun ph => passivePhase ph ∨ ph = .attached O ∨ ph = .doneOk r) hothers
              (Or.inr (Or.inl hpassive))
      split at hstep
      case isTrue hp =>
        exact hmain (.doneErr "PAUSED") (Or.inr (Or.inr rfl)) (Option.some.inj hstep).symm
      case isFalse hp =>
        exact hmain .entering (Or.inr (Or.inl rfl)) (Option.some.inj hstep).symm
    case isFalse hph =>
      exact absurd hstep (by simp)
  case _ hg =>
    exact absurd hstep (by simp)

/-- Preservation of the single-flight invariant under the pause and resume
endpoints, which only touch the pause flag. -/
theorem inv_pauseFlag {x : String} {s s' : Sys} {b : Bool}
    (hInv : Inv x s) (hs' : s' = { s with coord := { s.coord with isPaused := b } }) :
    Inv x s' := by
  subst hs'
  refine ⟨hInv.1, ?_⟩
  rcases hInv.2 with hM0 | hM1 | hM2
  · exact Or.inl ⟨hM0.1, hM0.2.1, hM0.2.2.1, hM0.2.2.2.1, hM0.2.2.2.2⟩
  · rcases hM1 with ⟨O, tO, hO, hpre, hact, hatxt, hcache, hothers⟩
    exact Or.inr (Or.inl ⟨O, tO, hO, hpre, hact, hatxt, hcache, hothers⟩)
  · rcases hM2 with ⟨O, tO, r, ts0, pk, hO, hcache, hw, howner, hothers⟩
    exact Or.inr (Or.inr ⟨O, tO, r, ts0, pk, hO, hcache, hw, howner, hothers⟩)

/-- Preservation of the single-flight invariant under the synchronous
entry segment of sendToGemini, for events inside the retention window. -/
theorem inv_enter {x : String} {s s' : Sys} {tid now : Nat}
    (hInv : Inv x s) (hnow : now ≤ CACHE_EXPIRY_MS)
    (hstep : step s (.enter tid now) = some s') : Inv x s' := by
  have htext := hInv.1
  simp only [step] at hstep
  split at hstep
  case _ t hg =>
    split at hstep
    case isTrue hcond =>
      have htx : t.text = x := htext (tid, t) (taskGet_mem hg)
      have hkey : generateCacheKey t.text = generateCacheKey x := by rw [htx]
      split at hstep
      case _ ce hhit =>
        -- cache hit: only mode two has a non-empty cache
        rcases hInv.2 with hM0 | hM1 | hM2
        · exfalso
          rw [hM0.1, cleanCache_nil] at hhit
          simp [mapGet] at hhit
        · exfalso
          rcases hM1 with ⟨O, tO, hO, hpre, hact, hatxt, hcache, hothers⟩
          rw [hcache, cleanCache_nil] at hhit
          simp [mapGet] at hhit
        · rcases hM2 with ⟨O, tO, r, ts0, pk, hO, hcache, hw, howner, hothers⟩
          have hfresh : now - (⟨r, ts0⟩ : CacheEntry).timestamp ≤ CACHE_EXPIRY_MS :=
            le_trans (Nat.sub_le now ts0) hnow
          have hclean : cleanCache now s.coord.responseCache =
              [(generateCacheKey x, ⟨r, ts0⟩)] := by
            rw [hcache]
            exact cleanCache_singleton_fresh now _ _ hfresh
          have hce : ce = (⟨r, ts0⟩ : CacheEntry) := by
            rw [hclean, hkey, mapGet_singleton] at hhit
            exact (Option.some.inj hhit).symm
          have hne : tid ≠ O := by
            intro he
            rw [he, hO] at hg
            have ht : tO = t := by simpa using hg
            have hph : t.phase = .entering := hcond.1
            rcases howner with ⟨h1, _⟩ | ⟨h1, _⟩ <;> rw [← ht, h1] at hph <;> simp at hph
          have hs' := (Option.some.inj hstep).symm
          subst hs'
          refine ⟨inv_text_taskSet htext hg _, Or.inr (Or.inr ?_)⟩
          refine ⟨O, tO, r, ts0, pk, ?_, ?_, hw, howner, ?_⟩
          · rw [taskGet_taskSet_ne s.tasks tid O _ (fun he => hne he.symm)]
            exact hO
          · exact hclean
          · refine others_taskSet
              (fun ph => passivePhase ph ∨ ph = .attached O ∨ ph = .doneOk r) hothers
              (Or.inr ?_)
            right; right
            rw [hce]
      case _ hmiss =>
        split at hstep
        case _ owner hact0 =>
          split at hstep
          case isTrue hsame =>
            -- attach branch: only mode one is possible
            rcases hInv.2 with hM0 | hM1 | hM2
            · exfalso
              rw [hM0.2.1] at hact0
              simp at hact0
            · rcases hM1 with ⟨O, tO, hO, hpre, hact, hatxt, hcache, hothers⟩
              have howner_eq : owner = O := by
                rw [hact] at hact0
                exact (Option.some.inj hact0).symm
              have hne : tid ≠ O := by
                intro he
                rw [he, hO] at hg
                have ht : tO = t := by simpa using hg
                have hph : t.phase = .entering := hcond.1
                rcases hpre with ⟨h1, _⟩ | ⟨h1, _⟩ <;> rw [← ht, h1] at hph <;> simp at hph
              have hs' := (Option.some.inj hstep).symm
              subst hs'
              refine ⟨inv_text_taskSet htext hg _, Or.inr (Or.inl ?_)⟩
              refine ⟨O, tO, ?_, hpre, hact, hatxt, ?_, ?_⟩
              · rw [taskGet_taskSet_ne s.tasks tid O _ (fun he => hne he.symm)]
                exact hO
              · rw [hcache, cleanCache_nil]
              · refine others_taskSet
                  (fun ph => passivePhase ph ∨ ph = .attached O) hothers (Or.inr ?_)
                right
                rw [howner_eq]
            · exfalso
              rcases hM2 with ⟨O, tO, r, ts0, pk, hO, hcache, hw, howner, hothers⟩
              have hfresh : now - (⟨r, ts0⟩ : CacheEntry).timestamp ≤ CACHE_EXPIRY_MS :=
                le_trans (Nat.sub_le now ts0) hnow
              rw [hcache, cleanCache_singleton_fresh now _ _ hfresh, hkey,
                mapGet_singleton] at hmiss
              simp at hmiss
          case isFalse hdiff =>
            -- new-owner branch while a slot is held: impossible when all
            -- fingerprints coincide
            rcases hInv.2 with hM0 | hM1 | hM2
            · exfalso
              rw [hM0.2.1] at hact0
              simp at hact0
            · exfalso
              rcases hM1 with ⟨O, tO, hO, hpre, hact, hatxt, hcache, hothers⟩
              exact hdiff (by rw [hatxt, hkey])
            · exfalso
              rcases hM2 with ⟨O, tO, r, ts0, pk, hO, hcache, hw, howner, hothers⟩
              have hfresh : now - (⟨r, ts0⟩ : CacheEntry).timestamp ≤ CACHE_EXPIRY_MS :=
                le_trans (Nat.sub_le now ts0) hnow
              rw [hcache, cleanCache_singleton_fresh now _ _ hfresh, hkey,
                mapGet_singleton] at hmiss
              simp at hmiss
        case _ hact0 =>
          -- free slot: a fresh owner starts; only mode zero is possible
          rcases hInv.2 with hM0 | hM1 | hM2
          · have hs' := (Option.some.inj hstep).symm
            subst hs'
            refine ⟨inv_text_taskSet htext hg _, Or.inr (Or.inl ?_)⟩
            refine ⟨tid, { t with phase := .inFlight (generateCacheKey t.text) }, ?_, ?_, ?_, ?_, ?_, ?_⟩
            · exact taskGet_taskSet_self s.tasks tid t _ hg
            · left
              exact ⟨by rw [hkey], hM0.2.2.2.1⟩
            · rfl
            · simp [hkey]
            · rw [hM0.1, cleanCache_nil]
            · refine others_taskSet
                (fun ph => passivePhase ph ∨ ph = .attached tid) ?_ (Or.inl rfl)
              intro p hp hne
              exact Or.inl (hM0.2.2.2.2 p hp)
          · exfalso
            rcases hM1 with ⟨O, tO, hO, hpre, hact, hatxt, hcache, hothers⟩
            rw [hact] at hact0
            simp at hact0
          · exfalso
            rcases hM2 with ⟨O, tO, r, ts0, pk, hO, hcache, hw, howner, hothers⟩
            rcases howner with ⟨h1, hact, hatxt⟩ | ⟨h1, hact, hatxt⟩
            · rw [hact] at hact0
              simp at hact0
            · have hfresh : now - (⟨r, ts0⟩ : CacheEntry).timestamp ≤ CACHE_EXPIRY_MS :=
                le_trans (Nat.sub_le now ts0) hnow
              rw [hcache, cleanCache_singleton_fresh now _ _ hfresh, hkey,
                mapGet_singleton] at hmiss
              simp at hmiss
    case isFalse hcond =>
      exact absurd hstep (by simp)
  case _ hg =>
    exact absurd hstep (by simp)

/-- Preservation of the single-flight invariant under the session
write. -/
theorem inv_write {x : String} {s s' : Sys} {tid : Nat}
    (hInv : Inv x s) (hstep : step s (.write tid) = some s') : Inv x s' := by
  have htext := hInv.1
  simp only [step] at hstep
  split at hstep
  case _ t hg =>
    split at hstep
    case _ key hph =>
      rcases hInv.2 with hM0 | hM1 | hM2
      · exfalso
        have hp := hM0.2.2.2.2 (tid, t) (taskGet_mem hg)
        rw [hph] at hp
        rcases hp with h1 | h1 | h1 <;> simp at h1
      · rcases hM1 with ⟨O, tO, hO, hpre, hact, hatxt, hcache, hothers⟩
        have htidO : tid = O := by
          by_contra hne
          have hp := hothers (tid, t) (taskGet_mem hg) hne
          rw [hph] at hp
          rcases hp with (h1 | h1 | h1) | h1 <;> simp at h1
        subst htidO
        have ht : tO = t := by
          rw [hO] at hg
          simpa using hg
        subst ht
        rcases hpre with ⟨h1, hw⟩ | ⟨h1, _, hw⟩
        · have hkx : key = generateCacheKey x := by
            rw [hph] at h1
            simpa using h1
          have hs' := (Option.some.inj hstep).symm
          subst hs'
          refine ⟨inv_text_taskSet htext hg _, Or.inr (Or.inl ?_)⟩
          refine ⟨tid, { tO with phase := .written key }, ?_, ?_, hact, hatxt, hcache, ?_⟩
          · exact taskGet_taskSet_self s.tasks tid tO _ hg
          · right
            refine ⟨by rw [hkx], promptKindOf tO.contentType, ?_⟩
            rw [hw, hkx]
            simp
          · exact others_taskSet (fun ph => passivePhase ph ∨ ph = .attached tid)
              hothers (Or.inl rfl)
        · exfalso
          rw [hph] at h1
          simp at h1
      · exfalso
        rcases hM2 with ⟨O, tO, r, ts0, pk, hO, hcache, hw, howner, hothers⟩
        by_cases hne : tid = O
        · subst hne
          have ht : tO = t := by
            rw [hO] at hg
            simpa using hg
          rcases howner with ⟨h1, _⟩ | ⟨h1, _⟩ <;> rw [← ht, h1] at hph <;> simp at hph
        · have hp := hothers (tid, t) (taskGet_mem hg) hne
          rw [hph] at hp
          rcases hp with (h1 | h1 | h1) | h1 | h1 <;> simp at h1
    case _ hph =>
      exact absurd hstep (by simp)
  case _ hg =>
    exact absurd hstep (by simp)

/-- Preservation of the single-flight invariant under the arrival of the
response, for events inside the retention window. -/
theorem inv_respond {x : String} {s s' : Sys} {tid now : Nat} {raw : String}
    (hInv : Inv x s) (hstep : step s (.respond tid raw now) = some s') : Inv x s' := by
  have htext := hInv.1
  simp only [step] at hstep
  split at hstep
  case _ t hg =>
    split at hstep
    case _ key hph =>
      split at hstep
      case isTrue hcond =>
        rcases hInv.2 with hM0 | hM1 | hM2
        · exfalso
          have hp := hM0.2.2.2.2 (tid, t) (taskGet_mem hg)
          rw [hph] at hp
          rcases hp with h1 | h1 | h1 <;> simp at h1
        · rcases hM1 with ⟨O, tO, hO, hpre, hact, hatxt, hcache, hothers⟩
          have htidO : tid = O := by
            by_contra hne
            have hp := hothers (tid, t) (taskGet_mem hg) hne
            rw [hph] at hp
            rcases hp with (h1 | h1 | h1) | h1 <;> simp at h1
          subst htidO
          have ht : tO = t := by
            rw [hO] at hg
            simpa using hg
          subst ht
          rcases hpre with ⟨h1, _⟩ | ⟨h1, pk, hw⟩
          · exfalso
            rw [hph] at h1
            simp at h1
          · have hkx : key = generateCacheKey x := by
              rw [hph] at h1
              simpa using h1
            have hs' := (Option.some.inj hstep).symm
            subst hs'
            refine ⟨inv_text_taskSet htext hg _, Or.inr (Or.inr ?_)⟩
            refine ⟨tid, { tO with phase := .successDelay key raw }, raw, now, pk, ?_, ?_, ?_, ?_, ?_⟩
            · exact taskGet_taskSet_self s.tasks tid tO _ hg
            · rw [hcache, hkx, mapSet_nil]
            · exact hw
            · left
              exact ⟨by rw [hkx], hact, hatxt⟩
            · refine others_taskSet
                (fun ph => passivePhase ph ∨ ph = .attached tid ∨ ph = .doneOk raw)
                ?_ (Or.inl rfl)
              intro p hp hne
              rcases hothers p hp hne with h1 | h1
              · exact Or.inl h1
              · exact Or.inr (Or.inl h1)
        · exfalso
          rcases hM2 with ⟨O, tO, r, ts0, pk, hO, hcache, hw, howner, hothers⟩
          by_cases hne : tid = O
          · subst hne
            have ht : tO = t := by
              rw [hO] at hg
              simpa using hg
            rcases howner with ⟨h1, _⟩ | ⟨h1, _⟩ <;> rw [← ht, h1] at hph <;> simp at hph
          · have hp := hothers (tid, t) (taskGet_mem hg) hne
            rw [hph] at hp
            rcases hp with (h1 | h1 | h1) | h1 | h1 <;> simp at h1
      case isFalse hcond =>
        exact absurd hstep (by simp)
    case _ hph =>
      exact absurd hstep (by simp)
  case _ hg =>
    exact absurd hstep (by simp)

/-- Preservation of the single-flight invariant under the end of the
post-success delay. -/
theorem inv_ownerFinish {x : String} {s s' : Sys} {tid : Nat}
    (hInv : Inv x s) (hstep : step s (.ownerFinish tid) = some s') : Inv x s' := by
  have htext := hInv.1
  simp only [step] at hstep
  split at hstep
  case _ t hg =>
    split at hstep
    case _ key raw hph =>
      rcases hInv.2 with hM0 | hM1 | hM2
      · exfalso
        have hp := hM0.2.2.2.2 (tid, t) (taskGet_mem hg)
        rw [hph] at hp
        rcases hp with h1 | h1 | h1 <;> simp at h1
      · exfalso
        rcases hM1 with ⟨O, tO, hO, hpre, hact, hatxt, hcache, hothers⟩
        by_cases hne : tid = O
        · subst hne
          have ht : tO = t := by
            rw [hO] at hg
            simpa using hg
          rcases hpre with ⟨h1, _⟩ | ⟨h1, _⟩ <;> rw [← ht, h1] at hph <;> simp at hph
        · have hp := hothers (tid, t) (taskGet_mem hg) hne
          rw [hph] at hp
          rcases hp with (h1 | h1 | h1) | h1 <;> simp at h1
      · rcases hM2 with ⟨O, tO, r, ts0, pk, hO, hcache, hw, howner, hothers⟩
        have htidO : tid = O := by
          by_contra hne
          have hp := hothers (tid, t) (taskGet_mem hg) hne
          rw [hph] at hp
          rcases hp with (h1 | h1 | h1) | h1 | h1 <;> simp at h1
        subst htidO
        have ht : tO = t := by
          rw [hO] at hg
          simpa using hg
        subst ht
        rcases howner with ⟨h1, hact, hatxt⟩ | ⟨h1, _, _⟩
        · have hkx : key = generateCacheKey x ∧ raw = r := by
            rw [hph] at h1
            constructor
            · exact (Phase.successDelay.inj h1).1
            · exact (Phase.successDelay.inj h1).2
          rw [if_pos (by rw [hatxt, hkx.1])] at hstep
          have hs' := (Option.some.inj hstep).symm
          subst hs'
          refine ⟨inv_text_taskSet htext hg _, Or.inr (Or.inr ?_)⟩
          refine ⟨tid, { tO with phase := .doneOk raw }, r, ts0, pk, ?_, hcache, hw, ?_, ?_⟩
          · exact taskGet_taskSet_self s.tasks tid tO _ hg
          · right
            exact ⟨by rw [hkx.2], rfl, rfl⟩
          · exact others_taskSet
              (fun ph => passivePhase ph ∨ ph = .attached tid ∨ ph = .doneOk r)
              hothers (Or.inl rfl)
        · exfalso
          rw [hph] at h1
          simp at h1
    case _ hph =>
      exact absurd hstep (by simp)
  case _ hg =>
    exact absurd hstep (by simp)

/-- Preservation of the single-flight invariant when an attached
submission observes the resolution of the promise it awaits. -/
theorem inv_attachedResolve {x : String} {s s' : Sys} {tid : Nat}
    (hInv : Inv x s) (hstep : step s (.attachedResolve tid) = some s') : Inv x s' := by
  have htext := hInv.1
  simp only [step] at hstep
  split at hstep
  case _ t hg =>
    split at hstep
    case _ owner hph =>
      split at hstep
      case _ ot hgo =>
        rcases hInv.2 with hM0 | hM1 | hM2
        · exfalso
          have hp := hM0.2.2.2.2 (tid, t) (taskGet_mem hg)
          rw [hph] at hp
          rcases hp with h1 | h1 | h1 <;> simp at h1
        · exfalso
          rcases hM1 with ⟨O, tO, hO, hpre, hact, hatxt, hcache, hothers⟩
          have hne : tid ≠ O := by
            intro he
            subst he
            have ht : tO = t := by
              rw [hO] at hg
              simpa using hg
            rcases hpre with ⟨h1, _⟩ | ⟨h1, _⟩ <;> rw [← ht, h1] at hph <;> simp at hph
          have hp := hothers (tid, t) (taskGet_mem hg) hne
          rw [hph] at hp
          rcases hp with (h1 | h1 | h1) | h1
          · simp at h1
          · simp at h1
          · simp at h1
          · -- the awaited promise is the owner exchange, which is not yet
            -- resolved in mode one: the inner match cannot have fired
            have hoO : owner = O := by simpa using h1
            subst hoO
            rw [hO] at hgo
            have hot : tO = ot := by simpa using hgo
            split at hstep
            case _ k2 r2 hph2 =>
              rcases hpre with ⟨h2, _⟩ | ⟨h2, _⟩ <;> rw [← hot, h2] at hph2 <;> simp at hph2
            case _ r2 hph2 =>
              rcases hpre with ⟨h2, _⟩ | ⟨h2, _⟩ <;> rw [← hot, h2] at hph2 <;> simp at hph2
            case _ hph2a hph2b =>
              exact absurd hstep (by simp)
        · rcases hM2 with ⟨O, tO, r, ts0, pk, hO, hcache, hw, howner, hothers⟩
          have hne : tid ≠ O := by
            intro he
            subst he
            have ht : tO = t := by
              rw [hO] at hg
              simpa using hg
            rcases howner with ⟨h1, _⟩ | ⟨h1, _⟩ <;> rw [← ht, h1] at hph <;> simp at hph
          have hp := hothers (tid, t) (taskGet_mem hg) hne
          rw [hph] at hp
          rcases hp with (h1 | h1 | h1) | h1 | h1
          · simp at h1
          · simp at h1
          · simp at h1
          · have hoO : owner = O := by simpa using h1
            rw [hoO, hO] at hgo
            have hot : tO = ot := by simpa using hgo
            have hmain : ∀ raw2 : String, raw2 = r →
                s' = { s with tasks := taskSet s.tasks tid { t with phase := .doneOk raw2 } } →
                Inv x s' := by
              intro raw2 hr2 hs'
              subst hs'
              rw [hr2]
              refine ⟨inv_text_taskSet htext hg _, Or.inr (Or.inr ?_)⟩
              refine ⟨O, tO, r, ts0, pk, ?_, hcache, hw, howner, ?_⟩
              · rw [taskGet_taskSet_ne s.tasks tid O _ (fun he => hne he.symm)]
                exact hO
              · exact others_taskSet
                  (fun ph => passivePhase ph ∨ ph = .attached O ∨ ph = .doneOk r)
                  hothers (Or.inr (Or.inr (Or.inr rfl)))
            split at hstep
            case _ k2 r2 hph2 =>
              have hr2 : r2 = r := by
                rcases howner with ⟨h2, _⟩ | ⟨h2, _⟩
                · rw [← hot, h2] at hph2
                  exact ((Phase.successDelay.inj hph2).2).symm
                · rw [← hot, h2] at hph2
                  simp at hph2
              exact hmain r2 hr2 (Option.some.inj hstep).symm
            case _ r2 hph2 =>
              have hr2 : r2 = r := by
                rcases howner with ⟨h2, _⟩ | ⟨h2, _⟩
                · rw [← hot, h2] at hph2
                  simp at hph2
                · rw [← hot, h2] at hph2
                  exact (Phase.doneOk.inj hph2).symm
              exact hmain r2 hr2 (Option.some.inj hstep).symm
            case _ hph2a hph2b =>
              exact absurd hstep (by simp)
          · simp at h1
      case _ hgo =>
        exact absurd hstep (by simp)
    case _ hph =>
      exact absurd hstep (by simp)
  case _ hg =>
    exact absurd hstep (by simp)

/-- The exchange-failure cleanup steps are unreachable in failure-free
runs: no submission is ever in the failed-delay or failed-done state under
the invariant. -/
theorem inv_noFailSteps {x : String} {s s' : Sys} {tid : Nat} (hInv : Inv x s) :
    step s (.ownerFail tid) = some s' → False := by
  intro hstep
  simp only [step] at hstep
  split at hstep
  case _ t hg =>
    split at hstep
    case _ key hph =>
      rcases hInv.2 with hM0 | hM1 | hM2
      · have hp := hM0.2.2.2.2 (tid, t) (taskGet_mem hg)
        rw [hph] at hp
        rcases hp with h1 | h1 | h1 <;> simp at h1
      · rcases hM1 with ⟨O, tO, hO, hpre, hact, hatxt, hcache, hothers⟩
        by_cases hne : tid = O
        · subst hne
          have ht : tO = t := by
            rw [hO] at hg
            simpa using hg
          rcases hpre with ⟨h1, _⟩ | ⟨h1, _⟩ <;> rw [← ht, h1] at hph <;> simp at hph
        · have hp := hothers (tid, t) (taskGet_mem hg) hne
          rw [hph] at hp
          rcases hp with (h1 | h1 | h1) | h1 <;> simp at h1
      · rcases hM2 with ⟨O, tO, r, ts0, pk, hO, hcache, hw, howner, hothers⟩
        by_cases hne : tid = O
        · subst hne
          have ht : tO = t := by
            rw [hO] at hg
            simpa using hg
          rcases howner with ⟨h1, _⟩ | ⟨h1, _⟩ <;> rw [← ht, h1] at hph <;> simp at hph
        · have hp := hothers (tid, t) (taskGet_mem hg) hne
          rw [hph] at hp
          rcases hp with (h1 | h1 | h1) | h1 | h1 <;> simp at h1
    case _ hph =>
      exact absurd hstep (by simp)
  case _ hg =>
    exact absurd hstep (by simp)

/-- The attached-rejection step is unreachable in failure-free runs: the
promise an attached submission awaits belongs to the owner, which never
reaches the failed-done state under the invariant. -/
theorem inv_noAttachedFail {x : String} {s s' : Sys} {tid : Nat} (hInv : Inv x s) :
    step s (.attachedFail tid) = some s' → False := by
  intro hstep
  simp only [step] at hstep
  split at hstep
  case _ t hg =>
    split at hstep
    case _ owner hph =>
      split at hstep
      case _ ot hgo =>
        split at hstep
        case isTrue hfail =>
          rcases hInv.2 with hM0 | hM1 | hM2
          · have hp := hM0.2.2.2.2 (tid, t) (taskGet_mem hg)
            rw [hph] at hp
            rcases hp with h1 | h1 | h1 <;> simp at h1
          · rcases hM1 with ⟨O, tO, hO, hpre, hact, hatxt, hcache, hothers⟩
            have hne : tid ≠ O := by
              intro he
              subst he
              have ht : tO = t := by
                rw [hO] at hg
                simpa using hg
              rcases hpre with ⟨h1, _⟩ | ⟨h1, _⟩ <;> rw [← ht, h1] at hph <;> simp at hph
            have hp := hothers (tid, t) (taskGet_mem hg) hne
            rw [hph] at hp
            rcases hp with (h1 | h1 | h1) | h1
            · simp at h1
            · simp at h1
            · simp at h1
            · have hoO : owner = O := by simpa using h1
              subst hoO
              rw [hO] at hgo
              have hot : tO = ot := by simpa using hgo
              rcases hpre with ⟨h2, _⟩ | ⟨h2, _⟩ <;> rw [← hot, h2] at hfail <;> simp at hfail
          · rcases hM2 with ⟨O, tO, r, ts0, pk, hO, hcache, hw, howner, hothers⟩
            have hne : tid ≠ O := by
              intro he
              subst he
              have ht : tO = t := by
                rw [hO] at hg
                simpa using hg
              rcases howner with ⟨h1, _⟩ | ⟨h1, _⟩ <;> rw [← ht, h1] at hph <;> simp at hph
            have hp := hothers (tid, t) (taskGet_mem hg) hne
            rw [hph] at hp
            rcases hp with (h1 | h1 | h1) | h1 | h1
            · simp at h1
            · simp at h1
            · simp at h1
            · have hoO : owner = O := by simpa using h1
              subst hoO
              rw [hO] at hgo
              have hot : tO = ot := by simpa using hgo
              rcases howner with ⟨h2, _⟩ | ⟨h2, _⟩ <;> rw [← hot, h2] at hfail <;> simp at hfail
            · simp at h1
        case isFalse hfail =>
          exact absurd hstep (by simp)
      case _ hgo =>
        exact absurd hstep (by simp)
    case _ hph =>
      exact absurd hstep (by simp)
  case _ hg =>
    exact absurd hstep (by simp)

/-- The single-flight invariant is preserved along any failure-free run
whose event times stay inside the retention window. -/
theorem run_preserves_inv (x : String) :
    ∀ (evts : List Event) (s s' : Sys), Inv x s →
      (∀ e ∈ evts, isFailEvent e = false) →
      (∀ e ∈ evts, eventNow e ≤ CACHE_EXPIRY_MS) →
      run s evts = some s' → Inv x s' := by
  intro evts
  induction evts with
  | nil =>
    intro s s' hInv _ _ hrun
    have : s = s' := by simpa [run] using hrun
    rw [← this]
    exact hInv
  | cons e es ih =>
    intro s s' hInv hnf hnow hrun
    simp only [run] at hrun
    split at hrun
    case _ s1 hs1 =>
      have hInv1 : Inv x s1 := by
        cases e with
        | routeCheck tid => exact inv_routeCheck hInv hs1
        | enter tid now =>
          refine inv_enter hInv ?_ hs1
          simpa [eventNow] using hnow (.enter tid now) (List.mem_cons_self _ _)
        | write tid => exact inv_write hInv hs1
        | respond tid raw now => exact inv_respond hInv hs1
        | respondFail tid =>
          exfalso
          have := hnf (.respondFail tid) (List.mem_cons_self _ _)
          simp [isFailEvent] at this
        | ownerFinish tid => exact inv_ownerFinish hInv hs1
        | ownerFail tid => exact (inv_noFailSteps hInv hs1).elim
        | attachedResolve tid => exact inv_attachedResolve hInv hs1
        | attachedFail tid => exact (inv_noAttachedFail hInv hs1).elim
        | pause =>
          simp only [step] at hs1
          exact inv_pauseFlag hInv (Option.some.inj hs1).symm
        | resume =>
          simp only [step] at hs1
          exact inv_pauseFlag hInv (Option.some.inj hs1).symm
      refine ih s1 s' hInv1 ?_ ?_ hrun
      · intro e2 he2
        exact hnf e2 (List.mem_cons_of_mem e he2)
      · intro e2 he2
        exact hnow e2 (List.mem_cons_of_mem e he2)
    case _ =>
      exact absurd hrun (by simp)

/-- Initial state of the C2 counterexample: submissions 1 and 3 share the
input text A (one fingerprint), submission 2 carries the text B. -/
def c2CexInit : Sys := initSys
  [(1, ⟨"A", "mcq", .requested⟩), (2, ⟨"B", "mcq", .requested⟩),
   (3, ⟨"A", "mcq", .requested⟩)]

/-- Schedule of the C2 counterexample: submission 2 enters between the two
same-fingerprint submissions and overwrites the single tracking slot, so
submission 3 no longer sees an in-flight exchange for its fingerprint. -/
def c2CexEvts : List Event :=
  [.routeCheck 1, .enter 1 0, .routeCheck 2, .enter 2 0, .routeCheck 3, .enter 3 0,
   .write 1, .write 3]

/-- C2 counterexample: two concurrent submissions with the same
fingerprint (texts both A, submissions 1 and 3) produce two session writes
for that fingerprint, because a third concurrent submission with a
different fingerprint overwrote the single tracking slot between them and
the later same-fingerprint caller therefore started a second write instead
of attaching. -/
theorem c2_counterexample :
    (run c2CexInit c2CexEvts).map (fun s =>
        ((taskGet s.tasks 1).map Task.text, (taskGet s.tasks 3).map Task.text,
         (s.writes.filter (fun w => w.2.1 = generateCacheKey "A")).length)) =
      some (some "A", some "A", 2) := by
  decide

/-- C2, amended: the single-flight guarantee holds when no submission with
a different fingerprint interleaves.  For any number of concurrent
submissions that all carry one input text, any failure-free schedule whose
times stay within the cache retention window produces at most one session
write, and all submissions that complete receive the same raw text. -/
theorem c2_single_flight (x : String) (tasks0 : List (Nat × Task)) (evts : List Event)
    (s : Sys)
    (hinit : ∀ p ∈ tasks0, p.2.text = x ∧ p.2.phase = .requested)
    (hnf : ∀ e ∈ evts, isFailEvent e = false)
    (hnow : ∀ e ∈ evts, eventNow e ≤ CACHE_EXPIRY_MS)
    (hrun : run (initSys tasks0) evts = some s) :
    s.writes.length ≤ 1 ∧
    ∀ (tid1 tid2 : Nat) (t1 t2 : Task) (r1 r2 : String),
      taskGet s.tasks tid1 = some t1 → taskGet s.tasks tid2 = some t2 →
      t1.phase = .doneOk r1 → t2.phase = .doneOk r2 → r1 = r2 := by
  have hInv0 : Inv x (initSys tasks0) := by
    refine ⟨fun p hp => (hinit p hp).1, Or.inl ⟨rfl, rfl, rfl, rfl, ?_⟩⟩
    intro p hp
    exact Or.inl (hinit p hp).2
  have hInv := run_preserves_inv x evts (initSys tasks0) s hInv0 hnf hnow hrun
  have hdone : ∀ (tid1 : Nat) (t1 : Task) (r1 : String),
      taskGet s.tasks tid1 = some t1 → t1.phase = .doneOk r1 → InvM2 x s := by
    intro tid1 t1 r1 hg hph
    rcases hInv.2 with hM0 | hM1 | hM2
    · exfalso
      have hp := hM0.2.2.2.2 (tid1, t1) (taskGet_mem hg)
      rw [hph] at hp
      rcases hp with h1 | h1 | h1 <;> simp at h1
    · exfalso
      rcases hM1 with ⟨O, tO, hO, hpre, hact, hatxt, hcache, hothers⟩
      by_cases hne : tid1 = O
      · subst hne
        have ht : tO = t1 := by
          rw [hO] at hg
          simpa using hg
        rcases hpre with ⟨h1, _⟩ | ⟨h1, _⟩ <;> rw [← ht, h1] at hph <;> simp at hph
      · have hp := hothers (tid1, t1) (taskGet_mem hg) hne
        rw [hph] at hp
        rcases hp with (h1 | h1 | h1) | h1 <;> simp at h1
    · exact hM2
  constructor
  · rcases hInv.2 with hM0 | hM1 | hM2
    · rw [hM0.2.2.2.1]
      simp
    · rcases hM1 with ⟨O, tO, hO, hpre, hact, hatxt, hcache, hothers⟩
      rcases hpre with ⟨_, hw⟩ | ⟨_, pk, hw⟩ <;> rw [hw] <;> simp
    · rcases hM2 with ⟨O, tO, r, ts0, pk, hO, hcache, hw, howner, hothers⟩
      rw [hw]
      simp
  · intro tid1 tid2 t1 t2 r1 r2 hg1 hg2 hph1 hph2
    have hM2 := hdone tid1 t1 r1 hg1 hph1
    rcases hM2 with ⟨O, tO, r, ts0, pk, hO, hcache, hw, howner, hothers⟩
    have hval : ∀ (tid3 : Nat) (t3 : Task) (r3 : String),
        taskGet s.tasks tid3 = some t3 → t3.phase = .doneOk r3 → r3 = r := by
      intro tid3 t3 r3 hg3 hph3
      by_cases hne : tid3 = O
      · subst hne
        have ht : tO = t3 := by
          rw [hO] at hg3
          simpa using hg3
        rcases howner with ⟨h1, _⟩ | ⟨h1, _⟩
        · rw [← ht, h1] at hph3
          simp at hph3
        · rw [← ht, h1] at hph3
          exact (Phase.doneOk.inj hph3.symm)
      · have hp := hothers (tid3, t3) (taskGet_mem hg3) hne
        rw [hph3] at hp
        rcases hp with (h1 | h1 | h1) | h1 | h1
        · simp at h1
        · simp at h1
        · simp at h1
        · simp at h1
        · exact Phase.doneOk.inj h1
    rw [hval tid1 t1 r1 hg1 hph1, hval tid2 t2 r2 hg2 hph2]

/-- Submissions of the C2 witness: two concurrent submissions of the
text A. -/
def c2WitnessTasks : List (Nat × Task) :=
  [(1, ⟨"A", "mcq", .requested⟩), (2, ⟨"A", "mcq", .requested⟩)]

/-- Schedule of the C2 witness: the second submission enters while the
first exchange is in flight, attaches, and receives the same raw text. -/
def c2WitnessEvts : List Event :=
  [.routeCheck 1, .enter 1 0, .routeCheck 2, .enter 2 0, .write 1,
   .respond 1 rawOk 5, .attachedResolve 2, .ownerFinish 1]

/-- Final state of the C2 witness run. -/
def c2WitnessFinal : Sys := (run (initSys c2WitnessTasks) c2WitnessEvts).getD (initSys [])

/-- Witness for the amended C2 at the concrete two-submission schedule. -/
theorem c2_single_flight_witness :
    c2WitnessFinal.writes.length ≤ 1 ∧
    ∀ (tid1 tid2 : Nat) (t1 t2 : Task) (r1 r2 : String),
      taskGet c2WitnessFinal.tasks tid1 = some t1 →
      taskGet c2WitnessFinal.tasks tid2 = some t2 →
      t1.phase = .doneOk r1 → t2.phase = .doneOk r2 → r1 = r2 :=
  c2_single_flight "A" c2WitnessTasks c2WitnessEvts c2WitnessFinal
    (by decide) (by decide) (by decide) (by rfl)

/-! ## Section 10: metatheory of the JSON.parse model

Consumption and suffix-invariance lemmas for the parser: a successful
parse consumes a prefix of its input, and replacing the unconsumed suffix
(under a benign side condition on the first character for number lexemes)
reproduces the same result at any sufficient fuel.  These support the
general form of the non-corruption property of cleanJsonResponse. -/

/-- Predicate: every character of a list is JSON whitespace. -/
def allWs (w : List Char) : Prop := ∀ c ∈ w, isJsonWs c = true

/-- Skipping whitespace passes over an all-whitespace prefix. -/
theorem skipWs_append_of_allWs {w : List Char} (u : List Char) (h : allWs w) :
    skipWs (w ++ u) = skipWs u := by
  induction w with
  | nil => rfl
  | cons c t ih =>
    have hc : isJsonWs c = true := h c (List.mem_cons_self c t)
    have ht : allWs t := fun d hd => h d (List.mem_cons_of_mem c hd)
    unfold skipWs at ih ⊢
    rw [List.cons_append, List.dropWhile_cons, if_pos hc]
    exact ih ht

/-- Skipping whitespace stops at a non-whitespace head. -/
theorem skipWs_cons_of_not_ws {c : Char} (u : List Char) (h : isJsonWs c = false) :
    skipWs (c :: u) = c :: u := by
  unfold skipWs
  rw [List.dropWhile_cons, if_neg (by simp [h])]

/-- The head of a list is unchanged when only material beyond an embedded
cons cell changes. -/
theorem head?_append_cons (w : List Char) (c : Char) (t1 t2 : List Char) :
    (w ++ c :: t1).head? = (w ++ c :: t2).head? := by
  cases w <;> simp

/-- A span over the digit predicate splits exactly at a prefix of digits
followed by a non-digit head. -/
theorem span_digits_exact {ds r : List Char}
    (h1 : ∀ c ∈ ds, c.isDigit = true)
    (h2 : ∀ c, r.head? = some c → c.isDigit = false) :
    (ds ++ r).span Char.isDigit = (ds, r) := by
  induction ds with
  | nil =>
    cases r with
    | nil => rfl
    | cons c t =>
      have hc := h2 c rfl
      simp [List.span_eq_take_drop, List.takeWhile_cons, List.dropWhile_cons, hc]
  | cons d t ih =>
    have hd : d.isDigit = true := h1 d (List.mem_cons_self d t)
    have ht : ∀ c ∈ t, c.isDigit = true := fun c hc => h1 c (List.mem_cons_of_mem d hc)
    have := ih ht
    simp [List.span_eq_take_drop, List.takeWhile_cons, List.dropWhile_cons, hd] at this ⊢
    exact ⟨this.1, this.2⟩

/-- Consumption and fuel-generic replay for the string-body parser: a
successful parse consumes a prefix ending at the closing quote, and the
same prefix parses identically before any other suffix, at any fuel
exceeding the prefix length (the string parser never inspects the
suffix). -/
theorem parseStringBody_meta : ∀ (fuel : Nat) (cs s rest : List Char),
    parseStringBody fuel cs = some (s, rest) →
    ∃ pre, cs = pre ++ rest ∧
      ∀ (rest2 : List Char) (fuel2 : Nat), pre.length < fuel2 →
        parseStringBody fuel2 (pre ++ rest2) = some (s, rest2) := by
  intro fuel
  induction fuel with
  | zero => intro cs s rest h; simp [parseStringBody] at h
  | succ f ih =>
    intro cs s rest h
    cases cs with
    | nil => simp [parseStringBody] at h
    | cons c cs1 =>
      simp only [parseStringBody] at h
      by_cases hq : c = '"'
      · rw [if_pos hq] at h
        obtain ⟨hs1, hs2⟩ : [] = s ∧ cs1 = rest := by simpa using h
        refine ⟨[c], by simp [hs2], ?_⟩
        intro rest2 fuel2 hf
        cases fuel2 with
        | zero => omega
        | succ g =>
          simp only [List.singleton_append, parseStringBody]
          simp [hq, ← hs1]
      · rw [if_neg hq] at h
        by_cases hb : c = '\\'
        · rw [if_pos hb] at h
          cases cs1 with
          | nil => simp at h
          | cons e cs2 =>
            simp only [] at h
            by_cases he1 : e = '"' ∨ e = '\\' ∨ e = '/'
            · rw [if_pos he1] at h
              rcases Option.map_eq_some'.mp h with ⟨⟨s', r'⟩, hrec, hval⟩
              obtain ⟨hs1, hs2⟩ : e :: s' = s ∧ r' = rest := by simpa using hval
              rcases ih cs2 s' r' hrec with ⟨pre', hpre', hinv'⟩
              refine ⟨c :: e :: pre', by simp [hpre', hs2], ?_⟩
              intro rest2 fuel2 hf
              cases fuel2 with
              | zero => simp at hf
              | succ g =>
                have hg : pre'.length < g := by simp at hf; omega
                simp only [List.cons_append, parseStringBody]
                simp [hq, hb, he1, hinv' rest2 g hg, ← hs1]
            · rw [if_neg he1] at h
              by_cases he2 : e = 'b'
              · rw [if_pos he2] at h
                rcases Option.map_eq_some'.mp h with ⟨⟨s', r'⟩, hrec, hval⟩
                obtain ⟨hs1, hs2⟩ : Char.ofNat 8 :: s' = s ∧ r' = rest := by simpa using hval
                rcases ih cs2 s' r' hrec with ⟨pre', hpre', hinv'⟩
                refine ⟨c :: e :: pre', by simp [hpre', hs2], ?_⟩
                intro rest2 fuel2 hf
                cases fuel2 with
                | zero => simp at hf
                | succ g =>
                  have hg : pre'.length < g := by simp at hf; omega
                  simp only [List.cons_append, parseStringBody]
                  simp [hq, hb, he1, he2, hinv' rest2 g hg, ← hs1]
              · rw [if_neg he2] at h
                by_cases he3 : e = 'f'
                · rw [if_pos he3] at h
                  rcases Option.map_eq_some'.mp h with ⟨⟨s', r'⟩, hrec, hval⟩
                  obtain ⟨hs1, hs2⟩ : Char.ofNat 12 :: s' = s ∧ r' = rest := by simpa using hval
                  rcases ih cs2 s' r' hrec with ⟨pre', hpre', hinv'⟩
                  refine ⟨c :: e :: pre', by simp [hpre', hs2], ?_⟩
                  intro rest2 fuel2 hf
                  cases fuel2 with
                  | zero => simp at hf
                  | succ g =>
                    have hg : pre'.length < g := by simp at hf; omega
                    simp only [List.cons_append, parseStringBody]
                    simp [hq, hb, he1, he2, he3, hinv' rest2 g hg, ← hs1]
                · rw [if_neg he3] at h
                  by_cases he4 : e = 'n'
                  · rw [if_pos he4] at h
                    rcases Option.map_eq_some'.mp h with ⟨⟨s', r'⟩, hrec, hval⟩
                    obtain ⟨hs1, hs2⟩ : '\n' :: s' = s ∧ r' = rest := by simpa using hval
                    rcases ih cs2 s' r' hrec with ⟨pre', hpre', hinv'⟩
                    refine ⟨c :: e :: pre', by simp [hpre', hs2], ?_⟩
                    intro rest2 fuel2 hf
                    cases fuel2 with
                    | zero => simp at hf
                    | succ g =>
                      have hg : pre'.length < g := by simp at hf; omega
                      simp only [List.cons_append, parseStringBody]
                      simp [hq, hb, he1, he2, he3, he4, hinv' rest2 g hg, ← hs1]
                  · rw [if_neg he4] at h
                    by_cases he5 : e = 'r'
                    · rw [if_pos he5] at h
                      rcases Option.map_eq_some'.mp h with ⟨⟨s', r'⟩, hrec, hval⟩
                      obtain ⟨hs1, hs2⟩ : '\r' :: s' = s ∧ r' = rest := by simpa using hval
                      rcases ih cs2 s' r' hrec with ⟨pre', hpre', hinv'⟩
                      refine ⟨c :: e :: pre', by simp [hpre', hs2], ?_⟩
                      intro rest2 fuel2 hf
                      cases fuel2 with
                      | zero => simp at hf
                      | succ g =>
                        have hg : pre'.length < g := by simp at hf; omega
                        simp only [List.cons_append, parseStringBody]
                        simp [hq, hb, he1, he2, he3, he4, he5, hinv' rest2 g hg, ← hs1]
                    · rw [if_neg he5] at h
                      by_cases he6 : e = 't'
                      · rw [if_pos he6] at h
                        rcases Option.map_eq_some'.mp h with ⟨⟨s', r'⟩, hrec, hval⟩
                        obtain ⟨hs1, hs2⟩ : '\t' :: s' = s ∧ r' = rest := by simpa using hval
                        rcases ih cs2 s' r' hrec with ⟨pre', hpre', hinv'⟩
                        refine ⟨c :: e :: pre', by simp [hpre', hs2], ?_⟩
                        intro rest2 fuel2 hf
                        cases fuel2 with
                        | zero => simp at hf
                        | succ g =>
                          have hg : pre'.length < g := by simp at hf; omega
                          simp only [List.cons_append, parseStringBody]
                          simp [hq, hb, he1, he2, he3, he4, he5, he6,
                            hinv' rest2 g hg, ← hs1]
                      · rw [if_neg he6] at h
                        by_cases he7 : e = 'u'
                        · rw [if_pos he7] at h
                          cases cs2 with
                          | nil => simp only [] at h; simp at h
                          | cons h1c cs3 =>
                          cases cs3 with
                          | nil => simp only [] at h; simp at h
                          | cons h2c cs4 =>
                          cases cs4 with
                          | nil => simp only [] at h; simp at h
                          | cons h3c cs5 =>
                          cases cs5 with
                          | nil => simp only [] at h; simp at h
                          | cons h4c cs6 =>
                            simp only [] at h
                            rcases hx1 : hexVal h1c with _ | a <;> rw [hx1] at h
                            · simp at h
                            · rcases hx2 : hexVal h2c with _ | b2 <;> rw [hx2] at h
                              · simp at h
                              · rcases hx3 : hexVal h3c with _ | c2 <;> rw [hx3] at h
                                · simp at h
                                · rcases hx4 : hexVal h4c with _ | d <;> rw [hx4] at h
                                  · simp at h
                                  · simp only [] at h
                                    rcases Option.map_eq_some'.mp h with ⟨⟨s', r'⟩, hrec, hval⟩
                                    obtain ⟨hs1, hs2⟩ :
                                        Char.ofNat (a * 4096 + b2 * 256 + c2 * 16 + d) :: s' = s ∧ r' = rest := by
                                      simpa using hval
                                    rcases ih cs6 s' r' hrec with ⟨pre', hpre', hinv'⟩
                                    refine ⟨c :: e :: h1c :: h2c :: h3c :: h4c :: pre',
                                      by simp [hpre', hs2], ?_⟩
                                    intro rest2 fuel2 hf
                                    cases fuel2 with
                                    | zero => simp at hf
                                    | succ g =>
                                      have hg : pre'.length < g := by simp at hf; omega
                                      simp only [List.cons_append, parseStringBody]
                                      simp [hq, hb, he1, he2, he3, he4, he5, he6, he7,
                                        hx1, hx2, hx3, hx4, hinv' rest2 g hg, ← hs1]
                        · rw [if_neg he7] at h
                          simp at h
        · rw [if_neg hb] at h
          by_cases hctl : c.toNat < 32
          · rw [if_pos hctl] at h
            simp at h
          · rw [if_neg hctl] at h
            rcases Option.map_eq_some'.mp h with ⟨⟨s', r'⟩, hrec, hval⟩
            obtain ⟨hs1, hs2⟩ : c :: s' = s ∧ r' = rest := by simpa using hval
            rcases ih cs1 s' r' hrec with ⟨pre', hpre', hinv'⟩
            refine ⟨c :: pre', by simp [hpre', hs2], ?_⟩
            intro rest2 fuel2 hf
            cases fuel2 with
            | zero => simp at hf
            | succ g =>
              have hg : pre'.length < g := by simp at hf; omega
              simp only [List.cons_append, parseStringBody]
              simp [hq, hb, hctl, hinv' rest2 g hg, ← hs1]

/-- The head of the list, if any, is not a decimal digit. -/
def headNotDigit (l : List Char) : Prop := ∀ c, l.head? = some c → c.isDigit = false

/-- The head of the list, if any, is not a decimal point. -/
def headNotDot (l : List Char) : Prop := ∀ c, l.head? = some c → c ≠ '.'

/-- The head of the list, if any, is not an exponent marker. -/
def headNotE (l : List Char) : Prop := ∀ c, l.head? = some c → c ≠ 'e' ∧ c ≠ 'E'

/-- Two remainders on which the number lexer makes identical boundary
decisions: either they begin with the same character, or both begin (if
nonempty) with a character that can never extend a number lexeme. -/
def numStop (a b : List Char) : Prop :=
  a.head? = b.head? ∨
    ((∀ c, a.head? = some c → c.isDigit = false ∧ c ≠ '.' ∧ c ≠ 'e' ∧ c ≠ 'E') ∧
     (∀ c, b.head? = some c → c.isDigit = false ∧ c ≠ '.' ∧ c ≠ 'e' ∧ c ≠ 'E'))

theorem numStop_digit {a b : List Char} (hab : numStop a b) (ha : headNotDigit a) :
    headNotDigit b := by
  rcases hab with heq | ⟨_, hb⟩
  · intro c hc; exact ha c (heq ▸ hc)
  · intro c hc; exact (hb c hc).1

theorem numStop_dot {a b : List Char} (hab : numStop a b) (ha : headNotDot a) :
    headNotDot b := by
  rcases hab with heq | ⟨_, hb⟩
  · intro c hc; exact ha c (heq ▸ hc)
  · intro c hc; exact (hb c hc).2.1

theorem numStop_e {a b : List Char} (hab : numStop a b) (ha : headNotE a) :
    headNotE b := by
  rcases hab with heq | ⟨_, hb⟩
  · intro c hc; exact ha c (heq ▸ hc)
  · intro c hc; exact ⟨(hb c hc).2.2.1, (hb c hc).2.2.2⟩

/-- The head of `dropWhile p l`, if any, falsifies `p`. -/
theorem head_dropWhile_false (p : Char → Bool) (l : List Char) :
    ∀ c, (l.dropWhile p).head? = some c → p c = false := by
  induction l with
  | nil => intro c hc; simp at hc
  | cons d t ih =>
    intro c hc
    rw [List.dropWhile_cons] at hc
    by_cases hd : p d
    · rw [if_pos (by simp [hd])] at hc; exact ih c hc
    · rw [if_neg (by simp [hd])] at hc
      simp at hc
      rw [← hc]; simpa using hd

/-- A remainder not headed by a dot lexes an empty fraction part. -/
theorem lexFrac_not_dot {r : List Char} (h : headNotDot r) : lexFrac r = some ([], r) := by
  cases r with
  | nil => rfl
  | cons c t =>
    have hc : c ≠ '.' := h c rfl
    unfold lexFrac
    split
    · rename_i r2 heq
      exact absurd (List.cons.inj heq).1 hc
    · rfl

/-- Replaying a nonempty fraction lexeme before a remainder not headed by
a digit. -/
theorem lexFrac_dot_replay {ds r2 : List Char} (hds : ∀ c ∈ ds, c.isDigit = true)
    (hne : ds ≠ []) (h : headNotDigit r2) :
    lexFrac (('.' :: ds) ++ r2) = some ('.' :: ds, r2) := by
  have hspan : (ds ++ r2).span Char.isDigit = (ds, r2) :=
    span_digits_exact hds (fun c hc => h c hc)
  simp only [lexFrac, List.cons_append, hspan]
  simp [hne]

/-- Characterisation of a successful fraction lex: either nothing was
consumed (and the input is not dot-headed), or a dot followed by a
nonempty digit run was consumed and the remainder is not digit-headed. -/
theorem lexFrac_meta {r f r2 : List Char} (h : lexFrac r = some (f, r2)) :
    r = f ++ r2 ∧
      ((f = [] ∧ r2 = r ∧ headNotDot r) ∨
       (∃ ds, f = '.' :: ds ∧ ds ≠ [] ∧ (∀ c ∈ ds, c.isDigit = true) ∧ headNotDigit r2)) := by
  cases r with
  | nil =>
    obtain ⟨h1, h2⟩ : [] = f ∧ [] = r2 := by simpa [lexFrac] using h
    exact ⟨by simp [← h1, ← h2], Or.inl ⟨h1.symm, h2.symm, fun c hc => by simp at hc⟩⟩
  | cons c t =>
    by_cases hdot : c = '.'
    · subst hdot
      simp only [lexFrac, List.span_eq_take_drop] at h
      by_cases hnil : t.takeWhile Char.isDigit = []
      · rw [if_pos (by simpa using hnil)] at h; simp at h
      · rw [if_neg (by simpa using hnil)] at h
        obtain ⟨h1, h2⟩ : '.' :: t.takeWhile Char.isDigit = f ∧ t.dropWhile Char.isDigit = r2 := by
          simpa using h
        refine ⟨?_, Or.inr ⟨t.takeWhile Char.isDigit, h1.symm, hnil,
          fun c hc => List.mem_takeWhile_imp hc, ?_⟩⟩
        · rw [← h1, ← h2]
          simp [List.takeWhile_append_dropWhile]
        · intro c hc
          exact head_dropWhile_false Char.isDigit t c (h2 ▸ hc)
    · have hnd : headNotDot (c :: t) := fun d hd => by
        simp at hd; rw [← hd]; exact hdot
      rw [lexFrac_not_dot hnd] at h
      obtain ⟨h1, h2⟩ : [] = f ∧ c :: t = r2 := by simpa using h
      exact ⟨by simp [← h1, ← h2], Or.inl ⟨h1.symm, h2.symm, hnd⟩⟩

/-- The sign splitter is inert on input not headed by a sign. -/
theorem signSplit_other {r : List Char}
    (h : ∀ c, r.head? = some c → c ≠ '+' ∧ c ≠ '-') : signSplit r = ([], r) := by
  cases r with
  | nil => rfl
  | cons c t =>
    have hc := h c rfl
    unfold signSplit
    split
    · rename_i q heq
      exact absurd (List.cons.inj heq).1 hc.1
    · rename_i q heq
      exact absurd (List.cons.inj heq).1 hc.2
    · rfl

/-- The sign splitter consumes a plus sign. -/
theorem signSplit_plus (q : List Char) : signSplit ('+' :: q) = (['+'], q) := rfl

/-- The sign splitter consumes a minus sign. -/
theorem signSplit_minus (q : List Char) : signSplit ('-' :: q) = (['-'], q) := rfl

/-- Any sign-splitter result decomposes its input, and the sign part is
one of the three possible lexemes. -/
theorem signSplit_meta (r : List Char) : ∃ sign q, signSplit r = (sign, q) ∧
    sign ++ q = r ∧ (sign = [] ∨ sign = ['+'] ∨ sign = ['-']) := by
  cases r with
  | nil => exact ⟨[], [], rfl, rfl, Or.inl rfl⟩
  | cons c t =>
    by_cases hp : c = '+'
    · subst hp
      exact ⟨['+'], t, signSplit_plus t, rfl, Or.inr (Or.inl rfl)⟩
    · by_cases hm : c = '-'
      · subst hm
        exact ⟨['-'], t, signSplit_minus t, rfl, Or.inr (Or.inr rfl)⟩
      · refine ⟨[], c :: t, signSplit_other ?_, rfl, Or.inl rfl⟩
        intro d hd
        simp at hd
        rw [← hd]
        exact ⟨hp, hm⟩

/-- A remainder not headed by an exponent marker lexes an empty exponent
part. -/
theorem lexExp_not_e {r : List Char} (h : headNotE r) : lexExp r = some ([], r) := by
  cases r with
  | nil => rfl
  | cons c t =>
    have hc := h c rfl
    rw [lexExp.eq_def]
    simp only []
    rw [if_neg (by simp [hc.1, hc.2])]

/-- Replaying a nonempty exponent lexeme before a remainder not headed by
a digit. -/
theorem lexExp_exp_replay {e : Char} {sign ds r3 : List Char}
    (he : e = 'e' ∨ e = 'E') (hsign : sign = [] ∨ sign = ['+'] ∨ sign = ['-'])
    (hds : ∀ c ∈ ds, c.isDigit = true) (hne : ds ≠ []) (h : headNotDigit r3) :
    lexExp ((e :: (sign ++ ds)) ++ r3) = some (e :: (sign ++ ds), r3) := by
  have hspan : (ds ++ r3).span Char.isDigit = (ds, r3) :=
    span_digits_exact hds (fun c hc => h c hc)
  cases ds with
  | nil => exact absurd rfl hne
  | cons d0 dt =>
    have hd0 : d0.isDigit = true := hds d0 (List.mem_cons_self d0 dt)
    have hd0p : d0 ≠ '+' := by intro hplus; rw [hplus] at hd0; simp [Char.isDigit] at hd0
    have hd0m : d0 ≠ '-' := by intro hminus; rw [hminus] at hd0; simp [Char.isDigit] at hd0
    have hspan2 : (d0 :: (dt ++ r3)).span Char.isDigit = (d0 :: dt, r3) := by
      rw [show d0 :: (dt ++ r3) = (d0 :: dt) ++ r3 by simp]
      exact hspan
    obtain ⟨htw, hdw⟩ := Prod.mk.inj
      ((List.span_eq_take_drop Char.isDigit (d0 :: (dt ++ r3))).symm.trans hspan2)
    rcases hsign with hs | hs | hs <;> subst hs
    · simp only [List.nil_append, List.cons_append]
      rw [lexExp.eq_def]
      simp only []
      rw [if_pos he]
      rw [signSplit_other (fun c hc => by simp at hc; rw [← hc]; exact ⟨hd0p, hd0m⟩)]
      simp [hd0, htw, hdw]
    · simp only [List.cons_append, List.nil_append]
      rw [lexExp.eq_def]
      simp only []
      rw [if_pos he]
      rw [signSplit_plus]
      simp [hd0, htw, hdw]
    · simp only [List.cons_append, List.nil_append]
      rw [lexExp.eq_def]
      simp only []
      rw [if_pos he]
      rw [signSplit_minus]
      simp [hd0, htw, hdw]

/-- Characterisation of a successful exponent lex: either nothing was
consumed (and the input is not exponent-headed), or a marker, optional
sign and nonempty digit run were consumed and the remainder is not
digit-headed. -/
theorem lexExp_meta {r x r3 : List Char} (h : lexExp r = some (x, r3)) :
    r = x ++ r3 ∧
      ((x = [] ∧ r3 = r ∧ headNotE r) ∨
       (∃ e sign ds, x = e :: (sign ++ ds) ∧ (e = 'e' ∨ e = 'E') ∧
         (sign = [] ∨ sign = ['+'] ∨ sign = ['-']) ∧ ds ≠ [] ∧
         (∀ c ∈ ds, c.isDigit = true) ∧ headNotDigit r3)) := by
  cases r with
  | nil =>
    obtain ⟨h1, h2⟩ : [] = x ∧ [] = r3 := by
      rw [lexExp.eq_def] at h
      simp only [] at h
      simpa using h
    exact ⟨by simp [← h1, ← h2], Or.inl ⟨h1.symm, h2.symm, fun c hc => by simp at hc⟩⟩
  | cons c t =>
    by_cases he : c = 'e' ∨ c = 'E'
    · rw [lexExp.eq_def] at h
      simp only [] at h
      rw [if_pos he] at h
      obtain ⟨sign, q, hsp, hq, hsigns⟩ := signSplit_meta t
      rw [hsp] at h
      simp only [List.span_eq_take_drop] at h
      by_cases hnil : q.takeWhile Char.isDigit = []
      · rw [if_pos (by simpa using hnil)] at h; simp at h
      · rw [if_neg (by simpa using hnil)] at h
        obtain ⟨h1, h2⟩ : c :: (sign ++ q.takeWhile Char.isDigit) = x ∧
            q.dropWhile Char.isDigit = r3 := by simpa using h
        refine ⟨?_, Or.inr ⟨c, sign, q.takeWhile Char.isDigit, h1.symm, he, hsigns, hnil,
          fun d hd => List.mem_takeWhile_imp hd, ?_⟩⟩
        · rw [← h1, ← h2]
          have hcat : sign ++ (q.takeWhile Char.isDigit ++ q.dropWhile Char.isDigit) = sign ++ q := by
            simp [List.takeWhile_append_dropWhile]
          simp only [List.cons_append, List.append_assoc, hcat, hq]
        · intro d hd
          exact head_dropWhile_false Char.isDigit q d (h2 ▸ hd)
    · have hne : headNotE (c :: t) := fun d hd => by
        simp at hd
        rw [← hd]
        constructor
        · intro hce; exact he (Or.inl hce)
        · intro hce; exact he (Or.inr hce)
      rw [lexExp_not_e hne] at h
      obtain ⟨h1, h2⟩ : [] = x ∧ c :: t = r3 := by simpa using h
      exact ⟨by simp [← h1, ← h2], Or.inl ⟨h1.symm, h2.symm, hne⟩⟩

theorem headNotDigit_cons {c : Char} (hc : c.isDigit = false) (t : List Char) :
    headNotDigit (c :: t) := by
  intro d hd; simp at hd; rw [← hd]; exact hc

theorem headNotDot_cons {c : Char} (hc : c ≠ '.') (t : List Char) :
    headNotDot (c :: t) := by
  intro d hd; simp at hd; rw [← hd]; exact hc

theorem headNotE_cons {c : Char} (hc : c ≠ 'e' ∧ c ≠ 'E') (t : List Char) :
    headNotE (c :: t) := by
  intro d hd; simp at hd; rw [← hd]; exact hc

theorem expMarker_not_digit {e : Char} (he : e = 'e' ∨ e = 'E') : e.isDigit = false := by
  rcases he with he | he <;> subst he <;> decide

theorem expMarker_not_dot {e : Char} (he : e = 'e' ∨ e = 'E') : e ≠ '.' := by
  rcases he with he | he <;> subst he <;> decide

/-- Combined replay of the fraction and exponent stages of the number
lexer: both stages reproduce their lexemes before any remainder on which
the lexer makes the same boundary decisions. -/
theorem lexFracExp_replay {w f x r2 r3 rest2 : List Char}
    (hF : lexFrac w = some (f, r2)) (hX : lexExp r2 = some (x, r3))
    (hns : numStop r3 rest2) :
    w = (f ++ x) ++ r3 ∧
    lexFrac (f ++ (x ++ rest2)) = some (f, x ++ rest2) ∧
    lexExp (x ++ rest2) = some (x, rest2) ∧
    (headNotDigit w → headNotDigit (f ++ (x ++ rest2))) := by
  obtain ⟨hw, hFalt⟩ := lexFrac_meta hF
  obtain ⟨hr2, hXalt⟩ := lexExp_meta hX
  refine ⟨by rw [hw, hr2]; simp, ?_⟩
  rcases hFalt with ⟨hf0, hr2w, hnd⟩ | ⟨ds, hfeq, hdne, hdall, hndz⟩
  · rcases hXalt with ⟨hx0, hr3, hneE⟩ | ⟨e, sign, xds, hxeq, he, hsigns, hxne, hxall, hnd3⟩
    · -- no fraction, no exponent: the remainder is the whole input
      have hr3w : r3 = w := by rw [hr3, hr2w]
      subst hf0; subst hx0
      refine ⟨?_, ?_, ?_⟩
      · simp only [List.nil_append]
        exact lexFrac_not_dot (numStop_dot hns (hr3w ▸ hnd))
      · simp only [List.nil_append]
        refine lexExp_not_e (numStop_e hns ?_)
        rw [hr3]; exact hneE
      · intro hw2
        simp only [List.nil_append]
        exact numStop_digit hns (hr3w ▸ hw2)
    · -- no fraction, exponent present
      subst hf0
      refine ⟨?_, ?_, ?_⟩
      · simp only [List.nil_append]
        rw [hxeq, List.cons_append]
        exact lexFrac_not_dot (headNotDot_cons (expMarker_not_dot he) _)
      · rw [hxeq]
        exact lexExp_exp_replay he hsigns hxall hxne (numStop_digit hns hnd3)
      · intro hw2
        simp only [List.nil_append]
        rw [hxeq, List.cons_append]
        exact headNotDigit_cons (expMarker_not_digit he) _
  · rcases hXalt with ⟨hx0, hr3, hneE⟩ | ⟨e, sign, xds, hxeq, he, hsigns, hxne, hxall, hnd3⟩
    · -- fraction present, no exponent
      have hr3r2 : r3 = r2 := hr3
      subst hx0
      refine ⟨?_, ?_, ?_⟩
      · rw [hfeq]
        simp only [List.nil_append]
        exact lexFrac_dot_replay hdall hdne (numStop_digit hns (hr3r2 ▸ hndz))
      · simp only [List.nil_append]
        exact lexExp_not_e (numStop_e hns (hr3r2 ▸ hneE))
      · intro hw2
        rw [hfeq, List.cons_append]
        exact headNotDigit_cons (by decide) _
    · -- fraction and exponent both present
      refine ⟨?_, ?_, ?_⟩
      · rw [hfeq]
        refine lexFrac_dot_replay hdall hdne ?_
        rw [hxeq, List.cons_append]
        exact headNotDigit_cons (expMarker_not_digit he) _
      · rw [hxeq]
        exact lexExp_exp_replay he hsigns hxall hxne (numStop_digit hns hnd3)
      · intro hw2
        rw [hfeq, List.cons_append]
        exact headNotDigit_cons (by decide) _

/-- Consumption and replay for the unsigned number lexer: a successful
lex consumes a nonempty prefix starting at the input head, and the same
lexeme lexes identically before any remainder on which the lexer makes
the same boundary decisions. -/
theorem pnBody_meta {cs lex rest : List Char} (h : pnBody cs = some (lex, rest)) :
    cs = lex ++ rest ∧ lex ≠ [] ∧ lex.head? = cs.head? ∧
    ∀ rest2, numStop rest rest2 → pnBody (lex ++ rest2) = some (lex, rest2) := by
  cases cs with
  | nil =>
    rw [pnBody.eq_def] at h
    simp at h
  | cons c r =>
    rw [pnBody.eq_def] at h
    simp only [] at h
    by_cases h0 : c = '0'
    · rw [if_pos h0] at h
      rcases hF : lexFrac r with _ | ⟨f, r2⟩
      · rw [hF] at h; simp at h
      · rw [hF] at h
        simp only [] at h
        rcases hX : lexExp r2 with _ | ⟨x, r3⟩
        · rw [hX] at h; simp at h
        · rw [hX] at h
          simp only [] at h
          obtain ⟨hlex, hrest⟩ : c :: (f ++ x) = lex ∧ r3 = rest := by simpa using h
          have hdec := (lexFracExp_replay hF hX (Or.inl rfl : numStop r3 r3)).1
          refine ⟨?_, ?_, ?_, ?_⟩
          · rw [← hlex, ← hrest, hdec]; simp
          · rw [← hlex]; simp
          · rw [← hlex]; simp
          · intro rest2 hns
            obtain ⟨_, hFrep, hXrep, _⟩ := lexFracExp_replay hF hX (by rw [hrest]; exact hns)
            rw [← hlex]
            simp only [List.cons_append, List.append_assoc]
            rw [pnBody.eq_def]
            simp only []
            rw [if_pos h0, hFrep]
            simp only []
            rw [hXrep]
    · rw [if_neg h0] at h
      by_cases hd : c.isDigit
      · rw [if_pos hd] at h
        simp only [List.span_eq_take_drop] at h
        rcases hF : lexFrac (r.dropWhile Char.isDigit) with _ | ⟨f, r2⟩
        · rw [hF] at h; simp at h
        · rw [hF] at h
          simp only [] at h
          rcases hX : lexExp r2 with _ | ⟨x, r3⟩
          · rw [hX] at h; simp at h
          · rw [hX] at h
            simp only [] at h
            obtain ⟨hlex, hrest⟩ :
                c :: (r.takeWhile Char.isDigit ++ (f ++ x)) = lex ∧ r3 = rest := by
              simpa using h
            have hdec := (lexFracExp_replay hF hX (Or.inl rfl : numStop r3 r3)).1
            have hrdecomp : r = r.takeWhile Char.isDigit ++ r.dropWhile Char.isDigit :=
              (List.takeWhile_append_dropWhile Char.isDigit r).symm
            have hdsall : ∀ d ∈ r.takeWhile Char.isDigit, d.isDigit = true :=
              fun d hd2 => List.mem_takeWhile_imp hd2
            have hrrnd : headNotDigit (r.dropWhile Char.isDigit) :=
              fun d hd2 => head_dropWhile_false Char.isDigit r d hd2
            have hr4 : r = r.takeWhile Char.isDigit ++ (f ++ (x ++ r3)) := by
              conv_lhs => rw [hrdecomp, hdec]
              simp [List.append_assoc]
            refine ⟨?_, ?_, ?_, ?_⟩
            · rw [← hlex, ← hrest]
              simp only [List.cons_append, List.append_assoc]
              conv_lhs => rw [hr4]
            · rw [← hlex]; simp
            · rw [← hlex]; simp
            · intro rest2 hns
              obtain ⟨_, hFrep, hXrep, hndtrans⟩ :=
                lexFracExp_replay hF hX (by rw [hrest]; exact hns)
              rw [← hlex]
              simp only [List.cons_append, List.append_assoc]
              rw [pnBody.eq_def]
              simp only []
              rw [if_neg h0, if_pos hd]
              have hndb : headNotDigit (f ++ (x ++ rest2)) := hndtrans hrrnd
              have hspan := span_digits_exact hdsall (fun d hd2 => hndb d hd2)
              rw [hspan]
              simp only []
              rw [hFrep]
              simp only []
              rw [hXrep]
              simp [List.append_assoc]
      · rw [if_neg hd] at h
        simp at h

/-- The number lexer is the unsigned lexer on input not headed by a
minus sign. -/
theorem parseNumber_not_minus {cs : List Char} (h : ∀ c, cs.head? = some c → c ≠ '-') :
    parseNumber cs = pnBody cs := by
  cases cs with
  | nil => rfl
  | cons c t =>
    have hc := h c rfl
    unfold parseNumber
    split
    · rename_i q heq
      exact absurd (List.cons.inj heq).1 hc
    · rfl

/-- The number lexer consumes a leading minus sign and defers to the
unsigned lexer. -/
theorem parseNumber_minus (r : List Char) :
    parseNumber ('-' :: r) = (pnBody r).map (fun pr => ('-' :: pr.1, pr.2)) := rfl

/-- Consumption and replay for the number lexer: a successful lex
consumes a nonempty prefix, and the same lexeme lexes identically before
any remainder on which the lexer makes the same boundary decisions. -/
theorem parseNumber_meta {cs lex rest : List Char}
    (h : parseNumber cs = some (lex, rest)) :
    cs = lex ++ rest ∧ lex ≠ [] ∧
    ∀ rest2, numStop rest rest2 → parseNumber (lex ++ rest2) = some (lex, rest2) := by
  cases cs with
  | nil =>
    rw [parseNumber_not_minus (fun c hc => by simp at hc)] at h
    rw [pnBody.eq_def] at h
    simp at h
  | cons c t =>
    by_cases hminus : c = '-'
    · subst hminus
      rw [parseNumber_minus] at h
      rcases Option.map_eq_some'.mp h with ⟨⟨lexb, restb⟩, hrec, hval⟩
      obtain ⟨h1, h2⟩ : '-' :: lexb = lex ∧ restb = rest := by simpa using hval
      obtain ⟨hdec, hnil, hhead, hrep⟩ := pnBody_meta hrec
      refine ⟨?_, ?_, ?_⟩
      · rw [← h1, ← h2, List.cons_append, ← hdec]
      · rw [← h1]; simp
      · intro rest2 hns
        rw [← h1, List.cons_append, parseNumber_minus]
        rw [hrep rest2 (by rw [h2]; exact hns)]
        simp
    · have hpn : parseNumber (c :: t) = pnBody (c :: t) :=
        parseNumber_not_minus (fun d hd => by simp at hd; rw [← hd]; exact hminus)
      rw [hpn] at h
      obtain ⟨hdec, hnil, hhead, hrep⟩ := pnBody_meta h
      refine ⟨hdec, hnil, ?_⟩
      intro rest2 hns
      rcases hlex : lex with _ | ⟨l0, lt⟩
      · exact absurd hlex hnil
      · have hl0 : l0 = c := by
          have := hhead
          rw [hlex] at this
          simpa using this
        rw [parseNumber_not_minus (fun d hd => by
          simp at hd
          rw [← hd, hl0]
          exact hminus)]
        rw [← hlex]
        exact hrep rest2 hns

/-- Fuel bound under which a replayed parse is guaranteed to succeed, as
a function of the input length.  Each recursive call of `parseAny`
consumes at least one delimiter character, which makes these affine
bounds self-sustaining. -/
def modeBound : PMode → Nat → Nat
  | .value, n => 3 * n + 6
  | .elems0, n => 3 * n + 8
  | .elemsN, n => 3 * n + 7
  | .fields0, n => 3 * n + 8
  | .fieldsN, n => 3 * n + 7

/-- Side condition for replaying a parse before a different remainder:
only a bare number lexeme at value position constrains the remainder (its
end is a lexical boundary rather than a delimiter). -/
def swapOk : PMode → PRes → List Char → List Char → Prop
  | .value, .v (.jnum _), rest, rest2 => numStop rest rest2
  | _, _, _, _ => True

/-- Structure of the consumed prefix: except at the two positions that
may consume a bare closing delimiter, the prefix is whitespace followed
by a non-whitespace character that closes nothing. -/
def headShape : PMode → List Char → Prop
  | .elems0, _ => True
  | .fields0, _ => True
  | _, pre => ∃ ws0 c0 tail0, pre = ws0 ++ c0 :: tail0 ∧ allWs ws0 ∧
      isJsonWs c0 = false ∧ c0 ≠ ']' ∧ c0 ≠ rbrace

theorem swapOk_of_head {m : PMode} {res : PRes} {a b : List Char}
    (h : a.head? = b.head?) : swapOk m res a b := by
  unfold swapOk
  split
  · exact Or.inl h
  · trivial

theorem swapOk_not_value {m : PMode} (hm : m ≠ .value) (res : PRes) (a b : List Char) :
    swapOk m res a b := by
  unfold swapOk
  split
  · exact absurd rfl hm
  · trivial

theorem skipWs_shape {ws : List Char} (hws : allWs ws) {c : Char}
    (hc : isJsonWs c = false) (t : List Char) : skipWs (ws ++ c :: t) = c :: t := by
  rw [skipWs_append_of_allWs _ hws, skipWs_cons_of_not_ws _ hc]

theorem skipWs_split {cs : List Char} {c : Char} {r : List Char} (h : skipWs cs = c :: r) :
    ∃ ws, cs = ws ++ c :: r ∧ allWs ws ∧ isJsonWs c = false := by
  have h2 : cs.dropWhile isJsonWs = c :: r := h
  refine ⟨cs.takeWhile isJsonWs, ?_, ?_, ?_⟩
  · nth_rewrite 1 [← List.takeWhile_append_dropWhile isJsonWs cs]
    rw [h2]
  · exact fun d hd => List.mem_takeWhile_imp hd
  · exact head_dropWhile_false isJsonWs cs c (by rw [h2]; rfl)

/-- A successful number lex starts with a minus sign or a digit. -/
theorem parseNumber_head {c : Char} {t lex r : List Char}
    (h : parseNumber (c :: t) = some (lex, r)) : c = '-' ∨ c.isDigit = true := by
  by_cases hm : c = '-'
  · exact Or.inl hm
  · right
    rw [parseNumber_not_minus (fun d hd => by simp at hd; rw [← hd]; exact hm)] at h
    rw [pnBody.eq_def] at h
    simp only [] at h
    by_cases h0 : c = '0'
    · rw [h0]; decide
    · rw [if_neg h0] at h
      by_cases hd : c.isDigit
      · exact hd
      · rw [if_neg hd] at h; simp at h

/-- Master consumption/replay lemma for the combined JSON parser: a
successful parse consumes a prefix of its input; in the element modes
that prefix ends with the closing bracket; in the modes that begin with a
token the prefix is whitespace followed by a non-closing character; and
the same prefix parses identically before any other remainder compatible
with the lexical boundary (`swapOk`), at any fuel at or above the affine
bound `modeBound`. -/
theorem parseAny_meta : ∀ (fuel : Nat) (m : PMode) (cs : List Char) (res : PRes) (rest : List Char),
    parseAny fuel m cs = some (res, rest) →
    ∃ pre, cs = pre ++ rest ∧
      ((m = .elems0 ∨ m = .elemsN) → ∃ mid, pre = mid ++ [']']) ∧
      headShape m pre ∧
      ∀ rest2 fuel2, swapOk m res rest rest2 →
        modeBound m (pre ++ rest2).length ≤ fuel2 →
        parseAny fuel2 m (pre ++ rest2) = some (res, rest2) := by
  intro fuel
  induction fuel with
  | zero =>
    intro m cs res rest h
    rw [parseAny.eq_def] at h
    simp at h
  | succ f ih =>
    intro m cs res rest h
    rw [parseAny.eq_def] at h
    cases m with
    | value =>
      simp only [] at h
      rcases hsk : skipWs cs with _ | ⟨c, rest1⟩
      · rw [hsk] at h; simp at h
      · rw [hsk] at h
        simp only [] at h
        obtain ⟨ws, hcs, hws, hcnws⟩ := skipWs_split hsk
        by_cases hn : c = 'n'
        · rw [if_pos hn] at h
          split at h
          · rename_i r
            obtain ⟨hres, hrest⟩ : PRes.v .jnull = res ∧ r = rest := by simpa using h
            subst hn
            refine ⟨ws ++ ['n', 'u', 'l', 'l'], ?_, fun hm => absurd hm (by decide), ?_, ?_⟩
            · rw [hcs, ← hrest]; simp
            · exact ⟨ws, 'n', ['u', 'l', 'l'], rfl, hws, hcnws, by decide, by decide⟩
            · intro rest2 fuel2 hswap hbound
              rcases fuel2 with _ | g
              · simp [modeBound] at hbound
              · rw [parseAny.eq_def]
                simp only []
                have hin : (ws ++ ['n', 'u', 'l', 'l']) ++ rest2 =
                    ws ++ 'n' :: ('u' :: 'l' :: 'l' :: rest2) := by simp
                rw [hin, skipWs_shape hws hcnws]
                simp only []
                rw [← hres]
                simp
          · simp at h
        · rw [if_neg hn] at h
          by_cases ht : c = 't'
          · rw [if_pos ht] at h
            split at h
            · rename_i r
              obtain ⟨hres, hrest⟩ : PRes.v (.jbool true) = res ∧ r = rest := by simpa using h
              subst ht
              refine ⟨ws ++ ['t', 'r', 'u', 'e'], ?_, fun hm => absurd hm (by decide), ?_, ?_⟩
              · rw [hcs, ← hrest]; simp
              · exact ⟨ws, 't', ['r', 'u', 'e'], rfl, hws, hcnws, by decide, by decide⟩
              · intro rest2 fuel2 hswap hbound
                rcases fuel2 with _ | g
                · simp [modeBound] at hbound
                · rw [parseAny.eq_def]
                  simp only []
                  have hin : (ws ++ ['t', 'r', 'u', 'e']) ++ rest2 =
                      ws ++ 't' :: ('r' :: 'u' :: 'e' :: rest2) := by simp
                  rw [hin, skipWs_shape hws hcnws]
                  simp only []
                  rw [← hres]
                  simp
            · simp at h
          · rw [if_neg ht] at h
            by_cases hf : c = 'f'
            · rw [if_pos hf] at h
              split at h
              · rename_i r
                obtain ⟨hres, hrest⟩ : PRes.v (.jbool false) = res ∧ r = rest := by simpa using h
                subst hf
                refine ⟨ws ++ ['f', 'a', 'l', 's', 'e'], ?_, fun hm => absurd hm (by decide), ?_, ?_⟩
                · rw [hcs, ← hrest]; simp
                · exact ⟨ws, 'f', ['a', 'l', 's', 'e'], rfl, hws, hcnws, by decide, by decide⟩
                · intro rest2 fuel2 hswap hbound
                  rcases fuel2 with _ | g
                  · simp [modeBound] at hbound
                  · rw [parseAny.eq_def]
                    simp only []
                    have hin : (ws ++ ['f', 'a', 'l', 's', 'e']) ++ rest2 =
                        ws ++ 'f' :: ('a' :: 'l' :: 's' :: 'e' :: rest2) := by simp
                    rw [hin, skipWs_shape hws hcnws]
                    simp only []
                    rw [← hres]
                    simp
              · simp at h
            · rw [if_neg hf] at h
              by_cases hq : c = '"'
              · rw [if_pos hq] at h
                rcases hps : parseStringBody (rest1.length + 1) rest1 with _ | ⟨s, r⟩
                · rw [hps] at h; simp at h
                · rw [hps] at h
                  simp only [] at h
                  obtain ⟨hres, hrest⟩ : PRes.v (.jstr s) = res ∧ r = rest := by simpa using h
                  obtain ⟨preS, hpsdec, hpsrep⟩ := parseStringBody_meta _ rest1 s r hps
                  subst hq
                  refine ⟨ws ++ '"' :: preS, ?_, fun hm => absurd hm (by decide), ?_, ?_⟩
                  · rw [hcs, hpsdec, ← hrest]; simp
                  · exact ⟨ws, '"', preS, rfl, hws, hcnws, by decide, by decide⟩
                  · intro rest2 fuel2 hswap hbound
                    rcases fuel2 with _ | g
                    · simp [modeBound] at hbound
                    · rw [parseAny.eq_def]
                      simp only []
                      have hin : (ws ++ '"' :: preS) ++ rest2 = ws ++ '"' :: (preS ++ rest2) := by
                        simp
                      rw [hin, skipWs_shape hws hcnws]
                      simp only []
                      rw [if_neg hn, if_neg ht, if_neg hf, if_pos trivial]
                      rw [hpsrep rest2 ((preS ++ rest2).length + 1)
                        (by rw [List.length_append]; omega)]
                      simp only []
                      rw [← hres]
              · rw [if_neg hq] at h
                by_cases hbk : c = '['
                · rw [if_pos hbk] at h
                  rcases hpa : parseAny f .elems0 rest1 with _ | ⟨res0, r⟩
                  · rw [hpa] at h; simp at h
                  · rw [hpa] at h
                    rcases res0 with v0 | vs0 | fs0
                    · simp at h
                    · simp only [] at h
                      obtain ⟨hres, hrest⟩ : PRes.v (.jarr vs0) = res ∧ r = rest := by
                        simpa using h
                      obtain ⟨preA, hAdec, hAends, _, hArep⟩ := ih .elems0 rest1 (.vs vs0) r hpa
                      subst hbk
                      refine ⟨ws ++ '[' :: preA, ?_, fun hm => absurd hm (by decide), ?_, ?_⟩
                      · rw [hcs, hAdec, ← hrest]; simp
                      · exact ⟨ws, '[', preA, rfl, hws, hcnws, by decide, by decide⟩
                      · intro rest2 fuel2 hswap hbound
                        rcases fuel2 with _ | g
                        · simp [modeBound] at hbound
                        · rw [parseAny.eq_def]
                          simp only []
                          have hin : (ws ++ '[' :: preA) ++ rest2 =
                              ws ++ '[' :: (preA ++ rest2) := by simp
                          rw [hin, skipWs_shape hws hcnws]
                          simp only []
                          rw [if_neg hn, if_neg ht, if_neg hf, if_neg hq, if_pos trivial]
                          have hbA : modeBound .elems0 (preA ++ rest2).length ≤ g := by
                            simp only [modeBound, List.length_append, List.length_cons]
                              at hbound ⊢
                            omega
                          rw [hArep rest2 g (swapOk_not_value (by decide) _ _ _) hbA]
                          simp only []
                          rw [← hres]
                    · simp at h
                · rw [if_neg hbk] at h
                  by_cases hbc : c = lbrace
                  · rw [if_pos hbc] at h
                    rcases hpa : parseAny f .fields0 rest1 with _ | ⟨res0, r⟩
                    · rw [hpa] at h; simp at h
                    · rw [hpa] at h
                      rcases res0 with v0 | vs0 | fs0
                      · simp at h
                      · simp at h
                      · simp only [] at h
                        obtain ⟨hres, hrest⟩ : PRes.v (.jobj fs0) = res ∧ r = rest := by
                          simpa using h
                        obtain ⟨preO, hOdec, _, _, hOrep⟩ := ih .fields0 rest1 (.fs fs0) r hpa
                        subst hbc
                        refine ⟨ws ++ lbrace :: preO, ?_, fun hm => absurd hm (by decide), ?_, ?_⟩
                        · rw [hcs, hOdec, ← hrest]; simp
                        · exact ⟨ws, lbrace, preO, rfl, hws, hcnws, by decide, by decide⟩
                        · intro rest2 fuel2 hswap hbound
                          rcases fuel2 with _ | g
                          · simp [modeBound] at hbound
                          · rw [parseAny.eq_def]
                            simp only []
                            have hin : (ws ++ lbrace :: preO) ++ rest2 =
                                ws ++ lbrace :: (preO ++ rest2) := by simp
                            rw [hin, skipWs_shape hws hcnws]
                            simp only []
                            rw [if_neg hn, if_neg ht, if_neg hf, if_neg hq, if_neg hbk,
                              if_pos trivial]
                            have hbO : modeBound .fields0 (preO ++ rest2).length ≤ g := by
                              simp only [modeBound, List.length_append, List.length_cons]
                                at hbound ⊢
                              omega
                            rw [hOrep rest2 g (swapOk_not_value (by decide) _ _ _) hbO]
                            simp only []
                            rw [← hres]
                  · rw [if_neg hbc] at h
                    rcases hpn : parseNumber (c :: rest1) with _ | ⟨lex, r⟩
                    · rw [hpn] at h; simp at h
                    · rw [hpn] at h
                      simp only [] at h
                      obtain ⟨hres, hrest⟩ : PRes.v (.jnum lex) = res ∧ r = rest := by
                        simpa using h
                      obtain ⟨hpndec, hpnnil, hpnrep⟩ := parseNumber_meta hpn
                      rcases hlex : lex with _ | ⟨l0, lt⟩
                      · exact absurd hlex hpnnil
                      · rw [hlex] at hpndec
                        simp only [List.cons_append] at hpndec
                        have hl0 : l0 = c := ((List.cons.inj hpndec).1).symm
                        rw [hl0] at hlex hpndec
                        have hchead := parseNumber_head hpn
                        have hc1 : c ≠ ']' := by
                          rcases hchead with h1 | h1
                          · rw [h1]; decide
                          · intro heq; rw [heq] at h1; exact absurd h1 (by decide)
                        have hc2 : c ≠ rbrace := by
                          rcases hchead with h1 | h1
                          · rw [h1]; decide
                          · intro heq; rw [heq] at h1; exact absurd h1 (by decide)
                        refine ⟨ws ++ c :: lt, ?_, fun hm => absurd hm (by decide), ?_, ?_⟩
                        · rw [hcs, ← hrest]
                          have hr1 : rest1 = lt ++ r := (List.cons.inj hpndec).2
                          rw [hr1]; simp
                        · exact ⟨ws, c, lt, rfl, hws, hcnws, hc1, hc2⟩
                        · intro rest2 fuel2 hswap hbound
                          rcases fuel2 with _ | g
                          · simp [modeBound] at hbound
                          · rw [parseAny.eq_def]
                            simp only []
                            have hin : (ws ++ c :: lt) ++ rest2 = ws ++ c :: (lt ++ rest2) := by
                              simp
                            rw [hin, skipWs_shape hws hcnws]
                            simp only []
                            rw [if_neg hn, if_neg ht, if_neg hf, if_neg hq, if_neg hbk,
                              if_neg hbc]
                            have hns2 : numStop rest rest2 := by
                              rw [← hres] at hswap
                              exact hswap
                            have hrepl := hpnrep rest2 (by rw [hrest]; exact hns2)
                            rw [hlex] at hrepl
                            simp only [List.cons_append] at hrepl
                            rw [hrepl]
                            simp only []
                            rw [← hres, hlex]
    | elems0 =>
      simp only [] at h
      split at h
      · rename_i r heq
        obtain ⟨hres, hrest⟩ : PRes.vs [] = res ∧ r = rest := by simpa using h
        obtain ⟨ws, hcs, hws, hcnws⟩ := skipWs_split heq
        refine ⟨ws ++ [']'], ?_, fun _ => ⟨ws, rfl⟩, trivial, ?_⟩
        · rw [hcs, ← hrest]; simp
        · intro rest2 fuel2 hswap hbound
          rcases fuel2 with _ | g
          · simp [modeBound] at hbound
          · rw [parseAny.eq_def]
            simp only []
            have hin : (ws ++ [']']) ++ rest2 = ws ++ ']' :: rest2 := by simp
            rw [hin, skipWs_shape hws hcnws]
            simp only []
            rw [← hres]
      · obtain ⟨pre, hdec, hends, hshape, hrep⟩ := ih .elemsN cs res rest h
        obtain ⟨ws0, c0, tail0, hpre0, hws0, hc0nws, hc0ne, hc0nb⟩ := hshape
        refine ⟨pre, hdec, fun _ => hends (Or.inr rfl), trivial, ?_⟩
        intro rest2 fuel2 hswap hbound
        rcases fuel2 with _ | g
        · simp [modeBound] at hbound
        · rw [parseAny.eq_def]
          simp only []
          have hskip2 : skipWs (pre ++ rest2) = c0 :: (tail0 ++ rest2) := by
            rw [hpre0]
            have h3 : (ws0 ++ c0 :: tail0) ++ rest2 = ws0 ++ c0 :: (tail0 ++ rest2) := by simp
            rw [h3]
            exact skipWs_shape hws0 hc0nws _
          rw [hskip2]
          split
          · rename_i r heq2
            exact absurd (List.cons.inj heq2).1 hc0ne
          · exact hrep rest2 g (swapOk_not_value (by decide) _ _ _)
              (by simp only [modeBound] at hbound ⊢; omega)
    | elemsN =>
      simp only [] at h
      rcases hpa : parseAny f .value cs with _ | ⟨res0, r1⟩
      · rw [hpa] at h; simp at h
      · rw [hpa] at h
        rcases res0 with v | vs0 | fs0
        · simp only [] at h
          obtain ⟨preV, hVdec, _, hVshape, hVrep⟩ := ih .value cs (.v v) r1 hpa
          obtain ⟨ws0, c0, tail0, hpre0, hws0, hc0nws, hc0ne, hc0nb⟩ := hVshape
          split at h
          · rename_i r2 heq
            rcases hpe : parseAny f .elemsN r2 with _ | ⟨res1, r3⟩
            · rw [hpe] at h; simp at h
            · rw [hpe] at h
              rcases res1 with v1 | vs1 | fs1
              · simp at h
              · simp only [] at h
                obtain ⟨hres, hrest⟩ : PRes.vs (v :: vs1) = res ∧ r3 = rest := by simpa using h
                obtain ⟨preE, hEdec, hEends, _, hErep⟩ := ih .elemsN r2 (.vs vs1) r3 hpe
                obtain ⟨ws1, hr1, hws1, hcws1⟩ := skipWs_split heq
                obtain ⟨mid, hmid⟩ := hEends (Or.inr rfl)
                refine ⟨preV ++ (ws1 ++ (',' :: preE)), ?_, ?_, ?_, ?_⟩
                · rw [hVdec, hr1, hEdec, ← hrest]; simp
                · intro _
                  exact ⟨preV ++ (ws1 ++ (',' :: mid)), by rw [hmid]; simp⟩
                · exact ⟨ws0, c0, tail0 ++ (ws1 ++ (',' :: preE)), by rw [hpre0]; simp,
                    hws0, hc0nws, hc0ne, hc0nb⟩
                · intro rest2 fuel2 hswap hbound
                  rcases fuel2 with _ | g
                  · simp [modeBound] at hbound
                  · rw [parseAny.eq_def]
                    simp only []
                    have hin : (preV ++ (ws1 ++ (',' :: preE))) ++ rest2 =
                        preV ++ (ws1 ++ (',' :: (preE ++ rest2))) := by simp
                    rw [hin]
                    have hVrep2 := hVrep (ws1 ++ (',' :: (preE ++ rest2))) g
                      (swapOk_of_head (by
                        rw [hr1]; exact head?_append_cons ws1 ',' r2 (preE ++ rest2)))
                      (by
                        simp only [modeBound, List.length_append, List.length_cons]
                          at hbound ⊢
                        omega)
                    rw [hVrep2]
                    simp only []
                    rw [skipWs_shape hws1 hcws1]
                    simp only []
                    have hErep2 := hErep rest2 g (swapOk_not_value (by decide) _ _ _)
                      (by
                        simp only [modeBound, List.length_append, List.length_cons]
                          at hbound ⊢
                        omega)
                    rw [hErep2]
                    simp only []
                    rw [← hres]
              · simp at h
          · rename_i r2 heq
            obtain ⟨hres, hrest⟩ : PRes.vs [v] = res ∧ r2 = rest := by simpa using h
            obtain ⟨ws1, hr1, hws1, hcws1⟩ := skipWs_split heq
            refine ⟨preV ++ (ws1 ++ [']']), ?_, ?_, ?_, ?_⟩
            · rw [hVdec, hr1, ← hrest]; simp
            · intro _
              exact ⟨preV ++ ws1, by simp⟩
            · exact ⟨ws0, c0, tail0 ++ (ws1 ++ [']']), by rw [hpre0]; simp,
                hws0, hc0nws, hc0ne, hc0nb⟩
            · intro rest2 fuel2 hswap hbound
              rcases fuel2 with _ | g
              · simp [modeBound] at hbound
              · rw [parseAny.eq_def]
                simp only []
                have hin : (preV ++ (ws1 ++ [']'])) ++ rest2 =
                    preV ++ (ws1 ++ (']' :: rest2)) := by simp
                rw [hin]
                have hVrep2 := hVrep (ws1 ++ (']' :: rest2)) g
                  (swapOk_of_head (by
                    rw [hr1]; exact head?_append_cons ws1 ']' r2 rest2))
                  (by
                    simp only [modeBound, List.length_append, List.length_cons]
                      at hbound ⊢
                    omega)
                rw [hVrep2]
                simp only []
                rw [skipWs_shape hws1 hcws1]
                simp only []
                rw [← hres]
          · simp at h
        · simp at h
        · simp at h
    | fields0 =>
      simp only [] at h
      rcases hsk : skipWs cs with _ | ⟨c, r1⟩
      · rw [hsk] at h; simp at h
      · rw [hsk] at h
        simp only [] at h
        by_cases hrb : c = rbrace
        · rw [if_pos hrb] at h
          obtain ⟨hres, hrest⟩ : PRes.fs [] = res ∧ r1 = rest := by simpa using h
          obtain ⟨ws, hcs, hws, hcnws⟩ := skipWs_split hsk
          subst hrb
          refine ⟨ws ++ [rbrace], ?_, fun hm => absurd hm (by decide), trivial, ?_⟩
          · rw [hcs, ← hrest]; simp
          · intro rest2 fuel2 hswap hbound
            rcases fuel2 with _ | g
            · simp [modeBound] at hbound
            · rw [parseAny.eq_def]
              simp only []
              have hin : (ws ++ [rbrace]) ++ rest2 = ws ++ rbrace :: rest2 := by simp
              rw [hin, skipWs_shape hws hcnws]
              simp only []
              rw [if_pos trivial, ← hres]
        · rw [if_neg hrb] at h
          obtain ⟨pre, hdec, _, hshape, hrep⟩ := ih .fieldsN cs res rest h
          obtain ⟨ws0, c0, tail0, hpre0, hws0, hc0nws, hc0ne, hc0nb⟩ := hshape
          refine ⟨pre, hdec, fun hm => absurd hm (by decide), trivial, ?_⟩
          intro rest2 fuel2 hswap hbound
          rcases fuel2 with _ | g
          · simp [modeBound] at hbound
          · rw [parseAny.eq_def]
            simp only []
            have hskip2 : skipWs (pre ++ rest2) = c0 :: (tail0 ++ rest2) := by
              rw [hpre0]
              have h3 : (ws0 ++ c0 :: tail0) ++ rest2 = ws0 ++ c0 :: (tail0 ++ rest2) := by
                simp
              rw [h3]
              exact skipWs_shape hws0 hc0nws _
            rw [hskip2]
            simp only []
            rw [if_neg hc0nb]
            exact hrep rest2 g (swapOk_not_value (by decide) _ _ _)
              (by simp only [modeBound] at hbound ⊢; omega)
    | fieldsN =>
      simp only [] at h
      rcases hsk : skipWs cs with _ | ⟨c, r0⟩
      · rw [hsk] at h; simp at h
      · rw [hsk] at h
        simp only [] at h
        by_cases hqq : c = '"'
        · rw [if_pos hqq] at h
          rcases hps : parseStringBody (r0.length + 1) r0 with _ | ⟨key, r1⟩
          · rw [hps] at h; simp at h
          · rw [hps] at h
            simp only [] at h
            split at h
            · rename_i r2 heq1
              rcases hpv : parseAny f .value r2 with _ | ⟨res0, r3⟩
              · rw [hpv] at h; simp at h
              · rw [hpv] at h
                rcases res0 with v | vs0 | fs0
                · simp only [] at h
                  rcases hsk3 : skipWs r3 with _ | ⟨c2, r4⟩
                  · rw [hsk3] at h; simp at h
                  · rw [hsk3] at h
                    simp only [] at h
                    by_cases hcm : c2 = ','
                    · rw [if_pos hcm] at h
                      rcases hpf : parseAny f .fieldsN r4 with _ | ⟨res1, r5⟩
                      · rw [hpf] at h; simp at h
                      · rw [hpf] at h
                        rcases res1 with v1 | vs1 | fs1
                        · simp at h
                        · simp at h
                        · simp only [] at h
                          obtain ⟨hres, hrest⟩ :
                              PRes.fs ((key, v) :: fs1) = res ∧ r5 = rest := by simpa using h
                          obtain ⟨ws, hcs, hws, hcnws⟩ := skipWs_split hsk
                          obtain ⟨preK, hKdec, hKrep⟩ := parseStringBody_meta _ r0 key r1 hps
                          obtain ⟨ws1, hr1, hws1, hcws1⟩ := skipWs_split heq1
                          obtain ⟨preV, hVdec, _, _, hVrep⟩ := ih .value r2 (.v v) r3 hpv
                          obtain ⟨ws2, hr3, hws2, hcws2⟩ := skipWs_split hsk3
                          obtain ⟨preF, hFdec, _, _, hFrep⟩ := ih .fieldsN r4 (.fs fs1) r5 hpf
                          subst hqq
                          subst hcm
                          refine ⟨ws ++ ('"' :: (preK ++ (ws1 ++ (':' ::
                              (preV ++ (ws2 ++ (',' :: preF))))))), ?_,
                            fun hm => absurd hm (by decide), ?_, ?_⟩
                          · rw [hcs, hKdec, hr1, hVdec, hr3, hFdec, ← hrest]; simp
                          · exact ⟨ws, '"', _, rfl, hws, hcnws, by decide, by decide⟩
                          · intro rest2 fuel2 hswap hbound
                            rcases fuel2 with _ | g
                            · simp [modeBound] at hbound
                            · rw [parseAny.eq_def]
                              simp only []
                              have hin : (ws ++ ('"' :: (preK ++ (ws1 ++ (':' ::
                                  (preV ++ (ws2 ++ (',' :: preF)))))))) ++ rest2 =
                                  ws ++ '"' :: (preK ++ (ws1 ++ (':' ::
                                  (preV ++ (ws2 ++ (',' :: (preF ++ rest2))))))) := by simp
                              rw [hin, skipWs_shape hws hcnws]
                              simp only []
                              rw [if_pos trivial]
                              rw [hKrep (ws1 ++ (':' :: (preV ++ (ws2 ++ (',' ::
                                  (preF ++ rest2))))))
                                ((preK ++ (ws1 ++ (':' :: (preV ++ (ws2 ++ (',' ::
                                  (preF ++ rest2))))))).length + 1)
                                (by rw [List.length_append]; omega)]
                              simp only []
                              rw [skipWs_shape hws1 hcws1]
                              simp only []
                              have hVrep2 := hVrep (ws2 ++ (',' :: (preF ++ rest2))) g
                                (swapOk_of_head (by
                                  rw [hr3]
                                  exact head?_append_cons ws2 ',' r4 (preF ++ rest2)))
                                (by
                                  simp only [modeBound, List.length_append, List.length_cons]
                                    at hbound ⊢
                                  omega)
                              rw [hVrep2]
                              simp only []
                              rw [skipWs_shape hws2 hcws2]
                              simp only []
                              rw [if_pos trivial]
                              have hFrep2 := hFrep rest2 g (swapOk_not_value (by decide) _ _ _)
                                (by
                                  simp only [modeBound, List.length_append, List.length_cons]
                                    at hbound ⊢
                                  omega)
                              rw [hFrep2]
                              simp only []
                              rw [← hres]
                    · rw [if_neg hcm] at h
                      by_cases hcb : c2 = rbrace
                      · rw [if_pos hcb] at h
                        obtain ⟨hres, hrest⟩ :
                            PRes.fs [(key, v)] = res ∧ r4 = rest := by simpa using h
                        obtain ⟨ws, hcs, hws, hcnws⟩ := skipWs_split hsk
                        obtain ⟨preK, hKdec, hKrep⟩ := parseStringBody_meta _ r0 key r1 hps
                        obtain ⟨ws1, hr1, hws1, hcws1⟩ := skipWs_split heq1
                        obtain ⟨preV, hVdec, _, _, hVrep⟩ := ih .value r2 (.v v) r3 hpv
                        obtain ⟨ws2, hr3, hws2, hcws2⟩ := skipWs_split hsk3
                        subst hqq
                        subst hcb
                        refine ⟨ws ++ ('"' :: (preK ++ (ws1 ++ (':' ::
                            (preV ++ (ws2 ++ [rbrace])))))), ?_,
                          fun hm => absurd hm (by decide), ?_, ?_⟩
                        · rw [hcs, hKdec, hr1, hVdec, hr3, ← hrest]; simp
                        · exact ⟨ws, '"', _, rfl, hws, hcnws, by decide, by decide⟩
                        · intro rest2 fuel2 hswap hbound
                          rcases fuel2 with _ | g
                          · simp [modeBound] at hbound
                          · rw [parseAny.eq_def]
                            simp only []
                            have hin : (ws ++ ('"' :: (preK ++ (ws1 ++ (':' ::
                                (preV ++ (ws2 ++ [rbrace]))))))) ++ rest2 =
                                ws ++ '"' :: (preK ++ (ws1 ++ (':' ::
                                (preV ++ (ws2 ++ (rbrace :: rest2)))))) := by simp
                            rw [hin, skipWs_shape hws hcnws]
                            simp only []
                            rw [if_pos trivial]
                            rw [hKrep (ws1 ++ (':' :: (preV ++ (ws2 ++ (rbrace :: rest2)))))
                              ((preK ++ (ws1 ++ (':' :: (preV ++ (ws2 ++
                                (rbrace :: rest2)))))).length + 1)
                              (by rw [List.length_append]; omega)]
                            simp only []
                            rw [skipWs_shape hws1 hcws1]
                            simp only []
                            have hVrep2 := hVrep (ws2 ++ (rbrace :: rest2)) g
                              (swapOk_of_head (by
                                rw [hr3]
                                exact head?_append_cons ws2 rbrace r4 rest2))
                              (by
                                simp only [modeBound, List.length_append, List.length_cons]
                                  at hbound ⊢
                                omega)
                            rw [hVrep2]
                            simp only []
                            rw [skipWs_shape hws2 hcws2]
                            simp only []
                            rw [if_pos trivial, if_neg (by decide)]
                            rw [← hres]
                      · rw [if_neg hcb] at h; simp at h
                · simp at h
                · simp at h
            · simp at h
        · rw [if_neg hqq] at h; simp at h

/-- A value parse that returns an array must have dispatched on an
opening bracket: the input is whitespace, `[`, then an element-mode
parse of the remainder. -/
theorem value_arr_inversion {g : Nat} {cs : List Char} {vs : List JVal} {rest : List Char}
    (h : parseAny (g + 1) .value cs = some (.v (.jarr vs), rest)) :
    ∃ rest0, skipWs cs = '[' :: rest0 ∧ parseAny g .elems0 rest0 = some (.vs vs, rest) := by
  rw [parseAny.eq_def] at h
  simp only [] at h
  rcases hsk : skipWs cs with _ | ⟨c, rest1⟩
  · rw [hsk] at h; simp at h
  · rw [hsk] at h
    simp only [] at h
    by_cases hn : c = 'n'
    · rw [if_pos hn] at h
      split at h
      · simp at h
      · simp at h
    · rw [if_neg hn] at h
      by_cases ht : c = 't'
      · rw [if_pos ht] at h
        split at h
        · simp at h
        · simp at h
      · rw [if_neg ht] at h
        by_cases hf : c = 'f'
        · rw [if_pos hf] at h
          split at h
          · simp at h
          · simp at h
        · rw [if_neg hf] at h
          by_cases hq : c = '"'
          · rw [if_pos hq] at h
            rcases hps : parseStringBody (rest1.length + 1) rest1 with _ | ⟨s, r⟩ <;>
              rw [hps] at h <;> simp at h
          · rw [if_neg hq] at h
            by_cases hbk : c = '['
            · rw [if_pos hbk] at h
              rcases hpa : parseAny g .elems0 rest1 with _ | ⟨res0, r⟩
              · rw [hpa] at h; simp at h
              · rw [hpa] at h
                rcases res0 with v0 | vs0 | fs0
                · simp at h
                · simp only [] at h
                  obtain ⟨h1, h2⟩ : vs0 = vs ∧ r = rest := by simpa using h
                  exact ⟨rest1, by rw [hbk], by rw [h1, h2] at hpa; exact hpa⟩
                · simp at h
            · rw [if_neg hbk] at h
              by_cases hbc : c = lbrace
              · rw [if_pos hbc] at h
                rcases hpa : parseAny g .fields0 rest1 with _ | ⟨res0, r⟩
                · rw [hpa] at h; simp at h
                · rw [hpa] at h
                  rcases res0 with v0 | vs0 | fs0 <;> simp at h
              · rw [if_neg hbc] at h
                rcases hpn : parseNumber (c :: rest1) with _ | ⟨lex, r⟩ <;>
                  rw [hpn] at h <;> simp at h

/-! ## Section 11: the cleaning pipeline on whitespace-padded valid input -/

theorem findIdx?_some_lt {p : Char → Bool} {l : List Char} {i : Nat}
    (h : List.findIdx? p l = some i) : i < l.length := by
  induction l generalizing i with
  | nil => simp [List.findIdx?] at h
  | cons a t ih =>
    rw [List.findIdx?_cons] at h
    by_cases hp : p a = true
    · rw [if_pos hp] at h
      have h0 : i = 0 := by simpa using h.symm
      subst h0
      simp
    · rw [if_neg hp] at h
      rw [List.findIdx?_succ] at h
      rcases Option.map_eq_some'.mp h with ⟨k, hk, hki⟩
      have hlt := ih hk
      rw [← hki]
      simp
      omega

theorem findIdx?_append_none {p : Char → Bool} {l1 l2 : List Char}
    (h : ∀ x ∈ l1, p x = false) :
    List.findIdx? p (l1 ++ l2) = (List.findIdx? p l2).map (fun i => i + l1.length) := by
  rw [List.findIdx?_append, List.findIdx?_eq_none_iff.mpr h]
  rfl

/-- The four JSON whitespace characters. -/
theorem jsonWs_char {c : Char} (h : isJsonWs c = true) :
    c = ' ' ∨ c = '\t' ∨ c = '\n' ∨ c = '\r' := by
  have h2 := h
  simp [isJsonWs] at h2
  tauto

/-- A JSON whitespace character is none of the four bracket characters
and is regex whitespace. -/
theorem jsonWs_ne {c : Char} (h : isJsonWs c = true) :
    c ≠ '[' ∧ c ≠ lbrace ∧ c ≠ ']' ∧ c ≠ rbrace ∧ isRegexWs c = true := by
  rcases jsonWs_char h with h1 | h1 | h1 | h1 <;> subst h1 <;>
    exact ⟨by decide, by decide, by decide, by decide, by decide⟩

/-- The leading trim is unaffected by one leading non-bracket character
when an opening bracket occurs later. -/
theorem dropBeforeFirstBracket_ws_cons {w : Char} {t : List Char}
    (hw1 : w ≠ '[') (hw2 : w ≠ lbrace) (hex : '[' ∈ t) :
    dropBeforeFirstBracket (w :: t) = dropBeforeFirstBracket t := by
  unfold dropBeforeFirstBracket
  have hfi : List.findIdx? (fun c => c = '[') (w :: t) =
      (List.findIdx? (fun c => c = '[') t).map (fun i => i + 1) := by
    rw [List.findIdx?_cons, if_neg (by simp [hw1]), List.findIdx?_succ]
  have hfj : List.findIdx? (fun c => c = lbrace) (w :: t) =
      (List.findIdx? (fun c => c = lbrace) t).map (fun i => i + 1) := by
    rw [List.findIdx?_cons, if_neg (by simp [hw2]), List.findIdx?_succ]
  rw [hfi, hfj]
  obtain ⟨i, hi⟩ : ∃ i, List.findIdx? (fun c => c = '[') t = some i := by
    rcases hni : List.findIdx? (fun c => c = '[') t with _ | i
    · exfalso
      have := List.findIdx?_eq_none_iff.mp hni '[' hex
      simp at this
    · exact ⟨i, rfl⟩
  rw [hi]
  rcases hj : List.findIdx? (fun c => c = lbrace) t with _ | j
  · simp only [Option.map_some', Option.map_none']
    rw [List.drop_succ_cons]
  · simp only [Option.map_some']
    have hmin : min (i + 1) (j + 1) = min i j + 1 := by omega
    rw [hmin, List.drop_succ_cons]

/-- The leading trim ignores an all-whitespace prefix before the first
opening bracket. -/
theorem dropBeforeFirstBracket_padded {ws rest1 : List Char} (hws : allWs ws) :
    dropBeforeFirstBracket (ws ++ '[' :: rest1) = dropBeforeFirstBracket ('[' :: rest1) := by
  induction ws with
  | nil => rfl
  | cons w t ih =>
    have hw := jsonWs_ne (hws w (List.mem_cons_self w t))
    have ht : allWs t := fun d hd => hws d (List.mem_cons_of_mem w hd)
    rw [List.cons_append, dropBeforeFirstBracket_ws_cons hw.1 hw.2.1 (by simp), ih ht]

/-- The trailing cut removes exactly an all-whitespace suffix after a
text ending in a closing bracket. -/
theorem cutAfterLastCloser_padded {core rest : List Char} (hrest : allWs rest)
    (hne : core ≠ []) (hlast : core.getLast? = some ']') :
    cutAfterLastCloser (core ++ rest) = core := by
  have hnoB : ∀ x ∈ rest.reverse, (fun x => decide (x = ']')) x = false := by
    intro x hx
    have hxw := jsonWs_ne (hrest x (List.mem_reverse.mp hx))
    simp [hxw.2.2.1]
  have hnoR : ∀ x ∈ rest.reverse, (fun x => decide (x = rbrace)) x = false := by
    intro x hx
    have hxw := jsonWs_ne (hrest x (List.mem_reverse.mp hx))
    simp [hxw.2.2.2.1]
  have hpos : 1 ≤ core.length := by
    cases core with
    | nil => exact absurd rfl hne
    | cons c t => simp
  have hrevidx : List.findIdx? (fun x => x = ']') (core ++ rest).reverse =
      some rest.length := by
    rw [List.reverse_append, findIdx?_append_none hnoB]
    have hh : core.reverse.head? = some ']' := by
      rw [List.head?_reverse]; exact hlast
    rcases hcr : core.reverse with _ | ⟨c0, t0⟩
    · rw [hcr] at hh; simp at hh
    · have hc0 : c0 = ']' := by rw [hcr] at hh; simpa using hh
      rw [List.findIdx?_cons, if_pos (by simp [hc0])]
      simp
  unfold cutAfterLastCloser lastIdxOf
  rw [hrevidx]
  rcases hj : List.findIdx? (fun x => x = rbrace) (core ++ rest).reverse with _ | k
  · simp only [Option.map_some', Option.map_none']
    have hlen : (core ++ rest).length - 1 - rest.length + 1 = core.length := by
      rw [List.length_append]; omega
    rw [hlen]
    exact List.take_left core rest
  · have hk2 : rest.length ≤ k := by
      rw [List.reverse_append, findIdx?_append_none hnoR] at hj
      rcases Option.map_eq_some'.mp hj with ⟨k0, hk0, hkk⟩
      rw [← hkk]
      simp
    have hklt : k < core.length + rest.length := by
      have := findIdx?_some_lt hj
      simp at this
      omega
    simp only [Option.map_some']
    have hmax : max ((core ++ rest).length - 1 - rest.length)
        ((core ++ rest).length - 1 - k) + 1 = core.length := by
      rw [List.length_append]
      omega
    rw [hmax]
    exact List.take_left core rest

/-- The whole cleaning transformation on a valid array padded with
whitespace: it strips exactly the padding and returns the bracketed
core. -/
theorem cleanedCandidate_padded {wsA core rest : List Char}
    (hwsA : allWs wsA) (hrest : allWs rest)
    (h1 : core.head? = some '[') (h2 : core.getLast? = some ']')
    (hb : backtick ∉ wsA ++ core ++ rest) (ha : '&' ∉ wsA ++ core ++ rest)
    (hl : '<' ∉ wsA ++ core ++ rest) :
    cleanedCandidate (wsA ++ core ++ rest) = core := by
  obtain ⟨coreTail, rfl⟩ : ∃ t, core = '[' :: t := by
    rcases core with _ | ⟨c0, t0⟩
    · simp at h1
    · have hc0 : c0 = '[' := by simpa using h1
      exact ⟨t0, by rw [hc0]⟩
  simp only [cleanedCandidate]
  have hf1 : stripScan matchFenceJson ((wsA ++ '[' :: coreTail ++ rest).length + 1)
      (wsA ++ '[' :: coreTail ++ rest) = wsA ++ '[' :: coreTail ++ rest := by
    apply stripScan_eq_self
    intro n
    cases hm : matchFenceJson ((wsA ++ '[' :: coreTail ++ rest).drop n) with
    | none => rfl
    | some r =>
      exact absurd (List.mem_of_mem_drop (matchFenceJson_mem hm)) hb
  have hf2 : stripScan matchFence ((wsA ++ '[' :: coreTail ++ rest).length + 1)
      (wsA ++ '[' :: coreTail ++ rest) = wsA ++ '[' :: coreTail ++ rest := by
    apply stripScan_eq_self
    intro n
    cases hm : matchFence ((wsA ++ '[' :: coreTail ++ rest).drop n) with
    | none => rfl
    | some r =>
      exact absurd (List.mem_of_mem_drop (matchFence_mem hm)) hb
  rw [hf1, hf2]
  have hshape : wsA ++ '[' :: coreTail ++ rest = wsA ++ '[' :: (coreTail ++ rest) := by simp
  rw [hshape, dropBeforeFirstBracket_padded hwsA,
    dropBeforeFirstBracket_eq_self (by simp)]
  have hback : '[' :: (coreTail ++ rest) = ('[' :: coreTail) ++ rest := by simp
  rw [hback, cutAfterLastCloser_padded hrest (by simp) h2]
  have hacore : '&' ∉ '[' :: coreTail :=
    fun hm => ha (List.mem_append_left _ (List.mem_append_right _ hm))
  have hlcore : '<' ∉ '[' :: coreTail :=
    fun hm => hl (List.mem_append_left _ (List.mem_append_right _ hm))
  rw [entityPass_eq_self hacore, stripTags_eq_self _ _ hlcore, jsTrim_eq_self h1 h2]

/-- C1, amended: on every text that already parses as a non-empty JSON
array and contains none of the rewrite targets of the cleaning passes —
no backtick, no ampersand, no opening angle bracket — cleanJsonResponse
returns the text unchanged except for the leading/trailing whitespace its
substring and trim steps remove: the input splits as whitespace, a
bracket-delimited core and whitespace, the returned text is exactly that
core, and parsing the returned text yields records byte-identical to a
direct parse of the original. -/
theorem c1_clean_identity_on_valid (cs : List Char) (records : List JVal)
    (hparse : parseTop cs = some (.jarr records)) (hne : records ≠ [])
    (hb : backtick ∉ cs) (ha : '&' ∉ cs) (hl : '<' ∉ cs) :
    ∃ core wsPre wsSuf, cs = wsPre ++ core ++ wsSuf ∧ allWs wsPre ∧ allWs wsSuf ∧
      cleanJsonResponse cs = some core ∧ parseTop core = some (.jarr records) := by
  have hparse2 := hparse
  simp only [parseTop] at hparse2
  rcases hpav : parseAny (3 * cs.length + 8) .value cs with _ | ⟨res0, rest⟩
  · rw [hpav] at hparse2; simp at hparse2
  · rw [hpav] at hparse2
    rcases res0 with v | vs0 | fs0
    · simp only [] at hparse2
      by_cases hskr : skipWs rest = []
      · rw [if_pos hskr] at hparse2
        have hv : v = .jarr records := by simpa using hparse2
        subst hv
        have h8 : (3 * cs.length + 8) = (3 * cs.length + 7) + 1 := rfl
        rw [h8] at hpav
        obtain ⟨rest0, hsk, hpe⟩ := value_arr_inversion hpav
        obtain ⟨wsA, hcs, hwsA, _⟩ := skipWs_split hsk
        obtain ⟨preA, hAdec, hAends, _, hArep⟩ :=
          parseAny_meta _ .elems0 rest0 (.vs records) rest hpe
        obtain ⟨mid, hmid⟩ := hAends (Or.inl rfl)
        have hrestWs : allWs rest := fun d hd => List.dropWhile_eq_nil_iff.mp hskr d hd
        have hcore1 : ('[' :: preA).head? = some '[' := rfl
        have hcore2 : ('[' :: preA).getLast? = some ']' := by
          rw [hmid]
          rw [show ('[' :: (mid ++ [']'])) = ('[' :: mid) ++ [']'] from rfl]
          exact List.getLast?_concat _
        have hcsplit : cs = wsA ++ ('[' :: preA) ++ rest := by
          rw [hcs, hAdec]; simp
        have hclean : cleanedCandidate cs = '[' :: preA := by
          rw [hcsplit] at hb ha hl ⊢
          exact cleanedCandidate_padded hwsA hrestWs hcore1 hcore2 hb ha hl
        have hcorefuel : parseAny (3 * ('[' :: preA).length + 8) .value ('[' :: preA) =
            some (.v (.jarr records), []) := by
          have h8b : 3 * ('[' :: preA).length + 8 = (3 * ('[' :: preA).length + 7) + 1 := rfl
          rw [h8b, parseAny.eq_def]
          simp only []
          rw [skipWs_cons_of_not_ws _ (by decide)]
          simp only []
          rw [if_neg (by decide), if_neg (by decide), if_neg (by decide), if_neg (by decide),
            if_pos trivial]
          have hrepA := hArep [] (3 * ('[' :: preA).length + 7) trivial
            (by simp only [modeBound, List.append_nil, List.length_cons]; omega)
          rw [List.append_nil] at hrepA
          rw [hrepA]
        have hptop : parseTop ('[' :: preA) = some (.jarr records) := by
          simp only [parseTop]
          rw [hcorefuel]
          rfl
        refine ⟨'[' :: preA, wsA, rest, hcsplit, hwsA, hrestWs, ?_, hptop⟩
        unfold cleanJsonResponse
        rw [hclean, hptop]
        rfl
      · rw [if_neg hskr] at hparse2; simp at hparse2
    · simp at hparse2
    · simp at hparse2

/-- Input of the witness for the amended C1: a valid record array padded
with leading and trailing whitespace. -/
def c1WitnessInput : List Char := (" [\x7b\"id\":1,\"question\":\"Q?\"\x7d]\n").data

/-- The bracket-delimited core of the witness input of the amended C1. -/
def c1WitnessCore : List Char := "[\x7b\"id\":1,\"question\":\"Q?\"\x7d]".data

/-- Records of the witness input of the amended C1. -/
def c1WitnessRecords : List JVal :=
  [.jobj [("id".data, .jnum ['1']), ("question".data, .jstr "Q?".data)]]

/-- Witness for the amended C1 at a concrete whitespace-padded valid
record array. -/
theorem c1_clean_identity_on_valid_witness :
    ∃ core wsPre wsSuf, c1WitnessInput = wsPre ++ core ++ wsSuf ∧
      allWs wsPre ∧ allWs wsSuf ∧
      cleanJsonResponse c1WitnessInput = some core ∧
      parseTop core = some (.jarr c1WitnessRecords) :=
  c1_clean_identity_on_valid c1WitnessInput c1WitnessRecords (by rfl)
    (by simp [c1WitnessRecords]) (by decide) (by decide) (by decide)

end GeminiAutomation
